import Mathlib

/-!
# A shallow embedding of `malloc.c`

The allocator keeps an intrusive singly linked chain of block headers inside
one growable region obtained with `sbrk`.  The embedding keeps the pointer
structure of the C code:

* a header memory `Mem`, mapping an address to the three fields of the
  `struct _block` stored there (`size`, `next`, `free`); `0` is `NULL`;
* the globals `heapList`, `nextFitPT`, `atexit_registered` and the nine
  statistics counters;
* the program break of the process (`brk`) with the bounds between which the
  operating system lets it move (`brkMin`, `brkMax`).

Integer conventions (LP64, as the `2^64` sizes of the allocator assume):
`size_t` values are naturals below `2^64` and every `size_t` operation is
reduced modulo `2^64`; an `int` is an integer, a conversion `size_t → int`
keeps the low 32 bits as a signed value (`toInt32`) and a conversion
`int → size_t` is the two's complement embedding (`ofInt`).  The increments
`x++` / `x--` of the `int` counters are exact: their overflow is undefined in
C.  Addresses are naturals and address arithmetic is exact.

Every `while` loop takes a fuel argument and reports `Fault.outOfFuel` when it
is exhausted; a failed `assert` is `Fault.assertFailed`, an access through
`NULL` is `Fault.nullDeref`, an access past the mapped memory is
`Fault.segfault`.  A call that returns with some fuel returns the same result
with any larger fuel, so a result `.ok` is a result of the C code.

The operating system is Linux with the GNU C library.  The function `sbrk`
moves the break by the signed increment it is given as long as the break
stays between `brkMin` (the break of the fresh process) and `brkMax`; it
fails with `(void *) -1` above `brkMax`, and it returns the break without
moving it for a negative increment that would pass below `brkMin`.  Memory is
mapped in pages of 4096 bytes, and the break of the fresh process lies on a
page boundary: the heap can be read and written from `brkMin` up to the end
of the page that holds the break (`mappedEnd`), also where no byte was
obtained with `sbrk`.  The header that `growHeap` stores at the old break is
checked against `mappedEnd`; every other store of the allocator goes to a
block of the chain or into the payload of the block it splits.

Headers are kept by address in `Mem`.  The payload bytes are kept in `Bytes`;
only `calloc` and `realloc` touch them.  A `memset` or `memcpy` writes its
bytes whatever lies at the destination: the headers it runs over are read
back from their bytes (`Mem.overwrite`, with the layout of `struct _block` on
a little-endian LP64 machine).
-/

namespace Malloc

/-! ## Machine integers -/

/-- Conversion of a `size_t` value to `int`: the low 32 bits, read as signed. -/
def toInt32 (n : Nat) : Int :=
  if n % 2 ^ 32 < 2 ^ 31 then ((n % 2 ^ 32 : Nat) : Int)
  else ((n % 2 ^ 32 : Nat) : Int) - 2 ^ 32

/-- Conversion of an `int` to `size_t` (usual arithmetic conversions). -/
def ofInt (i : Int) : Nat := (i % 2 ^ 64).toNat

/-- Conversion of a `size_t` value to `intptr_t`, the argument type of `sbrk`. -/
def toIntptr (n : Nat) : Int :=
  if n % 2 ^ 64 < 2 ^ 63 then ((n % 2 ^ 64 : Nat) : Int)
  else ((n % 2 ^ 64 : Nat) : Int) - 2 ^ 64

/-- Addition of `size_t`. -/
def add64 (a b : Nat) : Nat := (a + b) % 2 ^ 64

/-- Subtraction of `size_t`. -/
def sub64 (a b : Nat) : Nat := (a % 2 ^ 64 + 2 ^ 64 - b % 2 ^ 64) % 2 ^ 64

/-- The macro `ALIGN4(s) = (((((s) - 1) >> 2) << 2) + 4)` on a `size_t`. -/
def ALIGN4 (s : Nat) : Nat := add64 (((sub64 s 1 >>> 2) <<< 2) % 2 ^ 64) 4

/-- The value of `sizeof(struct _block)`: 8 + 8 + 1 + 3 bytes, padded to 24. -/
def sizeofBlock : Nat := 24

/-- The value of `INT_MAX`. -/
def INT_MAX : Int := 2147483647

/-! ## Data model -/

/-- The fields of a `struct _block`. -/
structure Block where
  size : Nat
  next : Nat
  free : Bool
deriving DecidableEq, Repr

/-- Header memory: the `struct _block` read at an address. -/
abbrev Mem := Nat → Block

/-- Store one header. -/
def Mem.set (m : Mem) (a : Nat) (b : Block) : Mem := fun x => if x = a then b else m x

/-- The build-time choice of `FIT`, `BEST`, `WORST` or `NEXT`. -/
inductive Fit where
  | first
  | best
  | worst
  | next
deriving DecidableEq, Repr

/-- Ways in which a call does not return. -/
inductive Fault where
  | assertFailed
  | nullDeref
  | outOfFuel
  | segfault
deriving DecidableEq, Repr

/-- The globals of `malloc.c`, the header memory and the program break. -/
structure State where
  mem : Mem
  heapList : Nat
  nextFitPT : Nat
  atexit_registered : Int
  num_mallocs : Int
  num_frees : Int
  num_reuses : Int
  num_grows : Int
  num_splits : Int
  num_coalesces : Int
  num_blocks : Int
  num_requested : Int
  max_heap : Int
  brk : Nat
  brkMin : Nat
  brkMax : Nat

/-- The state of a fresh process whose break is `base` and may grow to `lim`. -/
def State.init (base lim : Nat) : State where
  mem := fun _ => ⟨0, 0, false⟩
  heapList := 0
  nextFitPT := 0
  atexit_registered := 0
  num_mallocs := 0
  num_frees := 0
  num_reuses := 0
  num_grows := 0
  num_splits := 0
  num_coalesces := 0
  num_blocks := 0
  num_requested := 0
  max_heap := 0
  brk := base
  brkMin := base
  brkMax := lim

/-- The nine statistics counters, in the order `printStatistics` prints them. -/
def State.stats (s : State) : List Int :=
  [s.num_mallocs, s.num_frees, s.num_reuses, s.num_grows, s.num_splits,
   s.num_coalesces, s.num_blocks, s.num_requested, s.max_heap]

/-- The test `curr->free && curr->size >= size`. -/
def fits (m : Mem) (size curr : Nat) : Prop := (m curr).free = true ∧ size ≤ (m curr).size

instance (m : Mem) (size curr : Nat) : Decidable (fits m size curr) := by
  unfold fits; infer_instance

/-! ## The operating system -/

/-- The size of a page: the operating system maps memory in whole pages. -/
def pageSize : Nat := 4096

/-- The end of the memory mapped for the heap: the break rounded up to a
whole number of pages, counted from the break of the fresh process, which
lies on a page boundary.  Between the break and this address memory can be
read and written although it was not obtained with `sbrk`; from this address
on every access is a fault. -/
def mappedEnd (s : State) : Nat :=
  s.brkMin + (s.brk - s.brkMin + (pageSize - 1)) / pageSize * pageSize

/-- The call `sbrk(inc)` of the C library on Linux: with `inc = 0` it reports
the break; otherwise it asks the kernel to move the break by `inc` (which may
be negative) and returns the previous break.  The call fails with
`(void *) -1` when the new break would lie above the limit or below address
0.  A negative increment that would take the break below the break of the
fresh process is refused by the kernel, which the library does not notice:
the call returns the break and leaves it where it was. -/
def sbrk (inc : Int) (s : State) : Nat × State :=
  if inc = 0 then (s.brk, s)
  else if (s.brkMin : Int) ≤ (s.brk : Int) + inc ∧ (s.brk : Int) + inc ≤ (s.brkMax : Int) then
    (s.brk, { s with brk := ((s.brk : Int) + inc).toNat })
  else if inc < 0 ∧ 0 ≤ (s.brk : Int) + inc ∧ (s.brk : Int) + inc < (s.brkMin : Int) then
    (s.brk, s)
  else (2 ^ 64 - 1, s)

/-! ## `findFreeBlock` -/

/-- The loop `while (curr && !(curr->free && curr->size >= size))` of the
first-fit search; returns the final `curr` and `*last`. -/
def firstFitLoop (m : Mem) (size : Nat) : Nat → Nat → Nat → Except Fault (Nat × Nat)
  | 0, _, _ => .error .outOfFuel
  | fuel + 1, curr, last =>
    if curr ≠ 0 ∧ ¬ fits m size curr then
      firstFitLoop m size fuel (m curr).next curr
    else .ok (curr, last)

/-- The loop of the best-fit search, carrying `winner` and the `int`
`winning_remain`; returns `winner` and `*last`. -/
def bestFitLoop (m : Mem) (size : Nat) :
    Nat → Nat → Nat → Nat → Int → Except Fault (Nat × Nat)
  | 0, _, _, _, _ => .error .outOfFuel
  | fuel + 1, curr, last, winner, winning_remain =>
    if curr ≠ 0 then
      if fits m size curr ∧ sub64 (m curr).size size < ofInt winning_remain then
        bestFitLoop m size fuel (m curr).next curr curr (toInt32 (sub64 (m curr).size size))
      else
        bestFitLoop m size fuel (m curr).next curr winner winning_remain
    else .ok (winner, last)

/-- The loop of the worst-fit search. -/
def worstFitLoop (m : Mem) (size : Nat) :
    Nat → Nat → Nat → Nat → Int → Except Fault (Nat × Nat)
  | 0, _, _, _, _ => .error .outOfFuel
  | fuel + 1, curr, last, winner, winning_remain =>
    if curr ≠ 0 then
      if fits m size curr ∧ ofInt winning_remain < sub64 (m curr).size size then
        worstFitLoop m size fuel (m curr).next curr curr (toInt32 (sub64 (m curr).size size))
      else
        worstFitLoop m size fuel (m curr).next curr winner winning_remain
    else .ok (winner, last)

/-- The wrap-around loop of the next-fit search,
`while ((curr != benchmark) && !(curr->free && curr->size >= size))`. -/
def wrapLoop (m : Mem) (size benchmark : Nat) : Nat → Nat → Nat → Except Fault (Nat × Nat)
  | 0, _, _ => .error .outOfFuel
  | fuel + 1, curr, last =>
    if curr ≠ benchmark then
      if curr = 0 then .error .nullDeref
      else if ¬ fits m size curr then wrapLoop m size benchmark fuel (m curr).next curr
      else .ok (curr, last)
    else .ok (curr, last)

/-- The function `findFreeBlock(&last, size)`; returns the block (or `0`), the
final `*last` and the state (only `nextFitPT` can change). -/
def findFreeBlock (fit : Fit) (fuel : Nat) (last size : Nat) (s : State) :
    Except Fault (Nat × Nat × State) :=
  match fit with
  | .first => do
    let r ← firstFitLoop s.mem size fuel s.heapList last
    pure (r.1, r.2, s)
  | .best => do
    let r ← bestFitLoop s.mem size fuel s.heapList last 0 INT_MAX
    pure (r.1, r.2, s)
  | .worst => do
    let r ← worstFitLoop s.mem size fuel s.heapList last 0 0
    pure (r.1, r.2, s)
  | .next =>
    if s.nextFitPT = 0 then do
      let r ← firstFitLoop s.mem size fuel s.heapList last
      pure (r.1, r.2, { s with nextFitPT := r.1 })
    else do
      let r ← firstFitLoop s.mem size fuel s.nextFitPT last
      if r.1 = 0 then
        let w ← wrapLoop s.mem size s.nextFitPT fuel s.heapList r.2
        pure (w.1, w.2, { s with nextFitPT := w.1 })
      else pure (r.1, r.2, { s with nextFitPT := r.1 })

/-! ## `growHeap` and `malloc` -/

/-- The function `growHeap(last, size)`; returns the new block or `0`.  The
header of the new block is stored at the old break: when it does not lie
inside the mapped memory the store `curr->size = size` is a fault. -/
def growHeap (last size : Nat) (s : State) : Except Fault (Nat × State) :=
  let r0 := sbrk 0 s
  let curr := r0.1
  let r1 := sbrk (toIntptr (add64 sizeofBlock size)) r0.2
  let prev := r1.1
  let s := r1.2
  if curr ≠ prev then .error .assertFailed
  else if curr = 2 ^ 64 - 1 then .ok (0, s)
  else if mappedEnd s < curr + sizeofBlock then .error .segfault
  else
    let s := if s.heapList = 0 then { s with heapList := curr } else s
    let s := if last ≠ 0 then
        { s with mem := s.mem.set last { s.mem last with next := curr } } else s
    let s := { s with mem := s.mem.set curr ⟨size, 0, false⟩ }
    .ok (curr, { s with
      max_heap := toInt32 (add64 (add64 (ofInt s.max_heap) size) sizeofBlock)
      num_grows := s.num_grows + 1
      num_blocks := s.num_blocks + 1 })

/-- The split of `next` inside `malloc`, taken when
`remainder >= sizeof(struct _block) + 4`. -/
def splitBlock (next size : Nat) (s : State) : State :=
  let newblock := next + size + sizeofBlock
  let m := s.mem
  let m := m.set newblock
    ⟨sub64 (sub64 (m next).size size) sizeofBlock, (m next).next, true⟩
  let m := m.set next { m next with size := size, next := newblock }
  { s with mem := m, num_splits := s.num_splits + 1, num_blocks := s.num_blocks + 1 }

/-- The part of `malloc` that follows a successful search (`if (next)`). -/
def reuseBlock (next size : Nat) (s : State) : State :=
  let remainder : Int := toInt32 (sub64 (s.mem next).size size)
  let s := if add64 sizeofBlock 4 ≤ ofInt remainder then splitBlock next size s else s
  { s with num_reuses := s.num_reuses + 1 }

/-- The first statements of `malloc`: the `atexit` registration and the update
of `num_requested` with the rounded size. -/
def enter (size0 : Nat) (s : State) : State :=
  let s := if s.atexit_registered = 0 then { s with atexit_registered := 1 } else s
  { s with num_requested := toInt32 (add64 (ofInt s.num_requested) (ALIGN4 size0)) }

/-- The two `if` statements of `malloc` after the search: the reuse path when
a block was found, `growHeap` otherwise. -/
def obtainBlock (next last size : Nat) (s : State) : Except Fault (Nat × State) :=
  if next ≠ 0 then .ok (next, reuseBlock next size s) else growHeap last size s

/-- The end of `malloc`: `NULL` when there is no block, otherwise the block is
marked in use and its payload address `BLOCK_DATA(next)` is returned. -/
def handOut (next : Nat) (s : State) : Nat × State :=
  if next = 0 then (0, s)
  else
    (next + sizeofBlock,
      { s with mem := s.mem.set next { s.mem next with free := false }
               num_mallocs := s.num_mallocs + 1 })

/-- The function `malloc(size)`; returns the payload address or `0`. -/
def malloc (fit : Fit) (fuel : Nat) (size0 : Nat) (s : State) : Except Fault (Nat × State) :=
  let size := ALIGN4 size0
  let s := enter size0 s
  if size = 0 then .ok (0, s)
  else do
    let r ← findFreeBlock fit fuel s.heapList size s
    let g ← obtainBlock r.1 r.2.1 size r.2.2
    pure (handOut g.1 g.2)

/-! ## `free` -/

/-- The absorb-and-splice step shared by both coalescing places of `free`:
`a->next = b->next; a->size = a->size + (b->size + sizeof(struct _block))`
and the two counter updates. -/
def absorb (a b : Nat) (s : State) : State :=
  let m := s.mem
  let m := m.set a { m a with next := (m b).next }
  let m := m.set a { m a with size := add64 (m a).size (add64 (m b).size sizeofBlock) }
  { s with mem := m, num_coalesces := s.num_coalesces + 1, num_blocks := s.num_blocks - 1 }

/-- The loop `while (check != NULL && check->next != NULL)` of `free`. -/
def coalesceLoop : Nat → Nat → State → Except Fault State
  | 0, _, _ => .error .outOfFuel
  | fuel + 1, check, s =>
    if check ≠ 0 ∧ (s.mem check).next ≠ 0 then
      let checkNext := (s.mem check).next
      let s := if (s.mem check).free = true ∧ (s.mem checkNext).free = true then
          absorb check checkNext s else s
      coalesceLoop fuel checkNext s
    else .ok s

/-- The first two steps of `free` on the header `curr`: mark it free, then
absorb its successor when there is one and it is free. -/
def markAndMerge (curr : Nat) (s : State) : State :=
  let s := { s with mem := s.mem.set curr { s.mem curr with free := true } }
  let nextblock := (s.mem curr).next
  if nextblock ≠ 0 ∧ (s.mem nextblock).free = true then absorb curr nextblock s else s

/-- The function `free(ptr)`. -/
def free (fuel : Nat) (ptr : Nat) (s : State) : Except Fault State :=
  if ptr = 0 then .ok s
  else
    let curr := ptr - sizeofBlock
    if curr = 0 then .error .nullDeref
    else if (s.mem curr).free ≠ false then .error .assertFailed
    else do
      let s ← coalesceLoop fuel (markAndMerge curr s).heapList (markAndMerge curr s)
      pure { s with num_frees := s.num_frees + 1 }

/-! ## Chains, calls and observations -/

/-- The list of block addresses met from pointer `p` by following `next` up to
`NULL`: `IsChain m p l` says that this list is `l`. -/
def IsChain (m : Mem) : Nat → List Nat → Prop
  | p, [] => p = 0
  | p, x :: l => p = x ∧ x ≠ 0 ∧ IsChain m (m x).next l

instance IsChain.decide (m : Mem) : (p : Nat) → (l : List Nat) → Decidable (IsChain m p l)
  | p, [] => by unfold IsChain; infer_instance
  | p, x :: l => by
    unfold IsChain
    have := IsChain.decide m (m x).next l
    infer_instance

/-- The last block of a list, `d` when the list is empty: where a scan that
starts with `*last = d` and runs over the whole list leaves `*last`. -/
def lastOr : List Nat → Nat → Nat
  | [], d => d
  | x :: l, _ => lastOr l x

/-- The blocks of a list that are free with `size >= requested`. -/
def fitting (m : Mem) (size : Nat) (l : List Nat) : List Nat :=
  l.filter (fun a => decide (fits m size a))

/-- No two consecutive blocks of the list are both marked free. -/
def NoAdjacentFree (m : Mem) : List Nat → Prop
  | [] => True
  | [_] => True
  | x :: y :: l => ¬ ((m x).free = true ∧ (m y).free = true) ∧ NoAdjacentFree m (y :: l)

/-- One call of the interface. -/
inductive Call where
  | malloc (size : Nat)
  | free (ptr : Nat)
deriving DecidableEq, Repr

/-- Run a sequence of calls; the addresses returned by the `malloc` calls are
collected in order. -/
def runCalls (fit : Fit) (fuel : Nat) : List Call → State → Except Fault (List Nat × State)
  | [], s => .ok ([], s)
  | .malloc n :: cs, s => do
    let r ← malloc fit fuel n s
    let q ← runCalls fit fuel cs r.2
    pure (r.1 :: q.1, q.2)
  | .free p :: cs, s => do
    let r ← free fuel p s
    runCalls fit fuel cs r

/-- The state after a run that returned (the given default otherwise). -/
def stateOf {α : Type} (d : State) (r : Except Fault (α × State)) : State :=
  match r with
  | .ok x => x.2
  | .error _ => d

/-- The value returned by a run, when it returned. -/
def valueOf {α : Type} (r : Except Fault (α × State)) : Option α :=
  match r with
  | .ok x => some x.1
  | .error _ => none

/-- The block returned by a search, when it returned. -/
def foundOf (r : Except Fault (Nat × Nat × State)) : Option Nat :=
  match r with
  | .ok x => some x.1
  | .error _ => none

/-- The fault of a call that did not return. -/
def faultOf {α : Type} (r : Except Fault α) : Option Fault :=
  match r with
  | .ok _ => none
  | .error e => some e

/-- A fresh process with break `1000` and room up to `2^40`. -/
def fresh : State := State.init 1000 (2 ^ 40)

/-- A chain of three free blocks of sizes 20, 50 and 30. -/
def threeFree : State :=
  { fresh with
    mem := fun a =>
      if a = 1000 then ⟨20, 1044, true⟩
      else if a = 1044 then ⟨50, 1118, true⟩
      else if a = 1118 then ⟨30, 0, true⟩
      else ⟨0, 0, false⟩
    heapList := 1000
    brk := 1172 }

/-- The state after `malloc(40)` and `free` of the block in a fresh process. -/
def freedOnce : State := stateOf fresh (runCalls .first 2 [.malloc 40, .free 1024] fresh)

/-- The blocks of the list lie back to back from address `a` to address `e`:
each block starts where the previous one ends (header plus payload). -/
def Tiled (m : Mem) : Nat → Nat → List Nat → Prop
  | a, e, [] => a = e
  | a, e, x :: l => x = a ∧ Tiled m (x + sizeofBlock + (m x).size) e l

/-- No three consecutive blocks of the list are all marked free. -/
def NoTriple (m : Mem) : List Nat → Prop
  | x :: y :: z :: l =>
    ¬ ((m x).free = true ∧ (m y).free = true ∧ (m z).free = true) ∧ NoTriple m (y :: z :: l)
  | _ => True

/-- The largest request for which `sizeof(struct _block) + ALIGN4(n)` is a
positive `intptr_t`. -/
def maxRequest : Nat := 2 ^ 63 - 28

/-- The states reached from the fresh process with break `base` and limit
`lim` by `malloc` calls with requests of at most `bound` bytes and `free` calls
on live addresses, together with the list of live addresses (returned by
`malloc` and not yet freed). -/
inductive Reach (fit : Fit) (bound base lim : Nat) : State → List Nat → Prop
  | init : Reach fit bound base lim (State.init base lim) []
  | byMalloc (s s' : State) (L : List Nat) (fuel n p : Nat) :
      Reach fit bound base lim s L → n ≤ bound → malloc fit fuel n s = .ok (p, s') → p ≠ 0 →
      Reach fit bound base lim s' (p :: L)
  | byMallocNull (s s' : State) (L : List Nat) (fuel n : Nat) :
      Reach fit bound base lim s L → n ≤ bound → malloc fit fuel n s = .ok (0, s') →
      Reach fit bound base lim s' L
  | byFree (s s' : State) (L : List Nat) (fuel p : Nat) :
      Reach fit bound base lim s L → p ∈ L → free fuel p s = .ok s' →
      Reach fit bound base lim s' (L.erase p)

/-- The well-formedness of the heap: the chain `l` starts at `heapList`, tiles
the region from the initial break to the current break, and has no two
consecutive free blocks; the break stays below `(void *) -1`; `num_blocks`
counts the blocks of the chain and `max_heap` is the `int` value of the number
of bytes between the two breaks. -/
structure Inv (s : State) (l : List Nat) : Prop where
  base_pos : 0 < s.brkMin
  brk_le : s.brk ≤ s.brkMax
  lim_lt : s.brkMax + 1 < 2 ^ 64
  chain : IsChain s.mem s.heapList l
  tiled : Tiled s.mem s.brkMin s.brk l
  noadj : NoAdjacentFree s.mem l
  blocks : s.num_blocks = (l.length : Int)
  heap : s.max_heap = toInt32 (s.brk - s.brkMin)

/-- What the coalescing pass of `free` keeps when it turns the chain `l` of
state `s` into the chain `l'` of state `s'`: the head, the free flags, every
block in use, the headers outside the chain and the globals; `num_blocks`
goes down by the number of blocks that left the chain. -/
structure Swept (s s' : State) (l l' : List Nat) : Prop where
  head : l'.head? = l.head?
  sub : ∀ x ∈ l', x ∈ l ∧ (s'.mem x).free = (s.mem x).free
  used : ∀ x ∈ l, (s.mem x).free = false → x ∈ l'
  frame : ∀ x, x ∉ l → s'.mem x = s.mem x
  heapList : s'.heapList = s.heapList
  brk : s'.brk = s.brk
  brkMin : s'.brkMin = s.brkMin
  brkMax : s'.brkMax = s.brkMax
  blocks : s'.num_blocks + (l.length : Int) = s.num_blocks + (l'.length : Int)
  max_heap : s'.max_heap = s.max_heap

/-- Every live address is the payload of a block of the chain that is in use,
and no address is live twice. -/
def LiveOk (m : Mem) (l L : List Nat) : Prop :=
  L.Nodup ∧ ∀ p ∈ L, ∃ a ∈ l, p = a + sizeofBlock ∧ (m a).free = false

/-- The live addresses after a sequence of calls that returned the addresses
`rs`, starting from the live addresses `L`; `none` when a request exceeds
`bound`, a `free` is not on a live address, or `rs` does not match the calls. -/
def liveAfter (bound : Nat) : List Call → List Nat → List Nat → Option (List Nat)
  | [], [], L => some L
  | .malloc n :: cs, r :: rs, L =>
    if n ≤ bound then liveAfter bound cs rs (if r = 0 then L else r :: L) else none
  | .free p :: cs, rs, L =>
    if p ∈ L then liveAfter bound cs rs (L.erase p) else none
  | _, _, _ => none

/-- Nine calls after which block 1152 is in the chain before block 1024 and
is overwritten by a split; the `malloc(2^64 - 180)` call moves the break down
by 156 bytes. -/
def shuffleCalls : List Call :=
  [.malloc 100, .malloc 4, .malloc 4, .malloc (2 ^ 64 - 180), .malloc 160, .malloc 4,
   .free 1148, .free 1048, .malloc 104]

/-- The state after `shuffleCalls` under first-fit. -/
def shuffled : State := stateOf fresh (runCalls .first 7 shuffleCalls fresh)

/-- The state after a `free` that returned (the given default otherwise). -/
def freedOf (d : State) (r : Except Fault State) : State :=
  match r with
  | .ok x => x
  | .error _ => d

/-- The state after `free(1232)` in the state `shuffled`. -/
def shuffledFreed : State := freedOf shuffled (free 7 1232 shuffled)

/-- The bytes taken by the blocks of a list: payload plus header, summed. -/
def chainBytes (m : Mem) (l : List Nat) : Nat :=
  (l.map fun a => (m a).size + sizeofBlock).sum

/-- The state after `malloc(4)` and `malloc(2^64 - 24)` in a fresh process:
in the second call the sum `sizeof(struct _block) + size` wraps to 0, the
break does not move, and the header of the new block is stored at the break,
inside the page that the first call had mapped. -/
def pastBreak : State :=
  stateOf fresh (runCalls .first 2 [.malloc 4, .malloc (2 ^ 64 - 24)] fresh)

/-- The state after the run `malloc(2^31)` in a fresh process. -/
def bigOnce : State := stateOf fresh (runCalls .first 1 [.malloc (2 ^ 31)] fresh)

/-- The state after `malloc(4)`, `malloc(2^64 - 24)` and `malloc(4)` in a fresh
process. -/
def pastBreakTwice : State :=
  stateOf fresh (runCalls .first 3 [.malloc 4, .malloc (2 ^ 64 - 24), .malloc 4] fresh)

/-- The state after `malloc(40)`, `malloc(4)` and `free` of the first block. -/
def twoBlocks : State :=
  stateOf fresh (runCalls .first 3 [.malloc 40, .malloc 4, .free 1024] fresh)

/-- The state after `malloc(4294967304)` and `free` of the block in a fresh
process: one free block of size `2^32 + 8`. -/
def hugeFreed : State :=
  stateOf fresh (runCalls .first 2 [.malloc 4294967304, .free 1024] fresh)

/-- The state after the pass of `free` over the chain of `threeFree`. -/
def threeSwept : State := freedOf threeFree (coalesceLoop 4 threeFree.heapList threeFree)

/-- Six calls under next-fit; the last `free` merges block 1028, on which the
cursor stands, into block 1000. -/
def staleCalls : List Call :=
  [.malloc 4, .malloc 4, .free 1052, .malloc 4, .free 1024, .free 1052]

/-- The state after `staleCalls` under next-fit. -/
def stale : State := stateOf fresh (runCalls .next 3 staleCalls fresh)

/-! ## Payload bytes, `calloc` and `realloc` -/

/-- The payload bytes of the process, by address. -/
abbrev Bytes := Nat → Nat

/-- The byte at offset `i` of a `struct _block` in memory (LP64, little
endian): `size` in bytes 0 to 7, `next` in bytes 8 to 15, `free` in byte 16;
the other bytes are padding. -/
def headerByte (b : Block) (i : Nat) : Nat :=
  if i < 8 then b.size / 256 ^ i % 256
  else if i < 16 then b.next / 256 ^ (i - 8) % 256
  else if i = 16 then (if b.free = true then 1 else 0)
  else 0

/-- The 64-bit value stored in the 8 bytes from address `a` on. -/
def word64 (f : Nat → Nat) (a : Nat) : Nat :=
  ((List.range 8).map fun i => f (a + i) % 256 * 256 ^ i).sum

/-- The header memory after the `n` bytes from `dst` on have been overwritten
with the bytes `w`: a header whose 24 bytes are clear of the range is
unchanged; a header that the range reaches is read back from its bytes, the
overwritten ones and the ones it had (a `free` byte other than 0 reads as
true). -/
def Mem.overwrite (m : Mem) (dst n : Nat) (w : Bytes) : Mem := fun a =>
  if a + sizeofBlock ≤ dst ∨ dst + n ≤ a then m a
  else
    let f : Nat → Nat := fun x =>
      if dst ≤ x ∧ x < dst + n then w x else headerByte (m a) (x - a)
    ⟨word64 f a, word64 f (a + 8), decide (f (a + 16) % 256 ≠ 0)⟩

/-- The `n` bytes from `a` on lie in the memory mapped for the heap.  Below
the break of the fresh process lies the image of the program, which is not
part of the embedding. -/
def inHeap (s : State) (a n : Nat) : Prop := s.brkMin ≤ a ∧ a + n ≤ mappedEnd s

instance (s : State) (a n : Nat) : Decidable (inHeap s a n) := by
  unfold inHeap; infer_instance

/-- The library function `memset(dst, c, n)`: the `n` bytes from `dst` on are
set to `(unsigned char) c`, whatever lies there, headers included; a write
through `NULL` or past the mapped memory is a fault. -/
def memset (dst c n : Nat) (s : State) (d : Bytes) : Except Fault (State × Bytes) :=
  if n = 0 then .ok (s, d)
  else if dst = 0 then .error .nullDeref
  else if ¬ inHeap s dst n then .error .segfault
  else
    .ok ({ s with mem := s.mem.overwrite dst n fun _ => c % 256 },
      fun a => if dst ≤ a ∧ a < dst + n then c % 256 else d a)

/-- The library function `memcpy(dst, src, n)`: the `n` bytes from `dst` on
become the `n` payload bytes that were at `src`, whatever lies at `dst`,
headers included; an access through `NULL` or past the mapped memory is a
fault. -/
def memcpy (dst src n : Nat) (s : State) (d : Bytes) : Except Fault (State × Bytes) :=
  if n = 0 then .ok (s, d)
  else if dst = 0 ∨ src = 0 then .error .nullDeref
  else if ¬ (inHeap s dst n ∧ inHeap s src n) then .error .segfault
  else
    .ok ({ s with mem := s.mem.overwrite dst n fun x => d (src + (x - dst)) },
      fun a => if dst ≤ a ∧ a < dst + n then d (src + (a - dst)) else d a)

/-- The function `calloc(nmemb, size)`; the product is a `size_t`. -/
def calloc (fit : Fit) (fuel nmemb size : Nat) (s : State) (d : Bytes) :
    Except Fault (Nat × State × Bytes) := do
  let sizeRequested := (nmemb * size) % 2 ^ 64
  let r ← malloc fit fuel sizeRequested s
  let c ← memset r.1 0 sizeRequested r.2 d
  pure (r.1, c.1, c.2)

/-- The function `realloc(ptr, size)`.  The size of the old block is read
from its header after the `malloc` call, as in the C code. -/
def realloc (fit : Fit) (fuel ptr size : Nat) (s : State) (d : Bytes) :
    Except Fault (Nat × State × Bytes) :=
  if size = 0 then
    if ptr ≠ 0 then do
      let s ← free fuel ptr s
      pure (0, s, d)
    else .ok (0, s, d)
  else if ptr = 0 then do
    let r ← malloc fit fuel size s
    pure (r.1, r.2, d)
  else do
    let r ← malloc fit fuel size s
    let mpointer := r.1
    let temp := ptr - sizeofBlock
    if temp = 0 then .error .nullDeref
    else do
      let c ← memcpy mpointer ptr (r.2.mem temp).size r.2 d
      let s ← free fuel ptr c.1
      pure (mpointer, s, c.2)

/-- The address returned by `calloc` or `realloc`, when the call returned. -/
def addressOf (r : Except Fault (Nat × State × Bytes)) : Option Nat :=
  match r with
  | .ok x => some x.1
  | .error _ => none

/-- The allocator state after `calloc` or `realloc` (the given default when
the call did not return). -/
def heapOf (s : State) (r : Except Fault (Nat × State × Bytes)) : State :=
  match r with
  | .ok x => x.2.1
  | .error _ => s

/-- The state after `malloc(40)` in a fresh process. -/
def oneBlock : State := stateOf fresh (runCalls .first 1 [.malloc 40] fresh)

/-- The state after `malloc(8000)` in a fresh process: the block takes the
first two pages of the heap nearly whole. -/
def twoPages : State := stateOf fresh (runCalls .first 1 [.malloc 8000] fresh)

/-- The state after `malloc(4)`, `malloc(4)`, `malloc(56)` and `free` of the
first block: a free block of size 4 at 1000, then the blocks 1028 and 1056 in
use; the payload of the last one is the 56 bytes from 1080 on. -/
def threeLive : State :=
  stateOf fresh (runCalls .first 4 [.malloc 4, .malloc 4, .malloc 56, .free 1024] fresh)

/-- The state after `malloc(200)` in a fresh process. -/
def oneBlock200 : State := stateOf fresh (runCalls .first 1 [.malloc 200] fresh)

/-! ## Machine arithmetic and the search loops -/

theorem ALIGN4_eq (n : Nat) (h1 : 1 ≤ n) (h2 : n ≤ 2 ^ 64 - 4) :
    ALIGN4 n = (n - 1) / 4 * 4 + 4 := by
  unfold ALIGN4 add64 sub64
  simp only [Nat.shiftRight_eq_div_pow, Nat.shiftLeft_eq]
  norm_num at *
  omega

theorem firstFitLoop_fits (m : Mem) (size : Nat) :
    ∀ (fuel curr last r l : Nat), firstFitLoop m size fuel curr last = .ok (r, l) →
      r ≠ 0 → fits m size r := by
  intro fuel
  induction fuel with
  | zero => intro curr last r l h; simp [firstFitLoop] at h
  | succ k ih =>
    intro curr last r l h hr
    unfold firstFitLoop at h
    split at h
    · exact ih _ _ _ _ h hr
    · rename_i hc
      simp only [Except.ok.injEq, Prod.mk.injEq] at h
      obtain ⟨rfl, rfl⟩ := h
      by_contra hf
      exact hc ⟨hr, hf⟩

theorem bestFitLoop_fits (m : Mem) (size : Nat) :
    ∀ (fuel curr last w : Nat) (wr : Int) (r l : Nat),
      bestFitLoop m size fuel curr last w wr = .ok (r, l) →
      (w ≠ 0 → fits m size w) → r ≠ 0 → fits m size r := by
  intro fuel
  induction fuel with
  | zero => intro curr last w wr r l h; simp [bestFitLoop] at h
  | succ k ih =>
    intro curr last w wr r l h hw hr
    unfold bestFitLoop at h
    split at h
    · split at h
      · rename_i hc
        exact ih _ _ _ _ _ _ h (fun _ => hc.1) hr
      · exact ih _ _ _ _ _ _ h hw hr
    · simp only [Except.ok.injEq, Prod.mk.injEq] at h
      obtain ⟨rfl, rfl⟩ := h
      exact hw hr

theorem worstFitLoop_fits (m : Mem) (size : Nat) :
    ∀ (fuel curr last w : Nat) (wr : Int) (r l : Nat),
      worstFitLoop m size fuel curr last w wr = .ok (r, l) →
      (w ≠ 0 → fits m size w) → r ≠ 0 → fits m size r := by
  intro fuel
  induction fuel with
  | zero => intro curr last w wr r l h; simp [worstFitLoop] at h
  | succ k ih =>
    intro curr last w wr r l h hw hr
    unfold worstFitLoop at h
    split at h
    · split at h
      · rename_i hc
        exact ih _ _ _ _ _ _ h (fun _ => hc.1) hr
      · exact ih _ _ _ _ _ _ h hw hr
    · simp only [Except.ok.injEq, Prod.mk.injEq] at h
      obtain ⟨rfl, rfl⟩ := h
      exact hw hr

/-- For the three full-scan strategies a block returned by the search is free
and large enough, and the search leaves the state alone. -/
theorem findFreeBlock_fits (fit : Fit) (hfit : fit ≠ .next) (fuel last size : Nat) (s : State)
    (b l : Nat) (st : State) (h : findFreeBlock fit fuel last size s = .ok (b, l, st)) :
    st = s ∧ (b ≠ 0 → fits s.mem size b) := by
  cases fit with
  | next => exact absurd rfl hfit
  | first =>
    simp only [findFreeBlock, bind, Except.bind, pure, Except.pure] at h
    split at h
    · simp at h
    · rename_i r hr
      simp only [Except.ok.injEq, Prod.mk.injEq] at h
      obtain ⟨rfl, rfl, rfl⟩ := h
      exact ⟨rfl, firstFitLoop_fits _ _ _ _ _ _ _ hr⟩
  | best =>
    simp only [findFreeBlock, bind, Except.bind, pure, Except.pure] at h
    split at h
    · simp at h
    · rename_i r hr
      simp only [Except.ok.injEq, Prod.mk.injEq] at h
      obtain ⟨rfl, rfl, rfl⟩ := h
      exact ⟨rfl, bestFitLoop_fits _ _ _ _ _ _ _ _ _ hr (fun h => absurd rfl h)⟩
  | worst =>
    simp only [findFreeBlock, bind, Except.bind, pure, Except.pure] at h
    split at h
    · simp at h
    · rename_i r hr
      simp only [Except.ok.injEq, Prod.mk.injEq] at h
      obtain ⟨rfl, rfl, rfl⟩ := h
      exact ⟨rfl, worstFitLoop_fits _ _ _ _ _ _ _ _ _ hr (fun h => absurd rfl h)⟩


theorem enter_mem (n : Nat) (s : State) : (enter n s).mem = s.mem := by
  unfold enter; split <;> rfl

theorem Mem.set_same (m : Mem) (a : Nat) (b : Block) : m.set a b a = b := by
  simp [Mem.set]

theorem Mem.set_other (m : Mem) (a x : Nat) (b : Block) (h : x ≠ a) : m.set a b x = m x := by
  simp [Mem.set, h]

theorem ofInt_toInt32_ge (d : Nat) (h : add64 sizeofBlock 4 ≤ ofInt (toInt32 d)) : 28 ≤ d := by
  unfold add64 sizeofBlock ofInt toInt32 at h
  norm_num at h
  split at h <;> omega

theorem sub64_of_le (a b : Nat) (h : b ≤ a) (ha : a < 2 ^ 64) : sub64 a b = a - b := by
  unfold sub64
  norm_num at *
  omega

/-- The header of a block handed out by `growHeap`. -/
theorem growHeap_block (last size : Nat) (s s' : State) (c : Nat)
    (h : growHeap last size s = .ok (c, s')) (hc : c ≠ 0) :
    s'.mem c = ⟨size, 0, false⟩ := by
  unfold growHeap at h
  simp only at h
  split at h
  · simp at h
  · split at h
    · simp only [Except.ok.injEq, Prod.mk.injEq] at h
      exact absurd h.1.symm hc
    · split at h
      · simp at h
      · simp only [Except.ok.injEq, Prod.mk.injEq] at h
        obtain ⟨rfl, rfl⟩ := h
        simp [Mem.set]

/-- The header of the found block after the reuse path of `malloc`. -/
theorem reuseBlock_block (b size : Nat) (s : State) (hf : size ≤ (s.mem b).size) :
    size ≤ ((reuseBlock b size s).mem b).size ∧
    ((reuseBlock b size s).mem b).size ≤ (s.mem b).size := by
  unfold reuseBlock
  simp only
  split
  · simp [splitBlock, Mem.set, hf]
  · exact ⟨hf, le_refl _⟩

theorem handOut_block (c : Nat) (s s' : State) (p : Nat) (h : handOut c s = (p, s')) (hp : p ≠ 0) :
    c ≠ 0 ∧ p = c + sizeofBlock ∧ (s'.mem c).free = false ∧ (s'.mem c).size = (s.mem c).size ∧
      (s'.mem c).next = (s.mem c).next := by
  unfold handOut at h
  split at h
  · simp only [Prod.mk.injEq] at h
    exact absurd h.1.symm hp
  · rename_i hc
    simp only [Prod.mk.injEq] at h
    obtain ⟨rfl, rfl⟩ := h
    refine ⟨hc, rfl, ?_⟩
    simp only [Mem.set_same, and_self]

theorem malloc_ok (fit : Fit) (fuel n : Nat) (s s' : State) (p : Nat) (hA : ALIGN4 n ≠ 0)
    (h : malloc fit fuel n s = .ok (p, s')) :
    ∃ b last st c sg, findFreeBlock fit fuel (enter n s).heapList (ALIGN4 n) (enter n s)
        = .ok (b, last, st) ∧ obtainBlock b last (ALIGN4 n) st = .ok (c, sg) ∧
      handOut c sg = (p, s') := by
  unfold malloc at h
  simp only [hA, if_false, bind, Except.bind] at h
  split at h
  · simp at h
  · rename_i r hr
    split at h
    · simp at h
    · rename_i g hg
      simp only [pure, Except.pure, Except.ok.injEq] at h
      exact ⟨r.1, r.2.1, r.2.2, g.1, g.2, hr, hg, h⟩

/-- C1. Under first-fit, best-fit or worst-fit, in every state (the reachable
ones included) and for every request `1 <= n <= 2^64 - 4`: when `malloc(n)`
returns an address `p`, the block whose payload starts at `p` is marked not
free and its size field is at least `n`; and when the search had found a
block `b`, that block was free and large enough, `p` is the payload address
of `b`, and the size field after the call is at most the size `b` had. -/
theorem malloc_returned_block (fit : Fit) (hfit : fit ≠ .next) (fuel n : Nat) (s s' : State)
    (p : Nat) (h1 : 1 ≤ n) (h2 : n ≤ 2 ^ 64 - 4)
    (h : malloc fit fuel n s = .ok (p, s')) (hp : p ≠ 0) :
    (s'.mem (p - sizeofBlock)).free = false ∧ n ≤ (s'.mem (p - sizeofBlock)).size ∧
    ∀ b last st, findFreeBlock fit fuel (enter n s).heapList (ALIGN4 n) (enter n s)
        = .ok (b, last, st) → b ≠ 0 →
      fits s.mem (ALIGN4 n) b ∧ p = b + sizeofBlock ∧
      (s'.mem (p - sizeofBlock)).size ≤ (s.mem b).size := by
  have hA := ALIGN4_eq n h1 h2
  have hA0 : ALIGN4 n ≠ 0 := by omega
  have hAn : n ≤ ALIGN4 n := by omega
  obtain ⟨b, last, st, c, sg, hfind, hob, hho⟩ := malloc_ok fit fuel n s s' p hA0 h
  obtain ⟨rfl, hfits⟩ := findFreeBlock_fits fit hfit _ _ _ _ _ _ _ hfind
  rw [enter_mem] at hfits
  obtain ⟨hc, rfl, hfree, hsize, -⟩ := handOut_block c sg s' p hho hp
  have hpc : c + sizeofBlock - sizeofBlock = c := Nat.add_sub_cancel ..
  rw [hpc, hsize]
  refine ⟨hfree, ?_⟩
  unfold obtainBlock at hob
  by_cases hb : b = 0
  · rw [if_neg (not_not.mpr hb)] at hob
    have hblk := growHeap_block _ _ _ _ _ hob hc
    rw [hblk]
    refine ⟨hAn, ?_⟩
    intro b' last' st' hfind' hb'
    rw [hfind] at hfind'
    simp only [Except.ok.injEq, Prod.mk.injEq] at hfind'
    exact absurd (hfind'.1.symm.trans hb) hb'
  · rw [if_pos hb] at hob
    simp only [Except.ok.injEq, Prod.mk.injEq] at hob
    obtain ⟨rfl, rfl⟩ := hob
    have hf := hfits hb
    have hblk := reuseBlock_block b (ALIGN4 n) (enter n s) (by rw [enter_mem]; exact hf.2)
    rw [enter_mem] at hblk
    refine ⟨le_trans hAn hblk.1, ?_⟩
    intro b' last' st' hfind' hb'
    rw [hfind] at hfind'
    simp only [Except.ok.injEq, Prod.mk.injEq] at hfind'
    obtain ⟨rfl, -, -⟩ := hfind'
    exact ⟨hf, rfl, hblk.2⟩

/-! ## Small requests -/

theorem ALIGN4_zero : ALIGN4 0 = 0 := by decide

theorem toInt32_add_zero (i : Int) (h1 : -2 ^ 31 ≤ i) (h2 : i < 2 ^ 31) :
    toInt32 (add64 (ofInt i) 0) = i := by
  unfold toInt32 add64 ofInt
  norm_num at *
  omega

/-- C1 on two calls.  In a fresh process `malloc(10)` grows the heap and hands
out the block at the old break, in use and of size 12.  After `malloc(40)`
and `free`, `malloc(4)` finds the free block 1000 of size 40 and hands it out
with a size field of at most 40. -/
theorem malloc_returned_block_witness :
    ((stateOf fresh (malloc .first 1 10 fresh)).mem (1024 - sizeofBlock) = ⟨12, 0, false⟩ ∧
      ((stateOf fresh (malloc .first 1 10 fresh)).mem (1024 - sizeofBlock)).free = false ∧
      10 ≤ ((stateOf fresh (malloc .first 1 10 fresh)).mem (1024 - sizeofBlock)).size) ∧
    (fits freedOnce.mem (ALIGN4 4) 1000 ∧ 1024 = 1000 + sizeofBlock ∧
      ((stateOf fresh (malloc .first 2 4 freedOnce)).mem (1024 - sizeofBlock)).size
        ≤ (freedOnce.mem 1000).size) :=
  ⟨⟨by decide,
    (malloc_returned_block .first (by decide) 1 10 fresh
      (stateOf fresh (malloc .first 1 10 fresh)) 1024 (by decide) (by decide) rfl
      (by decide)).1,
    (malloc_returned_block .first (by decide) 1 10 fresh
      (stateOf fresh (malloc .first 1 10 fresh)) 1024 (by decide) (by decide) rfl
      (by decide)).2.1⟩,
   (malloc_returned_block .first (by decide) 2 4 freedOnce
      (stateOf fresh (malloc .first 2 4 freedOnce)) 1024 (by decide) (by decide) rfl
      (by decide)).2.2 1000 1000 (enter 4 freedOnce) rfl (by decide)⟩

/-- C3. `ALIGN4(0)` wraps to 0, and `malloc(0)` returns `NULL` under every
strategy and in every state, and leaves the header memory (every size, free
flag and link), the head of the chain, the next-fit cursor, the nine counters
and the break as they were (`num_requested` holding an `int`). -/
theorem malloc_zero (fit : Fit) (fuel : Nat) (s : State)
    (hlo : -2 ^ 31 ≤ s.num_requested) (hhi : s.num_requested < 2 ^ 31) :
    ALIGN4 0 = 0 ∧
    ∃ s', malloc fit fuel 0 s = .ok (0, s') ∧ s'.mem = s.mem ∧ s'.heapList = s.heapList ∧
      s'.nextFitPT = s.nextFitPT ∧ s'.stats = s.stats ∧
      s'.brk = s.brk := by
  refine ⟨ALIGN4_zero, enter 0 s, ?_, ?_⟩
  · unfold malloc
    simp only [ALIGN4_zero, if_true]
  · have h := toInt32_add_zero s.num_requested hlo hhi
    unfold enter State.stats
    rw [ALIGN4_zero]
    split <;> simp only [h, and_self]

/-- C3 at a state with a chain of three blocks, under next-fit. -/
theorem malloc_zero_witness :
    ALIGN4 0 = 0 ∧
    ∃ s', malloc .next 0 0 threeFree = .ok (0, s') ∧ s'.mem = threeFree.mem ∧
      s'.heapList = threeFree.heapList ∧ s'.nextFitPT = threeFree.nextFitPT ∧
      s'.stats = threeFree.stats ∧ s'.brk = threeFree.brk :=
  malloc_zero .next 0 threeFree (by decide) (by decide)

/-! ## First-fit -/

theorem IsChain.ne_zero (m : Mem) : ∀ (l : List Nat) (p : Nat), IsChain m p l → ∀ a ∈ l, a ≠ 0 := by
  intro l
  induction l with
  | nil => intro p _ a ha; simp at ha
  | cons x l ih =>
    intro p h a ha
    obtain ⟨-, hx, hl⟩ := h
    rcases List.mem_cons.mp ha with rfl | ha'
    · exact hx
    · exact ih _ hl a ha'

/-- On a chain the first-fit loop stops at the first fitting block, or at `NULL`. -/
theorem firstFitLoop_chain (m : Mem) (size : Nat) :
    ∀ (l : List Nat) (p last fuel : Nat), IsChain m p l → l.length < fuel →
      ∃ last', firstFitLoop m size fuel p last = .ok ((fitting m size l).headD 0, last') := by
  intro l
  induction l with
  | nil =>
    intro p last fuel h hf
    obtain rfl : p = 0 := h
    obtain ⟨k, rfl⟩ : ∃ k, fuel = k + 1 := ⟨fuel - 1, by simp at hf; omega⟩
    exact ⟨last, by simp [firstFitLoop, fitting]⟩
  | cons x l ih =>
    intro p last fuel h hf
    obtain ⟨rfl, hx, hl⟩ := h
    obtain ⟨k, rfl⟩ : ∃ k, fuel = k + 1 := ⟨fuel - 1, by simp at hf; omega⟩
    unfold firstFitLoop
    by_cases hfit : fits m size p
    · refine ⟨last, ?_⟩
      simp [hfit, fitting, List.filter_cons]
    · obtain ⟨last', hl'⟩ := ih (m p).next p k hl (by simp at hf; omega)
      refine ⟨last', ?_⟩
      rw [if_pos ⟨hx, hfit⟩, hl']
      simp [fitting, List.filter_cons, hfit]

theorem fitting_headD_eq_zero (m : Mem) (size : Nat) (l : List Nat) (h : ∀ a ∈ l, a ≠ 0) :
    (fitting m size l).headD 0 = 0 ↔ ∀ a ∈ l, ¬ fits m size a := by
  unfold fitting
  constructor
  · intro h0 a ha hfa
    have hmem : a ∈ l.filter (fun a => decide (fits m size a)) :=
      List.mem_filter.mpr ⟨ha, by simpa using hfa⟩
    cases hfl : l.filter (fun a => decide (fits m size a)) with
    | nil => rw [hfl] at hmem; simp at hmem
    | cons y t =>
      rw [hfl] at h0
      simp only [List.headD_cons] at h0
      have hy : y ∈ l.filter (fun a => decide (fits m size a)) := by rw [hfl]; simp
      exact h y (List.mem_filter.mp hy).1 h0
  · intro hn
    have : l.filter (fun a => decide (fits m size a)) = [] := by
      rw [List.filter_eq_nil_iff]
      intro a ha
      simpa using hn a ha
    rw [this]; rfl

/-- C9. Under first-fit, on every chain and for every requested size, the search
returns with the first block in chain order that is free with
`size >= requested` (the head of the sublist of fitting blocks), and with
`NULL` exactly when no block of the chain is free with `size >= requested`. -/
theorem first_fit_search (s : State) (l : List Nat) (last size fuel : Nat)
    (hc : IsChain s.mem s.heapList l) (hf : l.length < fuel) :
    (∃ last', findFreeBlock .first fuel last size s
        = .ok ((fitting s.mem size l).headD 0, last', s)) ∧
    ((fitting s.mem size l).headD 0 = 0 ↔ ∀ a ∈ l, ¬ fits s.mem size a) := by
  constructor
  · obtain ⟨last', h⟩ := firstFitLoop_chain s.mem size l s.heapList last fuel hc hf
    refine ⟨last', ?_⟩
    simp only [findFreeBlock, h, bind, Except.bind, pure, Except.pure]
  · exact fitting_headD_eq_zero _ _ _ (IsChain.ne_zero _ _ _ hc)

/-- C9 on the chain of free blocks 20, 50, 30 with request 25: the 50-block. -/
theorem first_fit_search_witness :
    (∃ last', findFreeBlock .first 4 0 25 threeFree = .ok (1044, last', threeFree)) ∧
    ¬ (∀ a ∈ [1000, 1044, 1118], ¬ fits threeFree.mem 25 a) := by
  have h := first_fit_search threeFree [1000, 1044, 1118] 0 25 4 (by decide) (by decide)
  have e : (fitting threeFree.mem 25 [1000, 1044, 1118]).headD 0 = 1044 := by decide
  rw [e] at h
  exact ⟨h.1, fun hn => absurd (h.2.mpr hn) (by decide)⟩

/-! ## Evaluations of the search strategies and of a failed growth -/

/-- When the extending `sbrk` call fails, the `assert (curr == prev)` of
`growHeap` compares the break with `(void *) -1` and fails. -/
theorem growHeap_failure_aborts (last size : Nat) (s : State)
    (hfail : (sbrk (toIntptr (add64 sizeofBlock size)) s).1 = 2 ^ 64 - 1)
    (hbrk : s.brk ≠ 2 ^ 64 - 1) : growHeap last size s = .error .assertFailed := by
  unfold growHeap
  have h0 : sbrk 0 s = (s.brk, s) := by simp [sbrk]
  simp only [h0, hfail]
  rw [if_pos hbrk]

/-- C4. In a fresh process whose break cannot move (`brkMax = 1010`), the
search of `malloc(4)` finds no block, the extending `sbrk` call fails, and
`malloc` does not return `NULL`: the assertion of `growHeap` aborts it. -/
theorem malloc_sbrk_failure_aborts :
    foundOf (findFreeBlock .first 1 0 4 (enter 4 (State.init 1000 1010))) = some 0 ∧
    (sbrk (toIntptr (add64 sizeofBlock 4)) (enter 4 (State.init 1000 1010))).1 = 2 ^ 64 - 1 ∧
    malloc .first 1 4 (State.init 1000 1010) = .error .assertFailed :=
  ⟨by decide, by decide, by rfl⟩

/-- C5. Under worst-fit, `malloc(4)`, `free`, `malloc(4)` in a fresh process: after
the `free` the block is in the chain, free and of size `ALIGN4(4) = 4`, but
the second `malloc(4)` returns another address and grows the heap again. -/
theorem worst_fit_no_reuse :
    valueOf (runCalls .worst 2 [.malloc 4, .free 1024] fresh) = some [1024] ∧
    IsChain (stateOf fresh (runCalls .worst 2 [.malloc 4, .free 1024] fresh)).mem
      (stateOf fresh (runCalls .worst 2 [.malloc 4, .free 1024] fresh)).heapList [1000] ∧
    (stateOf fresh (runCalls .worst 2 [.malloc 4, .free 1024] fresh)).mem 1000
      = ⟨ALIGN4 4, 0, true⟩ ∧
    (stateOf fresh (runCalls .worst 2 [.malloc 4, .free 1024] fresh)).num_grows = 1 ∧
    valueOf (runCalls .worst 3 [.malloc 4, .free 1024, .malloc 4] fresh) = some [1024, 1052] ∧
    (stateOf fresh (runCalls .worst 3 [.malloc 4, .free 1024, .malloc 4] fresh)).num_grows = 2 :=
  ⟨by decide, by decide, by decide, by decide, by decide, by decide⟩

/-- The state after `malloc(4)`, `free`, `malloc(4)` under next-fit. -/
theorem nextFit_state :
    IsChain (stateOf fresh (runCalls .next 2 [.malloc 4, .free 1024, .malloc 4] fresh)).mem
      (stateOf fresh (runCalls .next 2 [.malloc 4, .free 1024, .malloc 4] fresh)).heapList
      [1000] ∧
    (stateOf fresh (runCalls .next 2 [.malloc 4, .free 1024, .malloc 4] fresh)).nextFitPT
      = 1000 :=
  ⟨by decide, by decide⟩

/-- C6. Under next-fit, after `malloc(4)`, `free`, `malloc(4)` the chain is the
single block 1000, in use, and the cursor is that block.  No block of the
chain is free, yet the search for 4 bytes returns block 1000 and leaves the
cursor on it, and `malloc(4)` hands out the live address 1024 once more. -/
theorem next_fit_returns_cursor :
    ¬ fits (stateOf fresh (runCalls .next 2 [.malloc 4, .free 1024, .malloc 4] fresh)).mem 4
      1000 ∧
    foundOf (findFreeBlock .next 3 1000 4
      (stateOf fresh (runCalls .next 2 [.malloc 4, .free 1024, .malloc 4] fresh)))
      = some 1000 ∧
    valueOf (runCalls .next 3 [.malloc 4, .free 1024, .malloc 4, .malloc 4] fresh)
      = some [1024, 1024, 1024] :=
  ⟨by decide, by decide, by decide⟩

/-- C7. Under best-fit, a chain whose only block is free and of size
2147483652: the block fits a request of 4 bytes, its leftover 2147483648 is
not below `INT_MAX`, and the search returns `NULL`. -/
theorem best_fit_misses_large_block :
    IsChain (stateOf fresh (runCalls .best 2 [.malloc 2147483652, .free 1024] fresh)).mem
      (stateOf fresh (runCalls .best 2 [.malloc 2147483652, .free 1024] fresh)).heapList
      [1000] ∧
    fits (stateOf fresh (runCalls .best 2 [.malloc 2147483652, .free 1024] fresh)).mem 4 1000 ∧
    foundOf (findFreeBlock .best 2 1000 4
      (stateOf fresh (runCalls .best 2 [.malloc 2147483652, .free 1024] fresh))) = some 0 :=
  ⟨by decide, by decide, by decide⟩

/-- C8. Under worst-fit, a chain whose only block is free and of size 12: the
block fits a request of 12 bytes, its leftover 0 is not above the initial
`winning_remain = 0`, and the search returns `NULL`. -/
theorem worst_fit_misses_exact_block :
    IsChain (stateOf fresh (runCalls .worst 2 [.malloc 12, .free 1024] fresh)).mem
      (stateOf fresh (runCalls .worst 2 [.malloc 12, .free 1024] fresh)).heapList [1000] ∧
    fits (stateOf fresh (runCalls .worst 2 [.malloc 12, .free 1024] fresh)).mem 12 1000 ∧
    foundOf (findFreeBlock .worst 2 1000 12
      (stateOf fresh (runCalls .worst 2 [.malloc 12, .free 1024] fresh))) = some 0 :=
  ⟨by decide, by decide, by decide⟩

/-! ## Chains of headers -/

theorem IsChain.unique (m : Mem) :
    ∀ (l1 l2 : List Nat) (p : Nat), IsChain m p l1 → IsChain m p l2 → l1 = l2 := by
  intro l1
  induction l1 with
  | nil =>
    intro l2 p h1 h2
    obtain rfl : p = 0 := h1
    cases l2 with
    | nil => rfl
    | cons y t => exact absurd h2.1.symm h2.2.1
  | cons x l ih =>
    intro l2 p h1 h2
    obtain ⟨rfl, hx, hl⟩ := h1
    cases l2 with
    | nil => exact absurd h2 hx
    | cons y t =>
      obtain ⟨rfl, -, ht⟩ := h2
      rw [ih t _ hl ht]

theorem IsChain.suffix (m : Mem) :
    ∀ (l1 l2 : List Nat) (p x : Nat), IsChain m p (l1 ++ x :: l2) → IsChain m x (x :: l2) := by
  intro l1
  induction l1 with
  | nil =>
    intro l2 p x h
    obtain ⟨rfl, hx, hl⟩ := h
    exact ⟨rfl, hx, hl⟩
  | cons y l ih =>
    intro l2 p x h
    exact ih l2 _ x h.2.2

theorem IsChain.nodup (m : Mem) : ∀ (l : List Nat) (p : Nat), IsChain m p l → l.Nodup := by
  intro l
  induction l with
  | nil => intro p _; exact List.nodup_nil
  | cons x l ih =>
    intro p h
    obtain ⟨rfl, hx, hl⟩ := h
    refine List.nodup_cons.mpr ⟨?_, ih _ hl⟩
    intro hmem
    obtain ⟨l1, l2, rfl⟩ := List.append_of_mem hmem
    have h2 := (IsChain.suffix m l1 l2 _ p hl).2.2
    have := IsChain.unique m _ _ _ hl h2
    have hlen := congrArg List.length this
    simp at hlen
    omega

theorem IsChain.chain_frame (m m' : Mem) :
    ∀ (l : List Nat) (p : Nat), (∀ x ∈ l, (m' x).next = (m x).next) → IsChain m p l →
      IsChain m' p l := by
  intro l
  induction l with
  | nil => intro p _ h; exact h
  | cons x l ih =>
    intro p hf h
    obtain ⟨rfl, hx, hl⟩ := h
    refine ⟨rfl, hx, ?_⟩
    rw [hf p (List.mem_cons_self _ _)]
    exact ih _ (fun y hy => hf y (List.mem_cons_of_mem _ hy)) hl

/-- Replace the part of a chain that starts at block `x`. -/
theorem IsChain.splice (m m' : Mem) :
    ∀ (l1 l2 l2' : List Nat) (p x : Nat), IsChain m p (l1 ++ x :: l2) →
      (∀ y ∈ l1, (m' y).next = (m y).next) → IsChain m' x (x :: l2') →
      IsChain m' p (l1 ++ x :: l2') := by
  intro l1
  induction l1 with
  | nil =>
    intro l2 l2' p x h _ h'
    obtain ⟨rfl, -, -⟩ := h
    exact h'
  | cons y l ih =>
    intro l2 l2' p x h hf h'
    obtain ⟨rfl, hy, hl⟩ := h
    refine ⟨rfl, hy, ?_⟩
    rw [hf p (List.mem_cons_self _ _)]
    exact ih l2 l2' _ x hl (fun z hz => hf z (List.mem_cons_of_mem _ hz)) h'

/-- Linking a new block `c` behind the tail of a chain. -/
theorem IsChain.append_tail (m m' : Mem) (c : Nat) (hc : c ≠ 0) (hc0 : (m' c).next = 0) :
    ∀ (l : List Nat) (p t : Nat), IsChain m p (l ++ [t]) → c ∉ l ++ [t] →
      (∀ y ∈ l, (m' y).next = (m y).next) → (m' t).next = c →
      IsChain m' p (l ++ [t] ++ [c]) := by
  intro l p t h hcl hf ht
  have h' : IsChain m' t (t :: [c]) := by
    have hs := IsChain.suffix m l [] p t h
    exact ⟨rfl, hs.2.1, by rw [ht]; exact ⟨rfl, hc, hc0⟩⟩
  have := IsChain.splice m m' l [] [c] p t h hf h'
  simpa using this

/-! ## Where a failed search leaves `last` -/

theorem firstFitLoop_last (m : Mem) (size : Nat) :
    ∀ (l : List Nat) (p last fuel last' : Nat), IsChain m p l →
      firstFitLoop m size fuel p last = .ok (0, last') → last' = lastOr l last := by
  intro l
  induction l with
  | nil =>
    intro p last fuel last' h hr
    obtain rfl : p = 0 := h
    cases fuel with
    | zero => simp [firstFitLoop] at hr
    | succ k =>
      simp only [firstFitLoop, ne_eq, not_true_eq_false, false_and, if_false, Except.ok.injEq,
        Prod.mk.injEq, true_and] at hr
      exact hr.symm
  | cons x l ih =>
    intro p last fuel last' h hr
    obtain ⟨rfl, hx, hl⟩ := h
    cases fuel with
    | zero => simp [firstFitLoop] at hr
    | succ k =>
      unfold firstFitLoop at hr
      split at hr
      · exact ih _ _ _ _ hl hr
      · simp only [Except.ok.injEq, Prod.mk.injEq] at hr
        exact absurd hr.1 hx

theorem bestFitLoop_chain (m : Mem) (size : Nat) :
    ∀ (l : List Nat) (p last fuel w0 : Nat) (wr0 : Int), IsChain m p l → l.length < fuel →
      ∃ w, bestFitLoop m size fuel p last w0 wr0 = .ok (w, lastOr l last) ∧
        (w = w0 ∨ w ∈ l) := by
  intro l
  induction l with
  | nil =>
    intro p last fuel w0 wr0 h hf
    obtain rfl : p = 0 := h
    obtain ⟨k, rfl⟩ : ∃ k, fuel = k + 1 := ⟨fuel - 1, by simp at hf; omega⟩
    exact ⟨w0, by simp [bestFitLoop, lastOr], Or.inl rfl⟩
  | cons x l ih =>
    intro p last fuel w0 wr0 h hf
    obtain ⟨rfl, hx, hl⟩ := h
    obtain ⟨k, rfl⟩ : ∃ k, fuel = k + 1 := ⟨fuel - 1, by simp at hf; omega⟩
    have hk : l.length < k := by simp at hf; omega
    unfold bestFitLoop
    rw [if_pos hx]
    split
    · obtain ⟨w, hw, hw'⟩ := ih (m p).next p k p _ hl hk
      refine ⟨w, hw, Or.inr ?_⟩
      rcases hw' with rfl | h
      · exact List.mem_cons_self _ _
      · exact List.mem_cons_of_mem _ h
    · obtain ⟨w, hw, hw'⟩ := ih (m p).next p k w0 wr0 hl hk
      refine ⟨w, hw, ?_⟩
      rcases hw' with rfl | h
      · exact Or.inl rfl
      · exact Or.inr (List.mem_cons_of_mem _ h)

theorem worstFitLoop_chain (m : Mem) (size : Nat) :
    ∀ (l : List Nat) (p last fuel w0 : Nat) (wr0 : Int), IsChain m p l → l.length < fuel →
      ∃ w, worstFitLoop m size fuel p last w0 wr0 = .ok (w, lastOr l last) ∧
        (w = w0 ∨ w ∈ l) := by
  intro l
  induction l with
  | nil =>
    intro p last fuel w0 wr0 h hf
    obtain rfl : p = 0 := h
    obtain ⟨k, rfl⟩ : ∃ k, fuel = k + 1 := ⟨fuel - 1, by simp at hf; omega⟩
    exact ⟨w0, by simp [worstFitLoop, lastOr], Or.inl rfl⟩
  | cons x l ih =>
    intro p last fuel w0 wr0 h hf
    obtain ⟨rfl, hx, hl⟩ := h
    obtain ⟨k, rfl⟩ : ∃ k, fuel = k + 1 := ⟨fuel - 1, by simp at hf; omega⟩
    have hk : l.length < k := by simp at hf; omega
    unfold worstFitLoop
    rw [if_pos hx]
    split
    · obtain ⟨w, hw, hw'⟩ := ih (m p).next p k p _ hl hk
      refine ⟨w, hw, Or.inr ?_⟩
      rcases hw' with rfl | h
      · exact List.mem_cons_self _ _
      · exact List.mem_cons_of_mem _ h
    · obtain ⟨w, hw, hw'⟩ := ih (m p).next p k w0 wr0 hl hk
      refine ⟨w, hw, ?_⟩
      rcases hw' with rfl | h
      · exact Or.inl rfl
      · exact Or.inr (List.mem_cons_of_mem _ h)

/-- The loops of the best-fit and worst-fit searches do not depend on the fuel
once they return. -/
theorem bestFitLoop_last (m : Mem) (size : Nat) (l : List Nat) (p last fuel w0 : Nat) (wr0 : Int)
    (w last' : Nat) (h : IsChain m p l)
    (hr : bestFitLoop m size fuel p last w0 wr0 = .ok (w, last')) :
    last' = lastOr l last ∧ (w = w0 ∨ w ∈ l) := by
  induction l generalizing p last fuel w0 wr0 with
  | nil =>
    obtain rfl : p = 0 := h
    cases fuel with
    | zero => simp [bestFitLoop] at hr
    | succ k =>
      simp only [bestFitLoop, ne_eq, not_true_eq_false, if_false, Except.ok.injEq,
        Prod.mk.injEq] at hr
      exact ⟨hr.2.symm, Or.inl hr.1.symm⟩
  | cons x l ih =>
    obtain ⟨rfl, hx, hl⟩ := h
    cases fuel with
    | zero => simp [bestFitLoop] at hr
    | succ k =>
      unfold bestFitLoop at hr
      rw [if_pos hx] at hr
      split at hr
      · obtain ⟨h1, h2⟩ := ih _ _ _ _ _ hl hr
        refine ⟨h1, Or.inr ?_⟩
        rcases h2 with rfl | h
        · exact List.mem_cons_self _ _
        · exact List.mem_cons_of_mem _ h
      · obtain ⟨h1, h2⟩ := ih _ _ _ _ _ hl hr
        refine ⟨h1, ?_⟩
        rcases h2 with rfl | h
        · exact Or.inl rfl
        · exact Or.inr (List.mem_cons_of_mem _ h)

theorem worstFitLoop_last (m : Mem) (size : Nat) (l : List Nat) (p last fuel w0 : Nat)
    (wr0 : Int) (w last' : Nat) (h : IsChain m p l)
    (hr : worstFitLoop m size fuel p last w0 wr0 = .ok (w, last')) :
    last' = lastOr l last ∧ (w = w0 ∨ w ∈ l) := by
  induction l generalizing p last fuel w0 wr0 with
  | nil =>
    obtain rfl : p = 0 := h
    cases fuel with
    | zero => simp [worstFitLoop] at hr
    | succ k =>
      simp only [worstFitLoop, ne_eq, not_true_eq_false, if_false, Except.ok.injEq,
        Prod.mk.injEq] at hr
      exact ⟨hr.2.symm, Or.inl hr.1.symm⟩
  | cons x l ih =>
    obtain ⟨rfl, hx, hl⟩ := h
    cases fuel with
    | zero => simp [worstFitLoop] at hr
    | succ k =>
      unfold worstFitLoop at hr
      rw [if_pos hx] at hr
      split at hr
      · obtain ⟨h1, h2⟩ := ih _ _ _ _ _ hl hr
        refine ⟨h1, Or.inr ?_⟩
        rcases h2 with rfl | h
        · exact List.mem_cons_self _ _
        · exact List.mem_cons_of_mem _ h
      · obtain ⟨h1, h2⟩ := ih _ _ _ _ _ hl hr
        refine ⟨h1, ?_⟩
        rcases h2 with rfl | h
        · exact Or.inl rfl
        · exact Or.inr (List.mem_cons_of_mem _ h)

theorem firstFitLoop_mem (m : Mem) (size : Nat) (l : List Nat) (p last fuel r last' : Nat)
    (h : IsChain m p l) (hr : firstFitLoop m size fuel p last = .ok (r, last')) :
    r = 0 ∨ r ∈ l := by
  induction l generalizing p last fuel with
  | nil =>
    obtain rfl : p = 0 := h
    cases fuel with
    | zero => simp [firstFitLoop] at hr
    | succ k =>
      simp only [firstFitLoop, ne_eq, not_true_eq_false, false_and, if_false, Except.ok.injEq,
        Prod.mk.injEq] at hr
      exact Or.inl hr.1.symm
  | cons x l ih =>
    obtain ⟨rfl, hx, hl⟩ := h
    cases fuel with
    | zero => simp [firstFitLoop] at hr
    | succ k =>
      unfold firstFitLoop at hr
      split at hr
      · rcases ih _ _ _ hl hr with h | h
        · exact Or.inl h
        · exact Or.inr (List.mem_cons_of_mem _ h)
      · simp only [Except.ok.injEq, Prod.mk.injEq] at hr
        exact Or.inr (hr.1 ▸ List.mem_cons_self _ _)

theorem wrapLoop_ne_zero (m : Mem) (size benchmark : Nat) (hb : benchmark ≠ 0) :
    ∀ (fuel curr last w last' : Nat), wrapLoop m size benchmark fuel curr last = .ok (w, last') →
      w ≠ 0 := by
  intro fuel
  induction fuel with
  | zero => intro curr last w last' h; simp [wrapLoop] at h
  | succ k ih =>
    intro curr last w last' h
    unfold wrapLoop at h
    split at h
    · split at h
      · simp at h
      · rename_i hc0
        split at h
        · exact ih _ _ _ _ h
        · simp only [Except.ok.injEq, Prod.mk.injEq] at h
          exact h.1 ▸ hc0
    · rename_i hcb
      simp only [Except.ok.injEq, Prod.mk.injEq] at h
      have : curr = benchmark := not_not.mp hcb
      exact h.1 ▸ this ▸ hb

theorem lastOr_cons (x : Nat) (l : List Nat) (d d' : Nat) :
    lastOr (x :: l) d = lastOr (x :: l) d' := rfl

theorem lastOr_append_singleton (l : List Nat) (t d : Nat) : lastOr (l ++ [t]) d = t := by
  induction l generalizing d with
  | nil => rfl
  | cons x l ih => exact ih x

/-- A search that returns `NULL` leaves `*last` on the tail of the chain and
changes at most the next-fit cursor, which it clears. -/
theorem findFreeBlock_not_found (fit : Fit) (fuel last size : Nat) (s st : State)
    (l : List Nat) (last' : Nat) (hc : IsChain s.mem s.heapList l)
    (h : findFreeBlock fit fuel last size s = .ok (0, last', st)) :
    last' = lastOr l last ∧ st = { s with nextFitPT := st.nextFitPT } := by
  cases fit with
  | first =>
    simp only [findFreeBlock, bind, Except.bind, pure, Except.pure] at h
    split at h
    · simp at h
    · rename_i r hr
      obtain ⟨r1, r2⟩ := r
      simp only [Except.ok.injEq, Prod.mk.injEq] at h
      obtain ⟨rfl, rfl, rfl⟩ := h
      exact ⟨firstFitLoop_last _ _ _ _ _ _ _ hc hr, rfl⟩
  | best =>
    simp only [findFreeBlock, bind, Except.bind, pure, Except.pure] at h
    split at h
    · simp at h
    · rename_i r hr
      obtain ⟨r1, r2⟩ := r
      simp only [Except.ok.injEq, Prod.mk.injEq] at h
      obtain ⟨rfl, rfl, rfl⟩ := h
      exact ⟨(bestFitLoop_last _ _ _ _ _ _ _ _ _ _ hc hr).1, rfl⟩
  | worst =>
    simp only [findFreeBlock, bind, Except.bind, pure, Except.pure] at h
    split at h
    · simp at h
    · rename_i r hr
      obtain ⟨r1, r2⟩ := r
      simp only [Except.ok.injEq, Prod.mk.injEq] at h
      obtain ⟨rfl, rfl, rfl⟩ := h
      exact ⟨(worstFitLoop_last _ _ _ _ _ _ _ _ _ _ hc hr).1, rfl⟩
  | next =>
    simp only [findFreeBlock, bind, Except.bind, pure, Except.pure] at h
    split at h
    · split at h
      · simp at h
      · rename_i r hr
        obtain ⟨r1, r2⟩ := r
        simp only [Except.ok.injEq, Prod.mk.injEq] at h
        obtain ⟨rfl, rfl, rfl⟩ := h
        exact ⟨firstFitLoop_last _ _ _ _ _ _ _ hc hr, rfl⟩
    · rename_i hcur
      split at h
      · simp at h
      · rename_i r hr
        split at h
        · split at h
          · simp at h
          · rename_i w hw
            obtain ⟨w1, w2⟩ := w
            simp only [Except.ok.injEq, Prod.mk.injEq] at h
            exact absurd h.1 (wrapLoop_ne_zero _ _ _ hcur _ _ _ _ _ hw)
        · rename_i hr0
          simp only [Except.ok.injEq, Prod.mk.injEq] at h
          exact absurd h.1 hr0

/-- After an `sbrk` call that extended the heap by at least one header, the
header at the old break lies in mapped memory. -/
theorem sbrk_mapped (k : Nat) (s : State) (h0 : sizeofBlock ≤ k) (h1 : k < 2 ^ 63)
    (hos : (sbrk (toIntptr k) s).1 ≠ 2 ^ 64 - 1) :
    ¬ mappedEnd (sbrk (toIntptr k) s).2 < s.brk + sizeofBlock := by
  have hk : toIntptr k = (k : Int) := by
    unfold toIntptr
    have : k % 2 ^ 64 = k := Nat.mod_eq_of_lt (by omega)
    rw [this, if_pos h1]
  rw [hk] at hos ⊢
  unfold sbrk at hos ⊢
  have hk0 : (k : Int) ≠ 0 := by unfold sizeofBlock at h0; omega
  have hneg : ¬ ((k : Int) < 0 ∧ 0 ≤ (s.brk : Int) + (k : Int) ∧
      (s.brk : Int) + (k : Int) < (s.brkMin : Int)) := by omega
  rw [if_neg hk0] at hos ⊢
  by_cases hc : (s.brkMin : Int) ≤ (s.brk : Int) + (k : Int) ∧
      (s.brk : Int) + (k : Int) ≤ (s.brkMax : Int)
  · rw [if_pos hc]
    unfold mappedEnd pageSize
    show ¬ s.brkMin + (((s.brk : Int) + (k : Int)).toNat - s.brkMin + (4096 - 1)) / 4096 * 4096
      < s.brk + sizeofBlock
    omega
  · rw [if_neg hc, if_neg hneg] at hos
    exact absurd rfl hos

/-- What `growHeap` does when the extending `sbrk` call succeeds and the
header at the old break lies in mapped memory. -/
theorem growHeap_success (last size : Nat) (s : State)
    (hos : (sbrk (toIntptr (add64 sizeofBlock size)) s).1 ≠ 2 ^ 64 - 1)
    (hmap : ¬ mappedEnd (sbrk (toIntptr (add64 sizeofBlock size)) s).2 < s.brk + sizeofBlock) :
    ∃ s', growHeap last size s = .ok (s.brk, s') ∧
      s'.mem = ((if last ≠ 0 then s.mem.set last { s.mem last with next := s.brk }
        else s.mem).set s.brk ⟨size, 0, false⟩) ∧
      s'.heapList = (if s.heapList = 0 then s.brk else s.heapList) ∧
      s'.nextFitPT = s.nextFitPT ∧
      s'.num_grows = s.num_grows + 1 ∧ s'.num_blocks = s.num_blocks + 1 ∧
      s'.num_mallocs = s.num_mallocs ∧ s'.num_splits = s.num_splits ∧
      s'.num_reuses = s.num_reuses ∧ s'.num_frees = s.num_frees ∧
      s'.num_coalesces = s.num_coalesces ∧ s'.num_requested = s.num_requested ∧
      s'.max_heap = toInt32 (add64 (add64 (ofInt s.max_heap) size) sizeofBlock) ∧
      s'.brk = (sbrk (toIntptr (add64 sizeofBlock size)) s).2.brk ∧
      s'.brkMin = s.brkMin ∧ s'.brkMax = s.brkMax := by
  have h0 : sbrk 0 s = (s.brk, s) := by simp [sbrk]
  have h1 : (sbrk (toIntptr (add64 sizeofBlock size)) s).1 = s.brk := by
    unfold sbrk at hos ⊢
    split
    · rfl
    · split
      · rfl
      · split
        · rfl
        · rename_i h1 h2 h3
          rw [if_neg h1, if_neg h2, if_neg h3] at hos
          exact absurd rfl hos
  have h2 : ∃ b, (sbrk (toIntptr (add64 sizeofBlock size)) s).2 = { s with brk := b } := by
    unfold sbrk
    split
    · exact ⟨s.brk, rfl⟩
    · split
      · exact ⟨_, rfl⟩
      · split
        · exact ⟨s.brk, rfl⟩
        · exact ⟨s.brk, rfl⟩
  obtain ⟨b, hb⟩ := h2
  rw [h1] at hos
  rw [hb] at hmap
  unfold growHeap
  simp only [h0, h1, hb, ne_eq, not_true_eq_false, if_false, hos, hmap]
  by_cases hh : s.heapList = 0 <;> by_cases hl : last = 0 <;>
    simp [hh, hl]

/-! ## Heap growth inside `malloc` -/

theorem enter_fields (n : Nat) (s : State) :
    (enter n s).heapList = s.heapList ∧ (enter n s).nextFitPT = s.nextFitPT ∧
    (enter n s).num_mallocs = s.num_mallocs ∧ (enter n s).num_frees = s.num_frees ∧
    (enter n s).num_reuses = s.num_reuses ∧ (enter n s).num_grows = s.num_grows ∧
    (enter n s).num_splits = s.num_splits ∧ (enter n s).num_coalesces = s.num_coalesces ∧
    (enter n s).num_blocks = s.num_blocks ∧ (enter n s).max_heap = s.max_heap ∧
    (enter n s).brk = s.brk ∧ (enter n s).brkMin = s.brkMin ∧
    (enter n s).brkMax = s.brkMax := by
  unfold enter; split <;> simp

theorem malloc_of_find (fit : Fit) (fuel n : Nat) (s st : State) (b last : Nat)
    (hA : ALIGN4 n ≠ 0)
    (hfind : findFreeBlock fit fuel (enter n s).heapList (ALIGN4 n) (enter n s)
      = .ok (b, last, st)) :
    malloc fit fuel n s =
      match obtainBlock b last (ALIGN4 n) st with
      | .ok g => .ok (handOut g.1 g.2)
      | .error e => .error e := by
  unfold malloc
  simp only [hA, if_false, hfind, bind, Except.bind, pure, Except.pure]
  cases obtainBlock b last (ALIGN4 n) st <;> rfl

theorem toInt32_small (k : Int) (h0 : 0 ≤ k) (h1 : k < 2 ^ 31) : toInt32 (ofInt k) = k := by
  unfold toInt32 ofInt
  norm_num at *
  omega

theorem Tiled.tiled_frame (m m' : Mem) :
    ∀ (l : List Nat) (a e : Nat), (∀ x ∈ l, (m' x).size = (m x).size) → Tiled m a e l →
      Tiled m' a e l := by
  intro l
  induction l with
  | nil => intro a e _ h; exact h
  | cons x l ih =>
    intro a e hf h
    obtain ⟨rfl, hl⟩ := h
    refine ⟨rfl, ?_⟩
    rw [hf x (List.mem_cons_self _ _)]
    exact ih _ _ (fun y hy => hf y (List.mem_cons_of_mem _ hy)) hl

theorem Tiled.bounds (m : Mem) :
    ∀ (l : List Nat) (a e : Nat), Tiled m a e l →
      a ≤ e ∧ ∀ x ∈ l, a ≤ x ∧ x + sizeofBlock + (m x).size ≤ e := by
  intro l
  induction l with
  | nil =>
    intro a e h
    obtain rfl : a = e := h
    exact ⟨le_refl _, fun x hx => by simp at hx⟩
  | cons x l ih =>
    intro a e h
    obtain ⟨rfl, hl⟩ := h
    obtain ⟨h1, h2⟩ := ih _ _ hl
    refine ⟨by omega, ?_⟩
    intro y hy
    rcases List.mem_cons.mp hy with rfl | hy'
    · exact ⟨le_refl _, h1⟩
    · have := h2 y hy'
      exact ⟨by omega, this.2⟩

theorem Tiled.tiled_append (m : Mem) :
    ∀ (l1 l2 : List Nat) (a e : Nat), Tiled m a e (l1 ++ l2) ↔
      ∃ c, Tiled m a c l1 ∧ Tiled m c e l2 := by
  intro l1
  induction l1 with
  | nil =>
    intro l2 a e
    constructor
    · intro h; exact ⟨a, rfl, h⟩
    · rintro ⟨c, hc, h⟩
      obtain rfl : a = c := hc
      exact h
  | cons x l ih =>
    intro l2 a e
    constructor
    · intro h
      obtain ⟨rfl, hl⟩ := h
      obtain ⟨c, h1, h2⟩ := (ih l2 _ e).mp hl
      exact ⟨c, ⟨rfl, h1⟩, h2⟩
    · rintro ⟨c, ⟨rfl, h1⟩, h2⟩
      exact ⟨rfl, (ih l2 _ e).mpr ⟨c, h1, h2⟩⟩

/-- In a tiled chain the blocks before `b` end at or before `b` and the blocks
after `b` start at or after the end of `b`. -/
theorem Tiled.tiled_around (m : Mem) (l1 l2 : List Nat) (a e b : Nat)
    (h : Tiled m a e (l1 ++ b :: l2)) :
    Tiled m a b l1 ∧ Tiled m (b + sizeofBlock + (m b).size) e l2 ∧
    (∀ x ∈ l1, x + sizeofBlock + (m x).size ≤ b) ∧
    (∀ x ∈ l2, b + sizeofBlock + (m b).size ≤ x) ∧
    b + sizeofBlock + (m b).size ≤ e ∧ a ≤ b := by
  obtain ⟨c, h1, h2⟩ := (Tiled.tiled_append m l1 (b :: l2) a e).mp h
  obtain ⟨rfl, h3⟩ := h2
  have hb1 := Tiled.bounds m l1 a b h1
  have hb2 := Tiled.bounds m l2 _ e h3
  exact ⟨h1, h3, fun x hx => (hb1.2 x hx).2, fun x hx => (hb2.2 x hx).1, hb2.1, hb1.1⟩

theorem NoAdjacentFree.flags_frame (m m' : Mem) :
    ∀ (l : List Nat), (∀ x ∈ l, (m' x).free = (m x).free) → NoAdjacentFree m l →
      NoAdjacentFree m' l := by
  intro l
  induction l with
  | nil => intro _ _; trivial
  | cons x l ih =>
    intro hf h
    cases l with
    | nil => trivial
    | cons y t =>
      obtain ⟨h1, h2⟩ := h
      refine ⟨?_, ih (fun z hz => hf z (List.mem_cons_of_mem _ hz)) h2⟩
      rw [hf x (List.mem_cons_self _ _), hf y (List.mem_cons_of_mem _ (List.mem_cons_self _ _))]
      exact h1

theorem NoAdjacentFree.flags_tail (m : Mem) (x : Nat) (l : List Nat)
    (h : NoAdjacentFree m (x :: l)) : NoAdjacentFree m l := by
  cases l with
  | nil => trivial
  | cons y t => exact h.2

theorem NoAdjacentFree.cons_used (m : Mem) (x : Nat) (l : List Nat) (hx : (m x).free = false)
    (h : NoAdjacentFree m l) : NoAdjacentFree m (x :: l) := by
  cases l with
  | nil => trivial
  | cons y t => exact ⟨fun hh => by rw [hx] at hh; exact absurd hh.1 (by decide), h⟩

/-- The block after a free block is in use. -/
theorem NoAdjacentFree.next_used (m : Mem) (x y : Nat) (l : List Nat)
    (h : NoAdjacentFree m (x :: y :: l)) (hx : (m x).free = true) : (m y).free = false := by
  have := h.1
  cases hy : (m y).free with
  | false => rfl
  | true => exact absurd ⟨hx, hy⟩ this

theorem NoAdjacentFree.cons_before_used (m : Mem) (x y : Nat) (l : List Nat)
    (hy : (m y).free = false) (h : NoAdjacentFree m (y :: l)) : NoAdjacentFree m (x :: y :: l) :=
  ⟨fun hh => by rw [hy] at hh; exact absurd hh.2 (by decide), h⟩

theorem NoAdjacentFree.flags_append (m : Mem) :
    ∀ (l1 l2 : List Nat), NoAdjacentFree m (l1 ++ l2) → NoAdjacentFree m l1 ∧ NoAdjacentFree m l2 := by
  intro l1
  induction l1 with
  | nil => intro l2 h; exact ⟨trivial, h⟩
  | cons x l ih =>
    intro l2 h
    have ht := NoAdjacentFree.flags_tail m x (l ++ l2) h
    obtain ⟨h1, h2⟩ := ih l2 ht
    refine ⟨?_, h2⟩
    cases l with
    | nil => trivial
    | cons y t => exact ⟨h.1, h1⟩

/-- Two lists without adjacent free blocks joined at a block in use. -/
theorem NoAdjacentFree.join_used (m : Mem) (b : Nat) (hb : (m b).free = false) :
    ∀ (l1 l2 : List Nat), NoAdjacentFree m l1 → NoAdjacentFree m l2 →
      NoAdjacentFree m (l1 ++ b :: l2) := by
  intro l1
  induction l1 with
  | nil => intro l2 _ h2; exact NoAdjacentFree.cons_used m b l2 hb h2
  | cons x l ih =>
    intro l2 h1 h2
    have := ih l2 (NoAdjacentFree.flags_tail m x l h1) h2
    cases l with
    | nil => exact NoAdjacentFree.cons_before_used m x b l2 hb this
    | cons y t => exact ⟨h1.1, this⟩

theorem NoTriple.triple_frame (m m' : Mem) :
    ∀ (l : List Nat), (∀ x ∈ l, (m' x).free = (m x).free) → NoTriple m l → NoTriple m' l := by
  intro l
  induction l with
  | nil => intro _ _; trivial
  | cons x l ih =>
    intro hf h
    match l, ih, hf, h with
    | [], _, _, _ => trivial
    | [_], _, _, _ => trivial
    | y :: z :: t, ih, hf, h =>
      obtain ⟨h1, h2⟩ := h
      refine ⟨?_, ih (fun w hw => hf w (List.mem_cons_of_mem _ hw)) h2⟩
      rw [hf x (by simp), hf y (by simp), hf z (by simp)]
      exact h1

theorem NoTriple.of_noAdjacent (m : Mem) :
    ∀ (l : List Nat), NoAdjacentFree m l → NoTriple m l := by
  intro l
  induction l with
  | nil => intro _; trivial
  | cons x l ih =>
    intro h
    match l, ih, h with
    | [], _, _ => trivial
    | [_], _, _ => trivial
    | y :: z :: t, ih, h =>
      exact ⟨fun hh => h.1 ⟨hh.1, hh.2.1⟩, ih h.2⟩

/-- Marking one block free keeps the chain without three consecutive free
blocks, when the block after it is in use. -/
theorem NoTriple.triple_around (m : Mem) (a : Nat) :
    ∀ (l1 l3 : List Nat), NoAdjacentFree m l1 → NoAdjacentFree m l3 →
      (∀ z t, l3 = z :: t → (m z).free = false) → NoTriple m (l1 ++ a :: l3) := by
  intro l1
  induction l1 with
  | nil =>
    intro l3 _ h3 hz
    match l3, h3, hz with
    | [], _, _ => trivial
    | [_], _, _ => trivial
    | z :: w :: t, h3, hz =>
      refine ⟨fun hh => ?_, NoTriple.of_noAdjacent m _ h3⟩
      rw [hz z _ rfl] at hh
      exact absurd hh.2.1 (by decide)
  | cons x l ih =>
    intro l3 h1 h3 hz
    have hrec := ih l3 (NoAdjacentFree.flags_tail m x l h1) h3 hz
    match l, h1, hrec with
    | [], _, hrec =>
      match l3, hz, hrec with
      | [], _, _ => trivial
      | z :: t, hz, hrec =>
        refine ⟨fun hh => ?_, hrec⟩
        rw [hz z t rfl] at hh
        exact absurd hh.2.2 (by decide)
    | [y], h1, hrec =>
      exact ⟨fun hh => h1.1 ⟨hh.1, hh.2.1⟩, hrec⟩
    | y :: y' :: t, h1, hrec =>
      exact ⟨fun hh => h1.1 ⟨hh.1, hh.2.1⟩, hrec⟩

/-! ## The coalescing pass of `free` -/

theorem add64_of_lt (u v : Nat) (h : u + v < 2 ^ 64) : add64 u v = u + v := by
  unfold add64
  exact Nat.mod_eq_of_lt h

theorem absorb_mem (a b : Nat) (s : State) (z : Nat) :
    (absorb a b s).mem z =
      if z = a then
        ⟨add64 (s.mem a).size (add64 (s.mem b).size sizeofBlock), (s.mem b).next, (s.mem a).free⟩
      else s.mem z := by
  unfold absorb
  by_cases h : z = a
  · by_cases hb : b = a
    · simp [Mem.set, h, hb]
    · simp [Mem.set, h, hb]
  · simp [Mem.set, h]

theorem absorb_fields (a b : Nat) (s : State) :
    (absorb a b s).heapList = s.heapList ∧ (absorb a b s).brk = s.brk ∧
    (absorb a b s).brkMin = s.brkMin ∧ (absorb a b s).brkMax = s.brkMax := by
  unfold absorb; exact ⟨rfl, rfl, rfl, rfl⟩

theorem absorb_counts (a b : Nat) (s : State) :
    (absorb a b s).num_blocks = s.num_blocks - 1 ∧ (absorb a b s).max_heap = s.max_heap ∧
    (absorb a b s).num_coalesces = s.num_coalesces + 1 := by
  unfold absorb; exact ⟨rfl, rfl, rfl⟩

theorem Tiled.not_mem_tail (m : Mem) (x a e : Nat) (l : List Nat) (h : Tiled m a e (x :: l)) :
    x ∉ l := by
  intro hx
  have := ((Tiled.bounds m l _ e h.2).2 x hx).1
  unfold sizeofBlock at this
  omega

theorem coalesceLoop_stop (fuel check : Nat) (s : State)
    (h : ¬ (check ≠ 0 ∧ (s.mem check).next ≠ 0)) : coalesceLoop (fuel + 1) check s = .ok s := by
  unfold coalesceLoop
  rw [if_neg h]

theorem coalesceLoop_step (fuel check : Nat) (s : State)
    (h : check ≠ 0 ∧ (s.mem check).next ≠ 0) :
    coalesceLoop (fuel + 1) check s =
      coalesceLoop fuel (s.mem check).next
        (if (s.mem check).free = true ∧ (s.mem (s.mem check).next).free = true then
          absorb check (s.mem check).next s else s) := by
  conv_lhs => unfold coalesceLoop
  rw [if_pos h]

theorem NoTriple.triple_tail (m : Mem) (x : Nat) (l : List Nat) (h : NoTriple m (x :: l)) :
    NoTriple m l := by
  match l, h with
  | [], _ => trivial
  | [_], _ => trivial
  | _ :: _ :: _, h => exact h.2

theorem head_eq_cons (l : List Nat) (y : Nat) (h : l.head? = some y) : ∃ t, l = y :: t := by
  cases l with
  | nil => simp at h
  | cons z t =>
    simp only [List.head?_cons, Option.some.injEq] at h
    exact ⟨t, by rw [h]⟩

/-- The pass `while (check != NULL && check->next != NULL)` over a tiled chain
without three consecutive free blocks returns, and leaves a tiled chain
without two consecutive free blocks. -/
theorem coalesce_pass : ∀ (n : Nat) (l : List Nat), l.length ≤ n →
    ∀ (s : State) (p a e fuel : Nat), IsChain s.mem p l → Tiled s.mem a e l →
      NoTriple s.mem l → e < 2 ^ 64 → l.length < fuel →
      ∃ s' l', coalesceLoop fuel p s = .ok s' ∧ IsChain s'.mem p l' ∧ Tiled s'.mem a e l' ∧
        NoAdjacentFree s'.mem l' ∧ Swept s s' l l' := by
  intro n
  induction n with
  | zero =>
    intro l hl s p a e fuel hc ht _ _ hf
    obtain rfl : l = [] := List.length_eq_zero.mp (Nat.le_zero.mp hl)
    obtain rfl : p = 0 := hc
    obtain ⟨k, rfl⟩ : ∃ k, fuel = k + 1 := ⟨fuel - 1, by simp at hf; omega⟩
    refine ⟨s, [], coalesceLoop_stop k 0 s (fun h => h.1 rfl), rfl, ht, trivial, ?_⟩
    exact ⟨rfl, fun x hx => by simp at hx, fun x hx => by simp at hx, fun _ _ => rfl,
      rfl, rfl, rfl, rfl, rfl, rfl⟩
  | succ n ih =>
    intro l hl s p a e fuel hc ht h3 he hf
    obtain ⟨k, rfl⟩ : ∃ k, fuel = k + 1 := ⟨fuel - 1, by omega⟩
    match l, hl, hc, ht, h3, hf with
    | [], _, hc, ht, _, _ =>
      obtain rfl : p = 0 := hc
      refine ⟨s, [], coalesceLoop_stop k 0 s (fun h => h.1 rfl), rfl, ht, trivial, ?_⟩
      exact ⟨rfl, fun x hx => by simp at hx, fun x hx => by simp at hx, fun _ _ => rfl,
        rfl, rfl, rfl, rfl, rfl, rfl⟩
    | [x], _, hc, ht, _, _ =>
      obtain ⟨rfl, hx, hn⟩ := hc
      have hn0 : (s.mem p).next = 0 := hn
      refine ⟨s, [p], coalesceLoop_stop k p s (fun h => h.2 hn0), ⟨rfl, hx, hn⟩, ht, trivial, ?_⟩
      exact ⟨rfl, fun x hx => ⟨hx, rfl⟩, fun x hx _ => hx, fun _ _ => rfl, rfl, rfl, rfl, rfl,
        rfl, rfl⟩
    | x :: y :: l2, hl, hc, ht, h3, hf =>
      have hxnot : x ∉ y :: l2 := Tiled.not_mem_tail s.mem x a e _ ht
      obtain ⟨hp, hx, hxy, hy, hcz⟩ := hc
      obtain ⟨hxa, hya, htz⟩ := ht
      have hxy' : (s.mem x).next = y := hxy
      have hcy : IsChain s.mem y (y :: l2) := ⟨rfl, hy, hcz⟩
      have hty : Tiled s.mem (x + sizeofBlock + (s.mem x).size) e (y :: l2) := ⟨hya, htz⟩
      have hlen : (y :: l2).length ≤ n := by simp at hl ⊢; omega
      have hstep := coalesceLoop_step k x s ⟨hx, by rw [hxy']; exact hy⟩
      rw [hxy'] at hstep
      rw [hp]
      by_cases hm : (s.mem x).free = true ∧ (s.mem y).free = true
      · -- the pair is merged; the scan goes on from the absorbed header `y`
        rw [if_pos hm] at hstep
        have hm1 : ∀ z, z ≠ x → (absorb x y s).mem z = s.mem z := by
          intro z hz; rw [absorb_mem, if_neg hz]
        have hmx : (absorb x y s).mem x =
            ⟨add64 (s.mem x).size (add64 (s.mem y).size sizeofBlock), (s.mem y).next,
              (s.mem x).free⟩ := by rw [absorb_mem, if_pos rfl]
        have hyx : y ≠ x := fun h => hxnot (h ▸ List.mem_cons_self _ _)
        have hbz := (Tiled.bounds s.mem l2 _ e htz).1
        have hsz : add64 (s.mem x).size (add64 (s.mem y).size sizeofBlock)
            = (s.mem x).size + ((s.mem y).size + sizeofBlock) := by
          rw [add64_of_lt (s.mem y).size sizeofBlock (by unfold sizeofBlock at *; omega)]
          exact add64_of_lt _ _ (by unfold sizeofBlock at *; omega)
        have hend : x + sizeofBlock + ((absorb x y s).mem x).size
            = y + sizeofBlock + (s.mem y).size := by
          rw [hmx]; simp only; rw [hsz]; omega
        obtain ⟨fa, fb, fc, fd⟩ := absorb_fields x y s
        obtain ⟨fe, ff, -⟩ := absorb_counts x y s
        obtain ⟨k', rfl⟩ : ∃ k', k = k' + 1 := ⟨k - 1, by simp at hf; omega⟩
        match l2, hl, hxnot, hcz, htz, h3, hf, hlen, hcy, hty with
        | [], _, _, hcz, htz, _, _, _, _, _ =>
          have hn0 : (s.mem y).next = 0 := hcz
          have hstop := coalesceLoop_stop k' y (absorb x y s)
            (fun h => h.2 (by rw [hm1 y hyx]; exact hn0))
          rw [hstop] at hstep
          have hze : y + sizeofBlock + (s.mem y).size = e := htz
          refine ⟨absorb x y s, [x], hstep, ⟨rfl, hx, ?_⟩, ⟨hxa, ?_⟩, trivial, ?_⟩
          · rw [hmx]; exact hn0
          · rw [hend]; exact hze
          · refine ⟨rfl, ?_, ?_, ?_, fa, fb, fc, fd, by
              rw [fe]; simp only [List.length_cons, List.length_nil]; push_cast; omega, ff⟩
            · intro w hw
              obtain rfl : w = x := by simpa using hw
              exact ⟨List.mem_cons_self _ _, by rw [hmx]⟩
            · intro w hw hfree
              rcases List.mem_cons.mp hw with rfl | hw'
              · exact List.mem_cons_self _ _
              · obtain rfl : w = y := by simpa using hw'
                rw [hm.2] at hfree
                exact absurd hfree (by decide)
            · intro w hw
              exact hm1 w (fun h => hw (h ▸ List.mem_cons_self _ _))
        | z :: l3, hl, hxnot, hcz, htz, h3, hf, _, _, _ =>
          obtain ⟨hyz, hz, hcw⟩ := hcz
          have hyz' : (s.mem y).next = z := hyz
          have hzx : z ≠ x := fun h => hxnot (h ▸ by simp)
          have hzfree : (s.mem z).free = false := by
            cases hzf : (s.mem z).free with
            | false => rfl
            | true => exact absurd ⟨hm.1, hm.2, hzf⟩ h3.1
          have hstep2 := coalesceLoop_step k' y (absorb x y s)
            ⟨hy, by rw [hm1 y hyx, hyz']; exact hz⟩
          rw [hm1 y hyx, hyz', hm1 z hzx, if_neg (fun h => by
            rw [hzfree] at h; exact absurd h.2 (by decide))] at hstep2
          rw [hstep2] at hstep
          have hfr : ∀ w ∈ z :: l3, (absorb x y s).mem w = s.mem w := by
            intro w hw
            exact hm1 w (fun h => hxnot (h ▸ List.mem_cons_of_mem _ hw))
          have hcz1 : IsChain (absorb x y s).mem z (z :: l3) :=
            IsChain.chain_frame s.mem _ _ _ (fun w hw => by rw [hfr w hw]) ⟨rfl, hz, hcw⟩
          have htz1 : Tiled (absorb x y s).mem (y + sizeofBlock + (s.mem y).size) e (z :: l3) :=
            Tiled.tiled_frame s.mem _ _ _ _ (fun w hw => by rw [hfr w hw]) htz
          have h31 : NoTriple (absorb x y s).mem (z :: l3) :=
            NoTriple.triple_frame s.mem _ _ (fun w hw => by rw [hfr w hw])
              (NoTriple.triple_tail _ _ _ (NoTriple.triple_tail _ _ _ h3))
          obtain ⟨s', l'', hrun, hc', ht', hna, hsw⟩ :=
            ih (z :: l3) (by simp at hl ⊢; omega) (absorb x y s) z _ e k' hcz1 htz1 h31 he
              (by simp at hf ⊢; omega)
          obtain ⟨t, rfl⟩ := head_eq_cons l'' z hsw.head
          have hxnz : x ∉ z :: l3 := fun h => hxnot (List.mem_cons_of_mem _ h)
          have hsx : s'.mem x = (absorb x y s).mem x := hsw.frame x hxnz
          have hsz' : (s'.mem z).free = false := by
            rw [(hsw.sub z (List.mem_cons_self _ _)).2, hm1 z hzx]; exact hzfree
          refine ⟨s', x :: z :: t, hstep.trans hrun, ⟨rfl, hx, ?_⟩, ⟨hxa, ?_⟩, ?_, ?_⟩
          · rw [hsx, hmx]; simp only; rw [hyz']; exact hc'
          · rw [hsx, hend]; exact ht'
          · exact NoAdjacentFree.cons_before_used s'.mem x z t hsz' hna
          · refine ⟨rfl, ?_, ?_, ?_, hsw.heapList.trans fa, hsw.brk.trans fb,
              hsw.brkMin.trans fc, hsw.brkMax.trans fd, ?_, hsw.max_heap.trans ff⟩
            rotate_right
            · have hb := hsw.blocks
              rw [fe] at hb
              simp only [List.length_cons] at hb ⊢
              push_cast at hb ⊢
              omega
            · intro w hw
              rcases List.mem_cons.mp hw with rfl | hw'
              · exact ⟨List.mem_cons_self _ _, by rw [hsx, hmx]⟩
              · obtain ⟨h1, h2⟩ := hsw.sub w hw'
                exact ⟨List.mem_cons_of_mem _ (List.mem_cons_of_mem _ h1), by
                  rw [h2, hfr w h1]⟩
            · intro w hw hfree
              rcases List.mem_cons.mp hw with rfl | hw'
              · exact List.mem_cons_self _ _
              · rcases List.mem_cons.mp hw' with rfl | hw''
                · rw [hm.2] at hfree; exact absurd hfree (by decide)
                · exact List.mem_cons_of_mem _ (hsw.used w hw'' (by rw [hfr w hw'']; exact hfree))
            · intro w hw
              have hwx : w ≠ x := fun h => hw (h ▸ List.mem_cons_self _ _)
              have hwz : w ∉ z :: l3 := fun h =>
                hw (List.mem_cons_of_mem _ (List.mem_cons_of_mem _ h))
              rw [hsw.frame w hwz, hm1 w hwx]
      · -- no merge at `x`
        rw [if_neg hm] at hstep
        obtain ⟨s', l'', hrun, hc', ht', hna, hsw⟩ :=
          ih (y :: l2) hlen s y _ e k hcy hty (NoTriple.triple_tail _ _ _ h3) he
            (by simp at hf ⊢; omega)
        obtain ⟨t, rfl⟩ := head_eq_cons l'' y hsw.head
        have hsx : s'.mem x = s.mem x := hsw.frame x hxnot
        have hsy : (s'.mem y).free = (s.mem y).free := (hsw.sub y (List.mem_cons_self _ _)).2
        refine ⟨s', x :: y :: t, hstep.trans hrun, ⟨rfl, hx, ?_⟩, ⟨hxa, ?_⟩, ⟨?_, hna⟩, ?_⟩
        · rw [hsx, hxy']; exact hc'
        · rw [hsx]; exact ht'
        · rw [hsx, hsy]; exact hm
        · refine ⟨rfl, ?_, ?_, ?_, hsw.heapList, hsw.brk, hsw.brkMin, hsw.brkMax, ?_,
            hsw.max_heap⟩
          rotate_right
          · have hb := hsw.blocks
            simp only [List.length_cons] at hb ⊢
            push_cast at hb ⊢
            omega
          · intro w hw
            rcases List.mem_cons.mp hw with rfl | hw'
            · exact ⟨List.mem_cons_self _ _, by rw [hsx]⟩
            · obtain ⟨h1, h2⟩ := hsw.sub w hw'
              exact ⟨List.mem_cons_of_mem _ h1, h2⟩
          · intro w hw hfree
            rcases List.mem_cons.mp hw with rfl | hw'
            · exact List.mem_cons_self _ _
            · exact List.mem_cons_of_mem _ (hsw.used w hw' hfree)
          · intro w hw
            exact hsw.frame w (fun h => hw (List.mem_cons_of_mem _ h))

/-! ## `free` on a well-formed heap -/

theorem markAndMerge_fields (a : Nat) (s : State) :
    (markAndMerge a s).heapList = s.heapList ∧ (markAndMerge a s).brk = s.brk ∧
    (markAndMerge a s).brkMin = s.brkMin ∧ (markAndMerge a s).brkMax = s.brkMax := by
  unfold markAndMerge
  simp only
  split
  · exact absorb_fields _ _ _
  · exact ⟨rfl, rfl, rfl, rfl⟩

/-- The header memory after the first two steps of `free`, when the successor
`y` of `a` is absorbed. -/
theorem markAndMerge_merge (a y : Nat) (s : State) (hn : (s.mem a).next = y) (hy : y ≠ 0)
    (hya : y ≠ a) (hf : (s.mem y).free = true) (z : Nat) :
    (markAndMerge a s).mem z =
      if z = a then
        ⟨add64 (s.mem a).size (add64 (s.mem y).size sizeofBlock), (s.mem y).next, true⟩
      else s.mem z := by
  unfold markAndMerge
  simp only [Mem.set_same, hn]
  rw [if_pos ⟨hy, by rw [Mem.set_other _ _ _ _ hya]; exact hf⟩, absorb_mem]
  by_cases hz : z = a
  · rw [if_pos hz, if_pos hz]
    simp only [Mem.set_same, Mem.set_other _ _ _ _ hya]
  · rw [if_neg hz, if_neg hz]
    exact Mem.set_other _ _ _ _ hz

/-- The header memory after the first two steps of `free`, when nothing is
absorbed. -/
theorem markAndMerge_mark (a : Nat) (s : State)
    (hn : (s.mem a).next = 0 ∨ (s.mem (s.mem a).next).free = false) (ha : (s.mem a).next ≠ a)
    (z : Nat) :
    (markAndMerge a s).mem z = if z = a then { s.mem a with free := true } else s.mem z := by
  unfold markAndMerge
  simp only [Mem.set_same]
  rw [if_neg]
  · by_cases hz : z = a
    · rw [if_pos hz, hz]; exact Mem.set_same _ _ _
    · rw [if_neg hz]; exact Mem.set_other _ _ _ _ hz
  · rintro ⟨h0, h1⟩
    rw [Mem.set_other _ _ _ _ ha] at h1
    rcases hn with hn | hn
    · exact h0 hn
    · rw [hn] at h1; exact absurd h1 (by decide)
/-- The counters after the first two steps of `free`, when the successor is
absorbed. -/
theorem markAndMerge_merge_counts (a y : Nat) (s : State) (hn : (s.mem a).next = y)
    (hy : y ≠ 0) (hya : y ≠ a) (hf : (s.mem y).free = true) :
    (markAndMerge a s).num_blocks = s.num_blocks - 1 ∧
    (markAndMerge a s).max_heap = s.max_heap ∧
    (markAndMerge a s).num_coalesces = s.num_coalesces + 1 := by
  unfold markAndMerge
  simp only [Mem.set_same, hn]
  rw [if_pos ⟨hy, by rw [Mem.set_other _ _ _ _ hya]; exact hf⟩]
  exact absorb_counts _ _ _

/-- The counters after the first two steps of `free`, when nothing is
absorbed. -/
theorem markAndMerge_mark_counts (a : Nat) (s : State)
    (hn : (s.mem a).next = 0 ∨ (s.mem (s.mem a).next).free = false)
    (ha : (s.mem a).next ≠ a) :
    (markAndMerge a s).num_blocks = s.num_blocks ∧
    (markAndMerge a s).max_heap = s.max_heap ∧
    (markAndMerge a s).num_coalesces = s.num_coalesces := by
  unfold markAndMerge
  simp only [Mem.set_same]
  rw [if_neg]
  · exact ⟨rfl, rfl, rfl⟩
  · rintro ⟨h0, h1⟩
    rw [Mem.set_other _ _ _ _ ha] at h1
    rcases hn with hn | hn
    · exact h0 hn
    · rw [hn] at h1; exact absurd h1 (by decide)

/-- After the first two steps of `free` on a block in use of a well-formed
heap, the chain is still tiled, has no three consecutive free blocks, and
keeps every other block that is in use. -/
theorem free_local (s : State) (l1 l2 : List Nat) (a : Nat) (hinv : Inv s (l1 ++ a :: l2))
    (_hfree : (s.mem a).free = false) :
    ∃ l3, IsChain (markAndMerge a s).mem s.heapList (l1 ++ a :: l3) ∧
      Tiled (markAndMerge a s).mem s.brkMin s.brk (l1 ++ a :: l3) ∧
      NoTriple (markAndMerge a s).mem (l1 ++ a :: l3) ∧
      (∀ x ∈ l1 ++ a :: l2, x ≠ a → (s.mem x).free = false →
        x ∈ l1 ++ a :: l3 ∧ ((markAndMerge a s).mem x).free = false) ∧
      (l1 ++ a :: l3).length ≤ (l1 ++ a :: l2).length ∧
      (markAndMerge a s).num_blocks + ((l1 ++ a :: l2).length : Int)
        = s.num_blocks + ((l1 ++ a :: l3).length : Int) ∧
      (markAndMerge a s).max_heap = s.max_heap := by
  have hnd := IsChain.nodup _ _ _ hinv.chain
  have ha1 : a ∉ l1 := fun h => by
    rw [List.nodup_append] at hnd
    exact hnd.2.2 h (List.mem_cons_self _ _)
  have ha2 : a ∉ l2 := fun h => by
    rw [List.nodup_append] at hnd
    exact (List.nodup_cons.mp hnd.2.1).1 h
  obtain ⟨ht1, ht2, -, -, hae, -⟩ := Tiled.tiled_around _ _ _ _ _ _ hinv.tiled
  obtain ⟨-, ha0, hnext⟩ := IsChain.suffix s.mem l1 l2 _ a hinv.chain
  obtain ⟨hna1, hna2'⟩ := NoAdjacentFree.flags_append s.mem l1 (a :: l2) hinv.noadj
  have hna2 := NoAdjacentFree.flags_tail _ _ _ hna2'
  have hlim : s.brk < 2 ^ 64 := by
    have h1 := hinv.brk_le
    have h2 := hinv.lim_lt
    omega
  match l2, hinv, hnd, ha2, ht2, hnext, hna2', hna2 with
  | [], hinv, _, _, _, hnext, _, _ =>
    have hn0 : (s.mem a).next = 0 := hnext
    have hmm := markAndMerge_mark a s (Or.inl hn0) (by rw [hn0]; exact ha0.symm)
    have hnx : ∀ z, ((markAndMerge a s).mem z).next = (s.mem z).next := by
      intro z; rw [hmm]; split
      · rename_i h; rw [h]
      · rfl
    have hsz : ∀ z, ((markAndMerge a s).mem z).size = (s.mem z).size := by
      intro z; rw [hmm]; split
      · rename_i h; rw [h]
      · rfl
    have hfr : ∀ z, z ≠ a → ((markAndMerge a s).mem z).free = (s.mem z).free := by
      intro z hz; rw [hmm, if_neg hz]
    obtain ⟨hcb, hch, -⟩ := markAndMerge_mark_counts a s (Or.inl hn0)
      (by rw [hn0]; exact ha0.symm)
    refine ⟨[], IsChain.chain_frame _ _ _ _ (fun z _ => hnx z) hinv.chain,
      Tiled.tiled_frame _ _ _ _ _ (fun z _ => hsz z) hinv.tiled, ?_, ?_, le_refl _,
      by rw [hcb], hch⟩
    · exact NoTriple.triple_around _ a l1 []
        (NoAdjacentFree.flags_frame s.mem _ l1 (fun z hz => hfr z (fun h => ha1 (h ▸ hz))) hna1)
        trivial (fun z t h => by simp at h)
    · intro x hx hxa hxf
      exact ⟨hx, by rw [hfr x hxa]; exact hxf⟩
  | y :: l2', hinv, hnd, ha2, ht2, hnext, hna2', hna2 =>
    obtain ⟨hny, hy0, hnext'⟩ := hnext
    have hny' : (s.mem a).next = y := hny
    have hya : y ≠ a := fun h => ha2 (h ▸ List.mem_cons_self _ _)
    have ha2' : a ∉ l2' := fun h => ha2 (List.mem_cons_of_mem _ h)
    obtain ⟨hya', ht3⟩ := ht2
    by_cases hyf : (s.mem y).free = true
    · have hmm := markAndMerge_merge a y s hny' hy0 hya hyf
      have hoth : ∀ z, z ≠ a → (markAndMerge a s).mem z = s.mem z := by
        intro z hz; rw [hmm, if_neg hz]
      have hb3 := (Tiled.bounds s.mem l2' _ _ ht3).1
      have hsize : ((markAndMerge a s).mem a).size
          = (s.mem a).size + ((s.mem y).size + sizeofBlock) := by
        rw [hmm, if_pos rfl]
        simp only
        rw [add64_of_lt (s.mem y).size sizeofBlock (by unfold sizeofBlock at *; omega)]
        exact add64_of_lt _ _ (by unfold sizeofBlock at *; omega)
      have hnexta : ((markAndMerge a s).mem a).next = (s.mem y).next := by
        rw [hmm, if_pos rfl]
      obtain ⟨hcb, hch, -⟩ := markAndMerge_merge_counts a y s hny' hy0 hya hyf
      refine ⟨l2', ?_, ?_, ?_, ?_, ?_, ?_, hch⟩
      rotate_right
      · rw [hcb]
        simp only [List.length_append, List.length_cons]
        push_cast
        omega
      · refine IsChain.splice s.mem _ l1 (y :: l2') l2' _ a hinv.chain
          (fun z hz => by rw [hoth z (fun h => ha1 (h ▸ hz))]) ⟨rfl, ha0, ?_⟩
        rw [hnexta]
        exact IsChain.chain_frame s.mem _ l2' _
          (fun z hz => by rw [hoth z (fun h => ha2' (h ▸ hz))]) hnext'
      · refine (Tiled.tiled_append _ l1 (a :: l2') _ _).mpr ⟨a,
          Tiled.tiled_frame s.mem _ l1 _ _ (fun z hz => by rw [hoth z (fun h => ha1 (h ▸ hz))]) ht1,
          rfl, ?_⟩
        have he : a + sizeofBlock + ((markAndMerge a s).mem a).size
            = y + sizeofBlock + (s.mem y).size := by rw [hsize]; omega
        rw [he]
        exact Tiled.tiled_frame s.mem _ l2' _ _
          (fun z hz => by rw [hoth z (fun h => ha2' (h ▸ hz))]) ht3
      · refine NoTriple.triple_around _ a l1 l2'
          (NoAdjacentFree.flags_frame s.mem _ l1
            (fun z hz => by rw [hoth z (fun h => ha1 (h ▸ hz))]) hna1)
          (NoAdjacentFree.flags_frame s.mem _ l2'
            (fun z hz => by rw [hoth z (fun h => ha2' (h ▸ hz))])
            (NoAdjacentFree.flags_tail _ _ _ hna2)) ?_
        intro z t hzt
        subst hzt
        rw [hoth z (fun h => ha2' (h ▸ List.mem_cons_self _ _))]
        exact NoAdjacentFree.next_used s.mem y z t hna2 hyf
      · intro x hx hxa hxf
        have hxy : x ≠ y := fun h => by
          rw [h, hyf] at hxf; exact absurd hxf (by decide)
        refine ⟨?_, by rw [hoth x hxa]; exact hxf⟩
        rcases List.mem_append.mp hx with h | h
        · exact List.mem_append.mpr (Or.inl h)
        · rcases List.mem_cons.mp h with h | h
          · exact absurd h hxa
          · rcases List.mem_cons.mp h with h | h
            · exact absurd h hxy
            · exact List.mem_append.mpr (Or.inr (List.mem_cons_of_mem _ h))
      · simp
    · have hyf' : (s.mem y).free = false := by
        cases h : (s.mem y).free with
        | false => rfl
        | true => exact absurd h hyf
      have hmm := markAndMerge_mark a s (Or.inr (by rw [hny']; exact hyf'))
        (by rw [hny']; exact hya)
      have hnx : ∀ z, ((markAndMerge a s).mem z).next = (s.mem z).next := by
        intro z; rw [hmm]; split
        · rename_i h; rw [h]
        · rfl
      have hsz : ∀ z, ((markAndMerge a s).mem z).size = (s.mem z).size := by
        intro z; rw [hmm]; split
        · rename_i h; rw [h]
        · rfl
      have hfr : ∀ z, z ≠ a → ((markAndMerge a s).mem z).free = (s.mem z).free := by
        intro z hz; rw [hmm, if_neg hz]
      obtain ⟨hcb, hch, -⟩ := markAndMerge_mark_counts a s
        (Or.inr (by rw [hny']; exact hyf')) (by rw [hny']; exact hya)
      refine ⟨y :: l2', IsChain.chain_frame _ _ _ _ (fun z _ => hnx z) hinv.chain,
        Tiled.tiled_frame _ _ _ _ _ (fun z _ => hsz z) hinv.tiled, ?_, ?_, le_refl _,
        by rw [hcb], hch⟩
      · refine NoTriple.triple_around _ a l1 (y :: l2')
          (NoAdjacentFree.flags_frame s.mem _ l1 (fun z hz => hfr z (fun h => ha1 (h ▸ hz))) hna1)
          (NoAdjacentFree.flags_frame s.mem _ (y :: l2')
            (fun z hz => hfr z (fun h => ha2 (h ▸ hz))) hna2) ?_
        intro z t hzt
        obtain ⟨rfl, -⟩ := List.cons.inj hzt
        rw [hfr y hya]; exact hyf'
      · intro x hx hxa hxf
        exact ⟨hx, by rw [hfr x hxa]; exact hxf⟩

theorem coalesceLoop_mono : ∀ (fuel check : Nat) (s s' : State),
    coalesceLoop fuel check s = .ok s' → ∀ fuel', fuel ≤ fuel' →
      coalesceLoop fuel' check s = .ok s' := by
  intro fuel
  induction fuel with
  | zero => intro check s s' h; simp [coalesceLoop] at h
  | succ k ih =>
    intro check s s' h fuel' hle
    obtain ⟨k', rfl⟩ : ∃ k', fuel' = k' + 1 := ⟨fuel' - 1, by omega⟩
    by_cases hc : check ≠ 0 ∧ (s.mem check).next ≠ 0
    · rw [coalesceLoop_step k check s hc] at h
      rw [coalesceLoop_step k' check s hc]
      exact ih _ _ _ h k' (by omega)
    · rw [coalesceLoop_stop k check s hc] at h
      rw [coalesceLoop_stop k' check s hc]
      exact h

theorem free_mono (fuel p : Nat) (s s' : State) (h : free fuel p s = .ok s') (fuel' : Nat)
    (hle : fuel ≤ fuel') : free fuel' p s = .ok s' := by
  unfold free at h ⊢
  split
  · rename_i hp; rw [if_pos hp] at h; exact h
  · rename_i hp
    rw [if_neg hp] at h
    simp only at h ⊢
    split
    · rename_i hc; rw [if_pos hc] at h; exact h
    · rename_i hc
      rw [if_neg hc] at h
      split
      · rename_i hf; rw [if_pos hf] at h; exact h
      · rename_i hf
        rw [if_neg hf] at h
        simp only [bind, Except.bind] at h ⊢
        split at h
        · simp at h
        · rename_i v hv
          rw [coalesceLoop_mono _ _ _ _ hv fuel' hle]
          exact h

/-- On a well-formed heap, `free` of a live address returns when the fuel
exceeds the length of the chain, and leaves a well-formed heap in which the
other live addresses are still live. -/
theorem free_spec (s : State) (l L : List Nat) (p fuel : Nat) (hinv : Inv s l)
    (hlive : LiveOk s.mem l L) (hp : p ∈ L) (hfuel : l.length < fuel) :
    ∃ s' l', free fuel p s = .ok s' ∧ Inv s' l' ∧ LiveOk s'.mem l' (L.erase p) := by
  obtain ⟨a, hal, hpa, hafree⟩ := hlive.2 p hp
  have ha0 : a ≠ 0 := IsChain.ne_zero _ _ _ hinv.chain a hal
  obtain ⟨l1, l2, rfl⟩ := List.append_of_mem hal
  obtain ⟨l3, hc2, ht2, h32, huse, hlen, hcnt, hmh⟩ := free_local s l1 l2 a hinv hafree
  obtain ⟨f1, f2, f3, f4⟩ := markAndMerge_fields a s
  have hlim : s.brk < 2 ^ 64 := by
    have h1 := hinv.brk_le
    have h2 := hinv.lim_lt
    omega
  obtain ⟨s3, l', hrun, hc3, ht3, hna3, hsw⟩ :=
    coalesce_pass (l1 ++ a :: l3).length (l1 ++ a :: l3) (le_refl _) (markAndMerge a s)
      s.heapList s.brkMin s.brk fuel hc2 ht2 h32 hlim (lt_of_le_of_lt hlen hfuel)
  have hpc : p - sizeofBlock = a := by rw [hpa]; exact Nat.add_sub_cancel ..
  have hp0 : p ≠ 0 := by rw [hpa]; unfold sizeofBlock; omega
  refine ⟨{ s3 with num_frees := s3.num_frees + 1 }, l', ?_, ?_, ?_⟩
  · unfold free
    rw [if_neg hp0]
    simp only [hpc]
    rw [if_neg ha0, if_neg (not_not.mpr hafree), f1, hrun]
    rfl
  · exact ⟨by
      show 0 < s3.brkMin
      rw [hsw.brkMin, f3]; exact hinv.base_pos, by
      show s3.brk ≤ s3.brkMax
      rw [hsw.brk, hsw.brkMax, f2, f4]; exact hinv.brk_le, by
      show s3.brkMax + 1 < 2 ^ 64
      rw [hsw.brkMax, f4]; exact hinv.lim_lt, by
      show IsChain s3.mem s3.heapList l'
      rw [hsw.heapList, f1]; exact hc3, by
      show Tiled s3.mem s3.brkMin s3.brk l'
      rw [hsw.brkMin, hsw.brk, f2, f3]; exact ht3, hna3, by
      show s3.num_blocks = (l'.length : Int)
      have h1 := hsw.blocks
      have h2 := hinv.blocks
      omega, by
      show s3.max_heap = toInt32 (s3.brk - s3.brkMin)
      rw [hsw.max_heap, hmh, hsw.brk, hsw.brkMin, f2, f3]; exact hinv.heap⟩
  · refine ⟨hlive.1.erase p, ?_⟩
    intro q hq
    have hq' := (List.Nodup.mem_erase_iff hlive.1).mp hq
    obtain ⟨b, hbl, hqb, hbfree⟩ := hlive.2 q hq'.2
    have hba : b ≠ a := fun h => hq'.1 (by rw [hqb, hpa, h])
    obtain ⟨hb2, hbf2⟩ := huse b hbl hba hbfree
    have hb3 := hsw.used b hb2 hbf2
    refine ⟨b, hb3, hqb, ?_⟩
    show (s3.mem b).free = false
    rw [(hsw.sub b hb3).2]; exact hbf2

/-! ## `malloc` on a well-formed heap -/

theorem findFreeBlock_mem (fit : Fit) (hfit : fit ≠ .next) (fuel last size : Nat) (s st : State)
    (l : List Nat) (b last' : Nat) (hc : IsChain s.mem s.heapList l)
    (h : findFreeBlock fit fuel last size s = .ok (b, last', st)) : b = 0 ∨ b ∈ l := by
  cases fit with
  | next => exact absurd rfl hfit
  | first =>
    simp only [findFreeBlock, bind, Except.bind, pure, Except.pure] at h
    split at h
    · simp at h
    · rename_i r hr
      obtain ⟨r1, r2⟩ := r
      simp only [Except.ok.injEq, Prod.mk.injEq] at h
      obtain ⟨rfl, -, -⟩ := h
      exact firstFitLoop_mem _ _ _ _ _ _ _ _ hc hr
  | best =>
    simp only [findFreeBlock, bind, Except.bind, pure, Except.pure] at h
    split at h
    · simp at h
    · rename_i r hr
      obtain ⟨r1, r2⟩ := r
      simp only [Except.ok.injEq, Prod.mk.injEq] at h
      obtain ⟨rfl, -, -⟩ := h
      exact (bestFitLoop_last _ _ _ _ _ _ _ _ _ _ hc hr).2
  | worst =>
    simp only [findFreeBlock, bind, Except.bind, pure, Except.pure] at h
    split at h
    · simp at h
    · rename_i r hr
      obtain ⟨r1, r2⟩ := r
      simp only [Except.ok.injEq, Prod.mk.injEq] at h
      obtain ⟨rfl, -, -⟩ := h
      exact (worstFitLoop_last _ _ _ _ _ _ _ _ _ _ hc hr).2

theorem Inv.congr (s s' : State) (l : List Nat) (h : Inv s l) (hm : s'.mem = s.mem)
    (hh : s'.heapList = s.heapList) (hb : s'.brk = s.brk) (h1 : s'.brkMin = s.brkMin)
    (h2 : s'.brkMax = s.brkMax) (h3 : s'.num_blocks = s.num_blocks)
    (h4 : s'.max_heap = s.max_heap) : Inv s' l :=
  ⟨by rw [h1]; exact h.base_pos, by rw [hb, h2]; exact h.brk_le, by rw [h2]; exact h.lim_lt,
   by rw [hm, hh]; exact h.chain, by rw [hm, h1, hb]; exact h.tiled, by rw [hm]; exact h.noadj,
   by rw [h3]; exact h.blocks, by rw [h4, hb, h1]; exact h.heap⟩

/-- The counters after the reuse path of `malloc`. -/
theorem reuse_counts (b size : Nat) (s : State) :
    (handOut b (reuseBlock b size s)).2.max_heap = s.max_heap ∧
    (handOut b (reuseBlock b size s)).2.num_blocks =
      s.num_blocks +
        (if add64 sizeofBlock 4 ≤ ofInt (toInt32 (sub64 (s.mem b).size size)) then 1 else 0) ∧
    (handOut b (reuseBlock b size s)).2.num_splits =
      s.num_splits +
        (if add64 sizeofBlock 4 ≤ ofInt (toInt32 (sub64 (s.mem b).size size)) then 1 else 0) ∧
    (handOut b (reuseBlock b size s)).2.num_grows = s.num_grows := by
  unfold handOut reuseBlock
  simp only
  by_cases hs : add64 sizeofBlock 4 ≤ ofInt (toInt32 (sub64 (s.mem b).size size))
  · rw [if_pos hs, if_pos hs]
    unfold splitBlock
    split <;> exact ⟨rfl, rfl, rfl, rfl⟩
  · rw [if_neg hs, if_neg hs]
    split <;> exact ⟨rfl, by simp, by simp, rfl⟩

/-- The counters after a successful `growHeap` and the hand-out of the block. -/
theorem grow_counts (last size c : Nat) (s sg : State)
    (h : growHeap last size s = .ok (c, sg)) (hc : c ≠ 0) :
    (handOut c sg).2.num_blocks = s.num_blocks + 1 ∧
    (handOut c sg).2.max_heap
      = toInt32 (add64 (add64 (ofInt s.max_heap) size) sizeofBlock) ∧
    (handOut c sg).2.num_grows = s.num_grows + 1 ∧
    (handOut c sg).2.num_splits = s.num_splits := by
  unfold handOut
  rw [if_neg hc]
  unfold growHeap at h
  simp only at h
  split at h
  · simp at h
  · split at h
    · simp only [Except.ok.injEq, Prod.mk.injEq] at h
      exact absurd h.1.symm hc
    · split at h
      · simp at h
      · simp only [Except.ok.injEq, Prod.mk.injEq] at h
        obtain ⟨-, rfl⟩ := h
        have hs : ∀ i : Int, (sbrk i s).2.num_blocks = s.num_blocks ∧
            (sbrk i s).2.max_heap = s.max_heap ∧ (sbrk i s).2.num_grows = s.num_grows ∧
            (sbrk i s).2.num_splits = s.num_splits := by
          intro i
          unfold sbrk
          split
          · exact ⟨rfl, rfl, rfl, rfl⟩
          · split
            · exact ⟨rfl, rfl, rfl, rfl⟩
            · split <;> exact ⟨rfl, rfl, rfl, rfl⟩
        obtain ⟨h1, h2, h3, h4⟩ := hs (toIntptr (add64 sizeofBlock size))
        have h0 : sbrk 0 s = (s.brk, s) := by simp [sbrk]
        simp only [h0]
        split <;> split <;> simp only [h1, h2, h3, h4, and_self]

theorem max_heap_step (d size : Nat) :
    toInt32 (add64 (add64 (ofInt (toInt32 d)) size) sizeofBlock)
      = toInt32 (d + (sizeofBlock + size)) := by
  unfold toInt32 add64 ofInt sizeofBlock at *
  norm_num at *
  split <;> split <;> omega

theorem reuseBlock_fields (b size : Nat) (s : State) :
    (reuseBlock b size s).heapList = s.heapList ∧ (reuseBlock b size s).brk = s.brk ∧
    (reuseBlock b size s).brkMin = s.brkMin ∧ (reuseBlock b size s).brkMax = s.brkMax := by
  unfold reuseBlock
  simp only
  split
  · exact ⟨rfl, rfl, rfl, rfl⟩
  · exact ⟨rfl, rfl, rfl, rfl⟩

theorem handOut_fields (c : Nat) (s : State) :
    (handOut c s).2.heapList = s.heapList ∧ (handOut c s).2.brk = s.brk ∧
    (handOut c s).2.brkMin = s.brkMin ∧ (handOut c s).2.brkMax = s.brkMax := by
  unfold handOut
  split
  · exact ⟨rfl, rfl, rfl, rfl⟩
  · exact ⟨rfl, rfl, rfl, rfl⟩

/-- The header memory after the reuse path with a split. -/
theorem reuse_split_mem (b size : Nat) (s : State) (hb : b ≠ 0)
    (hs : add64 sizeofBlock 4 ≤ ofInt (toInt32 (sub64 (s.mem b).size size))) (z : Nat) :
    (handOut b (reuseBlock b size s)).2.mem z =
      if z = b then ⟨size, b + size + sizeofBlock, false⟩
      else if z = b + size + sizeofBlock then
        ⟨sub64 (sub64 (s.mem b).size size) sizeofBlock, (s.mem b).next, true⟩
      else s.mem z := by
  have hnb : b ≠ b + size + sizeofBlock := by unfold sizeofBlock; omega
  unfold handOut reuseBlock
  rw [if_neg hb]
  simp only
  rw [if_pos hs]
  unfold splitBlock
  by_cases hz : z = b
  · simp [Mem.set, hz]
  · by_cases hz' : z = b + size + sizeofBlock
    · simp [Mem.set, hz', hnb.symm]
    · simp [Mem.set, hz, hz']

/-- The header memory after the reuse path without a split. -/
theorem reuse_whole_mem (b size : Nat) (s : State) (hb : b ≠ 0)
    (hs : ¬ add64 sizeofBlock 4 ≤ ofInt (toInt32 (sub64 (s.mem b).size size))) (z : Nat) :
    (handOut b (reuseBlock b size s)).2.mem z =
      if z = b then { s.mem b with free := false } else s.mem z := by
  unfold handOut reuseBlock
  rw [if_neg hb]
  simp only
  rw [if_neg hs]
  by_cases hz : z = b
  · simp [Mem.set, hz]
  · simp [Mem.set, hz]

theorem NoAdjacentFree.cons_next_used (m : Mem) (x : Nat) (l : List Nat)
    (hz : ∀ z t, l = z :: t → (m z).free = false) (h : NoAdjacentFree m l) :
    NoAdjacentFree m (x :: l) := by
  cases l with
  | nil => trivial
  | cons z t => exact NoAdjacentFree.cons_before_used m x z t (hz z t rfl) h

/-- The live addresses after a block `b` that was free is handed out. -/
theorem LiveOk.hand_out (m m' : Mem) (l l' L : List Nat) (b : Nat) (hlive : LiveOk m l L)
    (hbfree : (m b).free = true) (hb' : b ∈ l') (hbused : (m' b).free = false)
    (hkeep : ∀ x ∈ l, x ≠ b → x ∈ l' ∧ (m' x).free = (m x).free) :
    LiveOk m' l' ((b + sizeofBlock) :: L) := by
  refine ⟨List.nodup_cons.mpr ⟨?_, hlive.1⟩, ?_⟩
  · intro hp
    obtain ⟨a, -, hpa, hafree⟩ := hlive.2 _ hp
    have : a = b := by omega
    rw [this, hbfree] at hafree
    exact absurd hafree (by decide)
  · intro q hq
    rcases List.mem_cons.mp hq with rfl | hq'
    · exact ⟨b, hb', rfl, hbused⟩
    · obtain ⟨a, hal, hqa, hafree⟩ := hlive.2 q hq'
      have hab : a ≠ b := fun h => by
        rw [h, hbfree] at hafree; exact absurd hafree (by decide)
      obtain ⟨h1, h2⟩ := hkeep a hal hab
      exact ⟨a, h1, hqa, by rw [h2]; exact hafree⟩

/-- The reuse path of `malloc` keeps the heap well formed. -/
theorem reuse_inv (s : State) (l L : List Nat) (b size : Nat) (hinv : Inv s l)
    (hlive : LiveOk s.mem l L) (hb : b ∈ l) (hfit : fits s.mem size b) :
    ∃ l', Inv (handOut b (reuseBlock b size s)).2 l' ∧
      LiveOk (handOut b (reuseBlock b size s)).2.mem l' ((b + sizeofBlock) :: L) := by
  obtain ⟨hbfree, hle⟩ := hfit
  have hb0 : b ≠ 0 := IsChain.ne_zero _ _ _ hinv.chain b hb
  obtain ⟨l1, l2, rfl⟩ := List.append_of_mem hb
  have hnd := IsChain.nodup _ _ _ hinv.chain
  have hb1 : b ∉ l1 := fun h => by
    rw [List.nodup_append] at hnd
    exact hnd.2.2 h (List.mem_cons_self _ _)
  have hb2 : b ∉ l2 := fun h => by
    rw [List.nodup_append] at hnd
    exact (List.nodup_cons.mp hnd.2.1).1 h
  obtain ⟨ht1, ht2, hlo, hhi, hbe, -⟩ := Tiled.tiled_around _ _ _ _ _ _ hinv.tiled
  obtain ⟨-, -, hnext⟩ := IsChain.suffix s.mem l1 l2 _ b hinv.chain
  obtain ⟨hna1, hna2'⟩ := NoAdjacentFree.flags_append s.mem l1 (b :: l2) hinv.noadj
  have hna2 := NoAdjacentFree.flags_tail _ _ _ hna2'
  have hlim : s.brk < 2 ^ 64 := by
    have h1 := hinv.brk_le
    have h2 := hinv.lim_lt
    omega
  obtain ⟨g1, g2, g3, g4⟩ := reuseBlock_fields b size s
  obtain ⟨k1, k2, k3, k4⟩ := handOut_fields b (reuseBlock b size s)
  have hfields : (handOut b (reuseBlock b size s)).2.heapList = s.heapList ∧
      (handOut b (reuseBlock b size s)).2.brk = s.brk ∧
      (handOut b (reuseBlock b size s)).2.brkMin = s.brkMin ∧
      (handOut b (reuseBlock b size s)).2.brkMax = s.brkMax :=
    ⟨k1.trans g1, k2.trans g2, k3.trans g3, k4.trans g4⟩
  obtain ⟨e1, e2, e3, e4⟩ := hfields
  by_cases hs : add64 sizeofBlock 4 ≤ ofInt (toInt32 (sub64 (s.mem b).size size))
  · -- split
    have hmem := reuse_split_mem b size s hb0 hs
    have hf64 : (s.mem b).size < 2 ^ 64 := by unfold sizeofBlock at hbe; omega
    have hd : sub64 (s.mem b).size size = (s.mem b).size - size := sub64_of_le _ _ hle hf64
    have h28 : 28 ≤ (s.mem b).size - size := by
      have := ofInt_toInt32_ge _ hs
      rw [hd] at this; exact this
    have hd2 : sub64 (sub64 (s.mem b).size size) sizeofBlock
        = (s.mem b).size - size - sizeofBlock := by
      rw [hd]
      exact sub64_of_le _ _ (by unfold sizeofBlock; omega) (by omega)
    have hnb1 : b + size + sizeofBlock ∉ l1 := fun h => by
      have := hlo _ h; unfold sizeofBlock at this; omega
    have hnb2 : b + size + sizeofBlock ∉ l2 := fun h => by
      have := hhi _ h; unfold sizeofBlock at this; omega
    have hnbb : b + size + sizeofBlock ≠ b := by unfold sizeofBlock; omega
    have hoth : ∀ z, z ≠ b → z ≠ b + size + sizeofBlock →
        (handOut b (reuseBlock b size s)).2.mem z = s.mem z := by
      intro z h1 h2; rw [hmem, if_neg h1, if_neg h2]
    have hoth1 : ∀ z ∈ l1, (handOut b (reuseBlock b size s)).2.mem z = s.mem z :=
      fun z hz => hoth z (fun h => hb1 (h ▸ hz)) (fun h => hnb1 (h ▸ hz))
    have hoth2 : ∀ z ∈ l2, (handOut b (reuseBlock b size s)).2.mem z = s.mem z :=
      fun z hz => hoth z (fun h => hb2 (h ▸ hz)) (fun h => hnb2 (h ▸ hz))
    have hmb : (handOut b (reuseBlock b size s)).2.mem b
        = ⟨size, b + size + sizeofBlock, false⟩ := by rw [hmem, if_pos rfl]
    have hmn : (handOut b (reuseBlock b size s)).2.mem (b + size + sizeofBlock)
        = ⟨(s.mem b).size - size - sizeofBlock, (s.mem b).next, true⟩ := by
      rw [hmem, if_neg hnbb, if_pos rfl, hd2]
    obtain ⟨c1, c2, -, -⟩ := reuse_counts b size s
    rw [if_pos hs] at c2
    refine ⟨l1 ++ b :: (b + size + sizeofBlock) :: l2, ⟨?_, ?_, ?_, ?_, ?_, ?_, ?_, ?_⟩, ?_⟩
    rotate_left 6
    · rw [c2, hinv.blocks]
      simp only [List.length_append, List.length_cons]
      push_cast
      omega
    · rw [c1, e2, e3]; exact hinv.heap
    rotate_left
    · rw [e3]; exact hinv.base_pos
    · rw [e2, e4]; exact hinv.brk_le
    · rw [e4]; exact hinv.lim_lt
    · rw [e1]
      refine IsChain.splice s.mem _ l1 l2 _ _ b hinv.chain
        (fun z hz => by rw [hoth1 z hz]) ⟨rfl, hb0, ?_⟩
      rw [hmb]
      refine ⟨rfl, by unfold sizeofBlock; omega, ?_⟩
      rw [hmn]
      exact IsChain.chain_frame s.mem _ l2 _ (fun z hz => by rw [hoth2 z hz]) hnext
    · rw [e2, e3]
      refine (Tiled.tiled_append _ l1 _ _ _).mpr ⟨b,
        Tiled.tiled_frame s.mem _ l1 _ _ (fun z hz => by rw [hoth1 z hz]) ht1, rfl, ?_, ?_⟩
      · rw [hmb]; simp only; omega
      · rw [hmn]
        simp only
        have he : b + size + sizeofBlock + sizeofBlock + ((s.mem b).size - size - sizeofBlock)
            = b + sizeofBlock + (s.mem b).size := by unfold sizeofBlock; omega
        rw [he]
        exact Tiled.tiled_frame s.mem _ l2 _ _ (fun z hz => by rw [hoth2 z hz]) ht2
    · refine NoAdjacentFree.join_used _ b (by rw [hmb]) l1 _
        (NoAdjacentFree.flags_frame s.mem _ l1 (fun z hz => by rw [hoth1 z hz]) hna1) ?_
      refine NoAdjacentFree.cons_next_used _ _ l2 ?_
        (NoAdjacentFree.flags_frame s.mem _ l2 (fun z hz => by rw [hoth2 z hz]) hna2)
      intro z t hzt
      subst hzt
      rw [hoth2 z (List.mem_cons_self _ _)]
      exact NoAdjacentFree.next_used s.mem b z t hna2' hbfree
    · refine LiveOk.hand_out s.mem _ _ _ L b hlive hbfree (by simp) (by rw [hmb]) ?_
      intro x hx hxb
      have hxn : x ≠ b + size + sizeofBlock := by
        intro h
        rcases List.mem_append.mp hx with h1 | h1
        · exact hnb1 (h ▸ h1)
        · rcases List.mem_cons.mp h1 with h2 | h2
          · exact hxb h2
          · exact hnb2 (h ▸ h2)
      refine ⟨?_, by rw [hoth x hxb hxn]⟩
      rcases List.mem_append.mp hx with h1 | h1
      · exact List.mem_append.mpr (Or.inl h1)
      · rcases List.mem_cons.mp h1 with h2 | h2
        · exact absurd h2 hxb
        · exact List.mem_append.mpr
            (Or.inr (List.mem_cons_of_mem _ (List.mem_cons_of_mem _ h2)))
  · -- the whole block is handed out
    have hmem := reuse_whole_mem b size s hb0 hs
    have hnx : ∀ z, ((handOut b (reuseBlock b size s)).2.mem z).next = (s.mem z).next := by
      intro z; rw [hmem]; split
      · rename_i h; rw [h]
      · rfl
    have hsz : ∀ z, ((handOut b (reuseBlock b size s)).2.mem z).size = (s.mem z).size := by
      intro z; rw [hmem]; split
      · rename_i h; rw [h]
      · rfl
    have hfr : ∀ z, z ≠ b →
        ((handOut b (reuseBlock b size s)).2.mem z).free = (s.mem z).free := by
      intro z hz; rw [hmem, if_neg hz]
    have hmb : ((handOut b (reuseBlock b size s)).2.mem b).free = false := by
      rw [hmem, if_pos rfl]
    obtain ⟨c1, c2, -, -⟩ := reuse_counts b size s
    rw [if_neg hs] at c2
    refine ⟨l1 ++ b :: l2, ⟨?_, ?_, ?_, ?_, ?_, ?_, ?_, ?_⟩, ?_⟩
    rotate_left 6
    · rw [c2, hinv.blocks]; simp
    · rw [c1, e2, e3]; exact hinv.heap
    rotate_left
    · rw [e3]; exact hinv.base_pos
    · rw [e2, e4]; exact hinv.brk_le
    · rw [e4]; exact hinv.lim_lt
    · rw [e1]; exact IsChain.chain_frame _ _ _ _ (fun z _ => hnx z) hinv.chain
    · rw [e2, e3]; exact Tiled.tiled_frame _ _ _ _ _ (fun z _ => hsz z) hinv.tiled
    · exact NoAdjacentFree.join_used _ b hmb l1 l2
        (NoAdjacentFree.flags_frame s.mem _ l1 (fun z hz => hfr z (fun h => hb1 (h ▸ hz))) hna1)
        (NoAdjacentFree.flags_frame s.mem _ l2 (fun z hz => hfr z (fun h => hb2 (h ▸ hz))) hna2)
    · exact LiveOk.hand_out s.mem _ _ _ L b hlive hbfree hb hmb
        (fun x hx hxb => ⟨hx, hfr x hxb⟩)

theorem sbrk_grow (k : Nat) (s : State) (h0 : 0 < k) (h1 : k < 2 ^ 63)
    (hos : (sbrk (toIntptr k) s).1 ≠ 2 ^ 64 - 1) :
    (sbrk (toIntptr k) s).2.brk = s.brk + k ∧ s.brk + k ≤ s.brkMax := by
  have hk : toIntptr k = (k : Int) := by
    unfold toIntptr
    have : k % 2 ^ 64 = k := Nat.mod_eq_of_lt (by omega)
    rw [this, if_pos h1]
  rw [hk] at hos ⊢
  unfold sbrk at hos ⊢
  have hk0 : (k : Int) ≠ 0 := by omega
  rw [if_neg hk0] at hos ⊢
  split
  · rename_i hc
    refine ⟨?_, by omega⟩
    show ((s.brk : Int) + (k : Int)).toNat = s.brk + k
    omega
  · rename_i hc
    have hneg : ¬ ((k : Int) < 0 ∧ 0 ≤ (s.brk : Int) + (k : Int) ∧
        (s.brk : Int) + (k : Int) < (s.brkMin : Int)) := by omega
    rw [if_neg hc, if_neg hneg] at hos
    exact absurd rfl hos

/-- The chain after `growHeap` has linked a new block behind the tail. -/
theorem chain_after_growth (m m' : Mem) (l : List Nat) (head brk last size : Nat)
    (hc : IsChain m head l) (hnew : brk ∉ l) (hnz : brk ≠ 0) (hlast : last = lastOr l head)
    (hmem : ∀ a, m' a = if a = brk then ⟨size, 0, false⟩
      else if a = last ∧ last ≠ 0 then { m a with next := brk } else m a) :
    IsChain m' (if head = 0 then brk else head) (l ++ [brk]) := by
  rcases List.eq_nil_or_concat l with rfl | ⟨l0, t, hl⟩
  · have hh : head = 0 := hc
    rw [if_pos hh]
    refine ⟨rfl, hnz, ?_⟩
    rw [hmem, if_pos rfl]
    rfl
  · rw [List.concat_eq_append] at hl
    subst hl
    have hne := IsChain.ne_zero _ _ _ hc
    have hnd := IsChain.nodup _ _ _ hc
    have ht : last = t := by rw [hlast]; exact lastOr_append_singleton _ _ _
    have ht0 : t ≠ 0 := hne t (by simp)
    have htb : t ≠ brk := fun h => hnew (h ▸ by simp)
    have hh : head ≠ 0 := by
      cases l0 with
      | nil => exact hc.1 ▸ ht0
      | cons y l1 => exact hc.1 ▸ hc.2.1
    rw [if_neg hh]
    refine IsChain.append_tail m _ brk hnz ?_ l0 _ t hc hnew ?_ ?_
    · rw [hmem, if_pos rfl]
    · intro y hy
      have hyb : y ≠ brk := fun h => hnew (h ▸ by simp [hy])
      have hyt : y ≠ t := by
        intro h
        rw [List.nodup_append] at hnd
        exact hnd.2.2 hy (by simp [h])
      rw [hmem, if_neg hyb, if_neg (by rw [ht]; exact fun h => hyt h.1)]
    · rw [hmem, if_neg htb, if_pos ⟨ht.symm, ht ▸ ht0⟩]

/-- The header memory and the globals after a successful `growHeap` and the
hand-out of the new block. -/
theorem grow_state (last size : Nat) (s : State)
    (hos : (sbrk (toIntptr (add64 sizeofBlock size)) s).1 ≠ 2 ^ 64 - 1)
    (hmap : ¬ mappedEnd (sbrk (toIntptr (add64 sizeofBlock size)) s).2 < s.brk + sizeofBlock)
    (hnz : s.brk ≠ 0) :
    ∃ sg, growHeap last size s = .ok (s.brk, sg) ∧
      (handOut s.brk sg).1 = s.brk + sizeofBlock ∧
      (∀ a, (handOut s.brk sg).2.mem a = if a = s.brk then ⟨size, 0, false⟩
        else if a = last ∧ last ≠ 0 then { s.mem a with next := s.brk } else s.mem a) ∧
      (handOut s.brk sg).2.heapList = (if s.heapList = 0 then s.brk else s.heapList) ∧
      (handOut s.brk sg).2.brk = (sbrk (toIntptr (add64 sizeofBlock size)) s).2.brk ∧
      (handOut s.brk sg).2.brkMin = s.brkMin ∧ (handOut s.brk sg).2.brkMax = s.brkMax := by
  obtain ⟨sg, hg, hgmem, hghl, -, -, -, -, -, -, -, -, -, -, hgb, hg1, hg2⟩ :=
    growHeap_success last size s hos hmap
  obtain ⟨k1, k2, k3, k4⟩ := handOut_fields s.brk sg
  refine ⟨sg, hg, ?_, ?_, k1.trans hghl, k2.trans hgb, k3.trans hg1, k4.trans hg2⟩
  · unfold handOut; rw [if_neg hnz]
  · intro a
    unfold handOut
    rw [if_neg hnz]
    simp only
    rw [hgmem]
    by_cases ha : a = s.brk
    · simp [Mem.set, ha]
    · by_cases hl : last = 0
      · simp [Mem.set, ha, hl]
      · by_cases hal : a = last
        · subst hal; simp [Mem.set, ha, hl]
        · simp [Mem.set, ha, hl, hal]

/-- The growth path of `malloc` keeps the heap well formed, when the size
passed to `sbrk` is a positive `intptr_t`. -/
theorem grow_inv (s : State) (l L : List Nat) (last size c : Nat) (sg : State)
    (hinv : Inv s l) (hlive : LiveOk s.mem l L) (hsize : size + sizeofBlock < 2 ^ 63)
    (hlast : last = lastOr l s.heapList) (hg : growHeap last size s = .ok (c, sg)) :
    ∃ l', Inv (handOut c sg).2 l' ∧
      LiveOk (handOut c sg).2.mem l' ((handOut c sg).1 :: L) ∧ (handOut c sg).1 ≠ 0 := by
  have hbounds := Tiled.bounds _ _ _ _ hinv.tiled
  have hbp := hinv.base_pos
  have hbl := hinv.brk_le
  have hll := hinv.lim_lt
  have hnz : s.brk ≠ 0 := by omega
  have hbrk : s.brk ≠ 2 ^ 64 - 1 := by omega
  by_cases hfail : (sbrk (toIntptr (add64 sizeofBlock size)) s).1 = 2 ^ 64 - 1
  · rw [growHeap_failure_aborts last size s hfail hbrk] at hg
    simp at hg
  · have hadd : add64 sizeofBlock size = sizeofBlock + size :=
      add64_of_lt _ _ (by unfold sizeofBlock at *; omega)
    have hmap : ¬ mappedEnd (sbrk (toIntptr (add64 sizeofBlock size)) s).2
        < s.brk + sizeofBlock := by
      rw [hadd] at hfail ⊢
      exact sbrk_mapped _ s (by omega) (by unfold sizeofBlock at *; omega) hfail
    obtain ⟨sg', hg', hp, hmem, hhl, hb, hb1, hb2⟩ := grow_state last size s hfail hmap hnz
    rw [hg] at hg'
    simp only [Except.ok.injEq, Prod.mk.injEq] at hg'
    obtain ⟨rfl, rfl⟩ := hg'
    rw [hadd] at hfail hb
    obtain ⟨hnb, hnle⟩ := sbrk_grow (sizeofBlock + size) s (by unfold sizeofBlock; omega)
      (by omega) hfail
    rw [hnb] at hb
    have hnew : s.brk ∉ l := fun h => by
      have := (hbounds.2 _ h).2
      unfold sizeofBlock at this; omega
    have hsz : ∀ z ∈ l, ((handOut s.brk sg).2.mem z).size = (s.mem z).size := by
      intro z hz
      rw [hmem, if_neg (fun (h : z = s.brk) => hnew (h ▸ hz))]
      split <;> rfl
    have hfr : ∀ z ∈ l, ((handOut s.brk sg).2.mem z).free = (s.mem z).free := by
      intro z hz
      rw [hmem, if_neg (fun (h : z = s.brk) => hnew (h ▸ hz))]
      split <;> rfl
    have hmb : (handOut s.brk sg).2.mem s.brk = ⟨size, 0, false⟩ := by
      rw [hmem, if_pos rfl]
    obtain ⟨c1, c2, -, -⟩ := grow_counts last size s.brk s sg hg hnz
    refine ⟨l ++ [s.brk], ⟨?_, ?_, ?_, ?_, ?_, ?_, ?_, ?_⟩, ?_, ?_⟩
    rotate_left 6
    · rw [c1, hinv.blocks]
      simp only [List.length_append, List.length_cons, List.length_nil]
      push_cast
      omega
    · rw [c2, hb, hb1, hinv.heap]
      have hle : s.brkMin ≤ s.brk := hbounds.1
      have he : s.brk + (sizeofBlock + size) - s.brkMin
          = (s.brk - s.brkMin) + (sizeofBlock + size) := by omega
      rw [he]
      exact max_heap_step _ _
    rotate_left 2
    · rw [hb1]; exact hbp
    · rw [hb, hb2]; exact hnle
    · rw [hb2]; exact hll
    · rw [hhl]
      exact chain_after_growth s.mem _ l _ s.brk last size hinv.chain hnew hnz hlast hmem
    · rw [hb, hb1]
      refine (Tiled.tiled_append _ l [s.brk] _ _).mpr ⟨s.brk,
        Tiled.tiled_frame s.mem _ l _ _ hsz hinv.tiled, rfl, ?_⟩
      rw [hmb]
      show s.brk + sizeofBlock + size = s.brk + (sizeofBlock + size)
      omega
    · exact NoAdjacentFree.join_used _ s.brk (by rw [hmb]) l []
        (NoAdjacentFree.flags_frame s.mem _ l hfr hinv.noadj) trivial
    · rw [hp]
      refine ⟨List.nodup_cons.mpr ⟨?_, hlive.1⟩, ?_⟩
      · intro hin
        obtain ⟨a, hal, hpa, -⟩ := hlive.2 _ hin
        have : a = s.brk := by omega
        exact hnew (this ▸ hal)
      · intro q hq
        rcases List.mem_cons.mp hq with rfl | hq'
        · exact ⟨s.brk, by simp, rfl, by rw [hmb]⟩
        · obtain ⟨a, hal, hqa, hafree⟩ := hlive.2 q hq'
          exact ⟨a, List.mem_append.mpr (Or.inl hal), hqa, by rw [hfr a hal]; exact hafree⟩
    · rw [hp]; unfold sizeofBlock; omega

theorem ALIGN4_request (n : Nat) (h1 : 1 ≤ n) (hn : n ≤ maxRequest) :
    ALIGN4 n ≠ 0 ∧ ALIGN4 n + sizeofBlock < 2 ^ 63 := by
  unfold maxRequest at hn
  have hA := ALIGN4_eq n h1 (by norm_num at hn ⊢; omega)
  unfold sizeofBlock
  norm_num at hn ⊢
  omega

/-- Every `malloc` call with a request of at most `maxRequest` bytes keeps the
heap well formed, under the three full-scan strategies. -/
theorem malloc_inv (fit : Fit) (hfit : fit ≠ .next) (s s' : State) (l L : List Nat)
    (fuel n p : Nat) (hinv : Inv s l) (hlive : LiveOk s.mem l L) (hn : n ≤ maxRequest)
    (h : malloc fit fuel n s = .ok (p, s')) :
    ∃ l', Inv s' l' ∧ LiveOk s'.mem l' (if p = 0 then L else p :: L) := by
  obtain ⟨hE1, -, -, -, -, -, -, -, hE9, hE10, hE11, hE12, hE13⟩ := enter_fields n s
  have hinvE : Inv (enter n s) l :=
    Inv.congr s _ l hinv (enter_mem n s) hE1 hE11 hE12 hE13 hE9 hE10
  have hliveE : LiveOk (enter n s).mem l L := by rw [enter_mem]; exact hlive
  by_cases hn0 : n = 0
  · subst hn0
    unfold malloc at h
    simp only [ALIGN4_zero, if_true, Except.ok.injEq, Prod.mk.injEq] at h
    obtain ⟨rfl, rfl⟩ := h
    exact ⟨l, hinvE, by rw [if_pos rfl]; exact hliveE⟩
  · obtain ⟨hA0, hAs⟩ := ALIGN4_request n (by omega) hn
    obtain ⟨b, last, st, c, sg, hfind, hob, hho⟩ := malloc_ok fit fuel n s s' p hA0 h
    obtain ⟨rfl, hfits⟩ := findFreeBlock_fits fit hfit _ _ _ _ _ _ _ hfind
    have hp : (handOut c sg).1 = p := congrArg Prod.fst hho
    have hs' : (handOut c sg).2 = s' := congrArg Prod.snd hho
    unfold obtainBlock at hob
    by_cases hb : b = 0
    · rw [if_neg (not_not.mpr hb)] at hob
      rw [hb] at hfind
      obtain ⟨hlast, -⟩ := findFreeBlock_not_found fit fuel _ _ _ _ l last hinvE.chain hfind
      obtain ⟨l', h1, h2, h3⟩ := grow_inv (enter n s) l L last (ALIGN4 n) c sg hinvE hliveE
        hAs hlast hob
      rw [hp] at h2 h3
      rw [hs'] at h1 h2
      exact ⟨l', h1, by rw [if_neg h3]; exact h2⟩
    · rw [if_pos hb] at hob
      simp only [Except.ok.injEq, Prod.mk.injEq] at hob
      obtain ⟨rfl, rfl⟩ := hob
      have hbl : b ∈ l := by
        rcases findFreeBlock_mem fit hfit _ _ _ _ _ l _ _ hinvE.chain hfind with h0 | h0
        · exact absurd h0 hb
        · exact h0
      obtain ⟨l', h1, h2⟩ := reuse_inv (enter n s) l L b (ALIGN4 n) hinvE hliveE hbl (hfits hb)
      have hpb : p = b + sizeofBlock := by
        rw [← hp]; unfold handOut; rw [if_neg hb]
      rw [hs'] at h1 h2
      have hp0 : p ≠ 0 := by rw [hpb]; unfold sizeofBlock; omega
      exact ⟨l', h1, by rw [if_neg hp0, hpb]; exact h2⟩

/-- The well-formedness of the heap in every reachable state. -/
theorem reach_inv (fit : Fit) (hfit : fit ≠ .next) (base lim : Nat) (hb : 0 < base)
    (hbl : base ≤ lim) (hl : lim + 1 < 2 ^ 64) (s : State) (L : List Nat)
    (hr : Reach fit maxRequest base lim s L) : ∃ l, Inv s l ∧ LiveOk s.mem l L := by
  induction hr with
  | init =>
    exact ⟨[], ⟨hb, hbl, hl, rfl, rfl, trivial, rfl, by
      show (0 : Int) = toInt32 (base - base)
      rw [Nat.sub_self]; rfl⟩, List.nodup_nil, fun p hp => by simp at hp⟩
  | byMalloc s s' L fuel n p _ hn hm hp ih =>
    obtain ⟨l, hinv, hlive⟩ := ih
    obtain ⟨l', h1, h2⟩ := malloc_inv fit hfit s s' l L fuel n p hinv hlive hn hm
    rw [if_neg hp] at h2
    exact ⟨l', h1, h2⟩
  | byMallocNull s s' L fuel n _ hn hm ih =>
    obtain ⟨l, hinv, hlive⟩ := ih
    obtain ⟨l', h1, h2⟩ := malloc_inv fit hfit s s' l L fuel n 0 hinv hlive hn hm
    rw [if_pos rfl] at h2
    exact ⟨l', h1, h2⟩
  | byFree s s' L fuel p _ hp hf ih =>
    obtain ⟨l, hinv, hlive⟩ := ih
    obtain ⟨s'', l', h1, h2, h3⟩ := free_spec s l L p (max fuel (l.length + 1)) hinv hlive hp
      (by omega)
    have := free_mono fuel p s s' hf (max fuel (l.length + 1)) (le_max_left _ _)
    rw [this] at h1
    simp only [Except.ok.injEq] at h1
    subst h1
    exact ⟨l', h2, h3⟩

/-! ## No two adjacent free blocks after `free` -/

theorem run_eq {α : Type} (d : State) (r : Except Fault (α × State)) (v : α)
    (h : valueOf r = some v) : r = .ok (v, stateOf d r) := by
  cases r with
  | error e => simp [valueOf] at h
  | ok x =>
    simp only [valueOf, Option.some.injEq] at h
    subst h
    rfl

theorem freed_eq (d : State) (r : Except Fault State) (h : faultOf r = none) :
    r = .ok (freedOf d r) := by
  cases r with
  | error e => simp [faultOf] at h
  | ok x => rfl

theorem runCalls_malloc (fit : Fit) (fuel n : Nat) (cs : List Call) (s : State) :
    runCalls fit fuel (.malloc n :: cs) s =
      (malloc fit fuel n s >>= fun r =>
        runCalls fit fuel cs r.2 >>= fun q => pure (r.1 :: q.1, q.2)) := rfl

theorem runCalls_free (fit : Fit) (fuel p : Nat) (cs : List Call) (s : State) :
    runCalls fit fuel (.free p :: cs) s =
      (free fuel p s >>= fun r => runCalls fit fuel cs r) := rfl

theorem runCalls_nil (fit : Fit) (fuel : Nat) (s : State) :
    runCalls fit fuel [] s = .ok ([], s) := rfl

theorem liveAfter_malloc (bound n r : Nat) (cs : List Call) (rs L : List Nat) :
    liveAfter bound (.malloc n :: cs) (r :: rs) L =
      if n ≤ bound then liveAfter bound cs rs (if r = 0 then L else r :: L) else none := rfl

theorem liveAfter_free (bound p : Nat) (cs : List Call) (rs L : List Nat) :
    liveAfter bound (.free p :: cs) rs L =
      if p ∈ L then liveAfter bound cs rs (L.erase p) else none := by
  cases rs <;> rfl

theorem liveAfter_nil (bound : Nat) (L L' : List Nat) (h : liveAfter bound [] [] L = some L') :
    L' = L := by
  have : liveAfter bound [] [] L = some L := rfl
  rw [this] at h
  exact (Option.some.inj h).symm

/-- A run of calls that frees only live addresses and requests at most `bound`
bytes leads from a reachable state to a reachable state. -/
theorem reach_of_run (fit : Fit) (bound base lim fuel : Nat) :
    ∀ (cs : List Call) (s : State) (L rs : List Nat) (s' : State) (L' : List Nat),
      Reach fit bound base lim s L → runCalls fit fuel cs s = .ok (rs, s') →
      liveAfter bound cs rs L = some L' → Reach fit bound base lim s' L' := by
  intro cs
  induction cs with
  | nil =>
    intro s L rs s' L' hr hrun hl
    rw [runCalls_nil] at hrun
    simp only [Except.ok.injEq, Prod.mk.injEq] at hrun
    obtain ⟨rfl, rfl⟩ := hrun
    rw [liveAfter_nil bound L L' hl]
    exact hr
  | cons c cs ih =>
    intro s L rs s' L' hr hrun hl
    cases c with
    | malloc n =>
      rw [runCalls_malloc] at hrun
      cases hm : malloc fit fuel n s with
      | error e => rw [hm] at hrun; exact absurd hrun (by simp [bind, Except.bind])
      | ok r =>
        obtain ⟨p, s1⟩ := r
        rw [hm] at hrun
        cases hq : runCalls fit fuel cs s1 with
        | error e =>
          simp only [bind, Except.bind, hq] at hrun
          exact absurd hrun (by simp)
        | ok q =>
          obtain ⟨qs, s2⟩ := q
          simp only [bind, Except.bind, hq, pure, Except.pure, Except.ok.injEq,
            Prod.mk.injEq] at hrun
          obtain ⟨rfl, rfl⟩ := hrun
          rw [liveAfter_malloc] at hl
          by_cases hn : n ≤ bound
          · rw [if_pos hn] at hl
            by_cases hp : p = 0
            · subst hp
              rw [if_pos rfl] at hl
              exact ih s1 L qs s2 L' (Reach.byMallocNull s s1 L fuel n hr hn hm) hq hl
            · rw [if_neg hp] at hl
              exact ih s1 (p :: L) qs s2 L' (Reach.byMalloc s s1 L fuel n p hr hn hm hp) hq hl
          · rw [if_neg hn] at hl
            exact absurd hl (by simp)
    | free p =>
      rw [runCalls_free] at hrun
      cases hf : free fuel p s with
      | error e => rw [hf] at hrun; exact absurd hrun (by simp [bind, Except.bind])
      | ok s1 =>
        rw [hf] at hrun
        simp only [bind, Except.bind] at hrun
        rw [liveAfter_free] at hl
        by_cases hp : p ∈ L
        · rw [if_pos hp] at hl
          exact ih s1 (L.erase p) rs s' L' (Reach.byFree s s1 L fuel p hr hp hf) hrun hl
        · rw [if_neg hp] at hl
          exact absurd hl (by simp)
/-- C2 (amended). Under first-fit, best-fit or worst-fit, in a process whose
break starts above 0 and stays below `2^64 - 1`, after any sequence of
`malloc` calls with requests of at most `2^63 - 28` bytes and of `free` calls
on live addresses, a `free` call on a live address returns, and right after
it no two consecutive blocks of the chain are both marked free. -/
theorem free_no_adjacent_free (fit : Fit) (hfit : fit ≠ .next) (base lim : Nat) (hb : 0 < base)
    (hbl : base ≤ lim) (hl : lim + 1 < 2 ^ 64) (s : State) (L : List Nat) (p : Nat)
    (hr : Reach fit maxRequest base lim s L) (hp : p ∈ L) :
    (∃ fuel s', free fuel p s = .ok s') ∧
    ∀ fuel s', free fuel p s = .ok s' →
      ∃ l, IsChain s'.mem s'.heapList l ∧ NoAdjacentFree s'.mem l := by
  obtain ⟨l, hinv, hlive⟩ := reach_inv fit hfit base lim hb hbl hl s L hr
  constructor
  · obtain ⟨s', l', h1, -, -⟩ := free_spec s l L p (l.length + 1) hinv hlive hp (by omega)
    exact ⟨l.length + 1, s', h1⟩
  · intro fuel s' hf
    obtain ⟨l', hinv', -⟩ :=
      reach_inv fit hfit base lim hb hbl hl s' (L.erase p) (Reach.byFree s s' L fuel p hr hp hf)
    exact ⟨l', hinv'.chain, hinv'.noadj⟩

/-- C2 on `malloc(4)`, `malloc(4)`, `free` of the first block, then `free` of
the second: the chain is one free block. -/
theorem free_no_adjacent_free_witness :
    (∃ fuel s', free fuel 1052 (stateOf fresh
        (runCalls .first 3 [.malloc 4, .malloc 4, .free 1024] fresh)) = .ok s') ∧
    ∀ fuel s', free fuel 1052 (stateOf fresh
        (runCalls .first 3 [.malloc 4, .malloc 4, .free 1024] fresh)) = .ok s' →
      ∃ l, IsChain s'.mem s'.heapList l ∧ NoAdjacentFree s'.mem l :=
  free_no_adjacent_free .first (by decide) 1000 (2 ^ 40) (by decide) (by decide) (by decide)
    _ [1052] 1052
    (reach_of_run .first maxRequest 1000 (2 ^ 40) 3 [.malloc 4, .malloc 4, .free 1024] fresh
      [] [1024, 1052] _ [1052] Reach.init
      (run_eq fresh _ _ (by decide)) (by decide))
    (by decide)

/-- C2 as stated fails.  Under first-fit the nine calls of `shuffleCalls`
(requests of at most `2^64 - 4` bytes, frees on live addresses) reach the
state `shuffled`, in which 1232 is live; `free(1232)` returns, and afterwards
the chain is 1000, 1124, 1208 with blocks 1124 and 1208 both free. -/
theorem free_adjacent_free_counterexample :
    Reach .first (2 ^ 64 - 4) 1000 (2 ^ 40) shuffled [1048, 1232, 1204, 1176, 1024] ∧
    1232 ∈ [1048, 1232, 1204, 1176, 1024] ∧
    free 7 1232 shuffled = .ok shuffledFreed ∧
    IsChain shuffledFreed.mem shuffledFreed.heapList [1000, 1124, 1208] ∧
    (shuffledFreed.mem 1124).free = true ∧ (shuffledFreed.mem 1208).free = true ∧
    ¬ NoAdjacentFree shuffledFreed.mem [1000, 1124, 1208] :=
  ⟨reach_of_run .first (2 ^ 64 - 4) 1000 (2 ^ 40) 7 shuffleCalls fresh []
      [1024, 1148, 1176, 1204, 1048, 1232, 1048] shuffled _ Reach.init
      (run_eq fresh _ _ (by decide)) (by decide),
    by decide, freed_eq shuffled _ (by decide), by decide, by decide, by decide,
    fun h => h.2.1 ⟨by decide, by decide⟩⟩

/-! ## What the calls leave alone -/

theorem sbrk_bounds (i : Int) (s : State) :
    (sbrk i s).2.brkMin = s.brkMin ∧ (sbrk i s).2.brkMax = s.brkMax := by
  unfold sbrk
  split
  · exact ⟨rfl, rfl⟩
  · split
    · exact ⟨rfl, rfl⟩
    · split <;> exact ⟨rfl, rfl⟩

theorem growHeap_bounds (last size c : Nat) (s sg : State)
    (h : growHeap last size s = .ok (c, sg)) :
    sg.brkMin = s.brkMin ∧ sg.brkMax = s.brkMax := by
  unfold growHeap at h
  simp only at h
  have h0 : sbrk 0 s = (s.brk, s) := by simp [sbrk]
  obtain ⟨h1, h2⟩ := sbrk_bounds (toIntptr (add64 sizeofBlock size)) s
  simp only [h0] at h
  split at h
  · simp at h
  · split at h
    · simp only [Except.ok.injEq, Prod.mk.injEq] at h
      obtain ⟨-, rfl⟩ := h
      exact ⟨h1, h2⟩
    · split at h
      · simp at h
      · simp only [Except.ok.injEq, Prod.mk.injEq] at h
        obtain ⟨-, rfl⟩ := h
        split <;> split <;> simp only [h1, h2, and_self]

/-- A search changes at most the next-fit cursor. -/
theorem findFreeBlock_state (fit : Fit) (fuel last size : Nat) (s st : State) (b last' : Nat)
    (h : findFreeBlock fit fuel last size s = .ok (b, last', st)) :
    st = { s with nextFitPT := st.nextFitPT } := by
  cases fit with
  | first =>
    simp only [findFreeBlock, bind, Except.bind, pure, Except.pure] at h
    split at h
    · simp at h
    · simp only [Except.ok.injEq, Prod.mk.injEq] at h
      obtain ⟨-, -, rfl⟩ := h
      rfl
  | best =>
    simp only [findFreeBlock, bind, Except.bind, pure, Except.pure] at h
    split at h
    · simp at h
    · simp only [Except.ok.injEq, Prod.mk.injEq] at h
      obtain ⟨-, -, rfl⟩ := h
      rfl
  | worst =>
    simp only [findFreeBlock, bind, Except.bind, pure, Except.pure] at h
    split at h
    · simp at h
    · simp only [Except.ok.injEq, Prod.mk.injEq] at h
      obtain ⟨-, -, rfl⟩ := h
      rfl
  | next =>
    simp only [findFreeBlock, bind, Except.bind, pure, Except.pure] at h
    split at h
    · split at h
      · simp at h
      · simp only [Except.ok.injEq, Prod.mk.injEq] at h
        obtain ⟨-, -, rfl⟩ := h
        rfl
    · split at h
      · simp at h
      · split at h
        · split at h
          · simp at h
          · simp only [Except.ok.injEq, Prod.mk.injEq] at h
            obtain ⟨-, -, rfl⟩ := h
            rfl
        · simp only [Except.ok.injEq, Prod.mk.injEq] at h
          obtain ⟨-, -, rfl⟩ := h
          rfl

/-- The bounds of the break are never changed by `malloc`. -/
theorem malloc_bounds (fit : Fit) (fuel n p : Nat) (s s' : State)
    (h : malloc fit fuel n s = .ok (p, s')) :
    s'.brkMin = s.brkMin ∧ s'.brkMax = s.brkMax := by
  obtain ⟨-, -, -, -, -, -, -, -, -, -, -, hE12, hE13⟩ := enter_fields n s
  by_cases hA : ALIGN4 n = 0
  · unfold malloc at h
    simp only [hA, if_true, Except.ok.injEq, Prod.mk.injEq] at h
    obtain ⟨-, rfl⟩ := h
    exact ⟨hE12, hE13⟩
  · obtain ⟨b, last, st, c, sg, hfind, hob, hho⟩ := malloc_ok fit fuel n s s' p hA h
    have hst := findFreeBlock_state fit fuel _ _ _ _ _ _ hfind
    have hs' : (handOut c sg).2 = s' := congrArg Prod.snd hho
    obtain ⟨-, -, k3, k4⟩ := handOut_fields c sg
    rw [hs'] at k3 k4
    have e3 : st.brkMin = s.brkMin := (congrArg State.brkMin hst).trans hE12
    have e4 : st.brkMax = s.brkMax := (congrArg State.brkMax hst).trans hE13
    unfold obtainBlock at hob
    split at hob
    · simp only [Except.ok.injEq, Prod.mk.injEq] at hob
      obtain ⟨-, rfl⟩ := hob
      obtain ⟨-, -, g3, g4⟩ := reuseBlock_fields b (ALIGN4 n) st
      exact ⟨k3.trans (g3.trans e3), k4.trans (g4.trans e4)⟩
    · obtain ⟨g3, g4⟩ := growHeap_bounds _ _ _ _ _ hob
      exact ⟨k3.trans (g3.trans e3), k4.trans (g4.trans e4)⟩

theorem coalesceLoop_fields : ∀ (fuel check : Nat) (s s' : State),
    coalesceLoop fuel check s = .ok s' →
      s'.brk = s.brk ∧ s'.brkMin = s.brkMin ∧ s'.brkMax = s.brkMax ∧
      s'.heapList = s.heapList ∧ s'.max_heap = s.max_heap ∧
      (∀ z, (s'.mem z).free = (s.mem z).free) := by
  intro fuel
  induction fuel with
  | zero => intro check s s' h; simp [coalesceLoop] at h
  | succ k ih =>
    intro check s s' h
    by_cases hc : check ≠ 0 ∧ (s.mem check).next ≠ 0
    · rw [coalesceLoop_step k check s hc] at h
      obtain ⟨h1, h2, h3, h4, h5, h6⟩ := ih _ _ _ h
      split at h1
      · obtain ⟨fa, fb, fc, fd⟩ := absorb_fields check (s.mem check).next s
        obtain ⟨-, ff, -⟩ := absorb_counts check (s.mem check).next s
        rename_i hm
        simp only [hm, and_self, if_true] at h2 h3 h4 h5 h6
        refine ⟨h1.trans fb, h2.trans fc, h3.trans fd, h4.trans fa, h5.trans ff, ?_⟩
        intro z
        rw [h6 z, absorb_mem]
        split
        · rename_i hz; rw [hz]
        · rfl
      · rename_i hm
        simp only [hm, if_false] at h2 h3 h4 h5 h6
        exact ⟨h1, h2, h3, h4, h5, h6⟩
    · rw [coalesceLoop_stop k check s hc] at h
      simp only [Except.ok.injEq] at h
      subst h
      exact ⟨rfl, rfl, rfl, rfl, rfl, fun _ => rfl⟩

/-- The header memory of `markAndMerge`: only the flag, the link and the size
of `a` can change, and the flag of `a` is set. -/
theorem markAndMerge_flags (a : Nat) (s : State) (z : Nat) :
    ((markAndMerge a s).mem z).free = if z = a then true else (s.mem z).free := by
  unfold markAndMerge
  simp only
  split
  · rw [absorb_mem]
    by_cases hz : z = a
    · rw [if_pos hz, if_pos hz]
      simp only [Mem.set_same]
    · rw [if_neg hz, if_neg hz]
      exact congrArg Block.free (Mem.set_other _ _ _ _ hz)
  · by_cases hz : z = a
    · rw [if_pos hz, hz]
      simp only [Mem.set_same]
    · rw [if_neg hz]
      exact congrArg Block.free (Mem.set_other _ _ _ _ hz)

/-- A call `free(ptr)` that returns leaves the break, its bounds, the head of
the chain and `max_heap` alone, and the header of `ptr` is marked free. -/
theorem free_fields (fuel p : Nat) (s s' : State) (h : free fuel p s = .ok s') (hp : p ≠ 0) :
    s'.brk = s.brk ∧ s'.brkMin = s.brkMin ∧ s'.brkMax = s.brkMax ∧
    s'.heapList = s.heapList ∧ s'.max_heap = s.max_heap ∧
    (s'.mem (p - sizeofBlock)).free = true ∧
    (∀ z, z ≠ p - sizeofBlock → (s'.mem z).free = (s.mem z).free) := by
  unfold free at h
  rw [if_neg hp] at h
  simp only at h
  split at h
  · simp at h
  · split at h
    · simp at h
    · simp only [bind, Except.bind] at h
      split at h
      · simp at h
      · rename_i s3 hrun
        simp only [pure, Except.pure, Except.ok.injEq] at h
        subst h
        obtain ⟨h1, h2, h3, h4, h5, h6⟩ := coalesceLoop_fields _ _ _ _ hrun
        obtain ⟨f1, f2, f3, f4⟩ := markAndMerge_fields (p - sizeofBlock) s
        have hmh : (markAndMerge (p - sizeofBlock) s).max_heap = s.max_heap := by
          unfold markAndMerge
          simp only
          split
          · exact (absorb_counts _ _ _).2.1
          · rfl
        refine ⟨h1.trans f2, h2.trans f3, h3.trans f4, h4.trans f1, h5.trans hmh, ?_, ?_⟩
        · show (s3.mem (p - sizeofBlock)).free = true
          rw [h6, markAndMerge_flags, if_pos rfl]
        · intro z hz
          show (s3.mem z).free = (s.mem z).free
          rw [h6, markAndMerge_flags, if_neg hz]

/-! ## The chain tiles the region -/

theorem reach_bounds (fit : Fit) (bound base lim : Nat) (s : State) (L : List Nat)
    (hr : Reach fit bound base lim s L) : s.brkMin = base ∧ s.brkMax = lim := by
  induction hr with
  | init => exact ⟨rfl, rfl⟩
  | byMalloc s s' L fuel n p _ _ hm _ ih =>
    obtain ⟨h1, h2⟩ := malloc_bounds fit fuel n p s s' hm
    exact ⟨h1.trans ih.1, h2.trans ih.2⟩
  | byMallocNull s s' L fuel n _ _ hm ih =>
    obtain ⟨h1, h2⟩ := malloc_bounds fit fuel n 0 s s' hm
    exact ⟨h1.trans ih.1, h2.trans ih.2⟩
  | byFree s s' L fuel p _ _ hf ih =>
    by_cases hp : p = 0
    · subst hp
      have : free fuel 0 s = .ok s := by unfold free; rw [if_pos rfl]
      rw [this] at hf
      simp only [Except.ok.injEq] at hf
      subst hf
      exact ih
    · obtain ⟨-, h1, h2, -⟩ := free_fields fuel p s s' hf hp
      exact ⟨h1.trans ih.1, h2.trans ih.2⟩

/-- In a tiled chain each link is the address right behind the block, the tail
ends at the end of the region and the head is its start. -/
theorem chain_links (m : Mem) : ∀ (l : List Nat) (p a e : Nat), IsChain m p l → Tiled m a e l →
    (∀ x ∈ l, ((m x).next ≠ 0 → (m x).next = x + sizeofBlock + (m x).size) ∧
      ((m x).next = 0 → x + sizeofBlock + (m x).size = e)) ∧
    (p ≠ 0 → p = a) ∧ (p = 0 → a = e) := by
  intro l
  induction l with
  | nil =>
    intro p a e hc ht
    obtain rfl : p = 0 := hc
    exact ⟨fun x hx => by simp at hx, fun h => absurd rfl h, fun _ => ht⟩
  | cons x l ih =>
    intro p a e hc ht
    obtain ⟨rfl, hx, hcl⟩ := hc
    obtain ⟨hxa, htl⟩ := ht
    obtain ⟨h1, h2, h3⟩ := ih _ _ _ hcl htl
    refine ⟨?_, fun _ => hxa, fun h => absurd h hx⟩
    intro y hy
    rcases List.mem_cons.mp hy with rfl | hy'
    · exact ⟨fun hn => h2 hn, fun hn => h3 hn⟩
    · exact h1 y hy'

theorem Tiled.ordered (m : Mem) : ∀ (l : List Nat) (a e : Nat), Tiled m a e l →
    l.Pairwise (fun x y => x + sizeofBlock + (m x).size ≤ y) := by
  intro l
  induction l with
  | nil => intro a e _; exact List.Pairwise.nil
  | cons x l ih =>
    intro a e ht
    obtain ⟨-, htl⟩ := ht
    refine List.Pairwise.cons ?_ (ih _ _ htl)
    intro y hy
    exact ((Tiled.bounds m l _ e htl).2 y hy).1

theorem Tiled.bytes (m : Mem) : ∀ (l : List Nat) (a e : Nat), Tiled m a e l →
    a + chainBytes m l = e := by
  intro l
  induction l with
  | nil => intro a e ht; exact ht
  | cons x l ih =>
    intro a e ht
    obtain ⟨rfl, htl⟩ := ht
    have := ih _ _ htl
    unfold chainBytes at this ⊢
    simp only [List.map_cons, List.sum_cons]
    omega

/-- C11 (amended). Under first-fit, best-fit or worst-fit, in a process whose
break starts above 0 and stays below `2^64 - 1`, in every state reached from
the empty heap by `malloc` calls with requests of at most `2^63 - 28` bytes
and `free` calls on live addresses, the chain tiles the region between the
initial break and the current break in address order: the head (when there is
one) is the initial break, the successor of every block is the address
`block + sizeof(struct _block) + size`, the block without successor ends at
the current break, and so no two blocks overlap and there is no gap. -/
theorem chain_tiles_region (fit : Fit) (hfit : fit ≠ .next) (base lim : Nat) (hb : 0 < base)
    (hbl : base ≤ lim) (hl : lim + 1 < 2 ^ 64) (s : State) (L : List Nat)
    (hr : Reach fit maxRequest base lim s L) :
    ∃ l, IsChain s.mem s.heapList l ∧ Tiled s.mem base s.brk l ∧
      (s.heapList ≠ 0 → s.heapList = base) ∧ (s.heapList = 0 → s.brk = base) ∧
      (∀ x ∈ l, (s.mem x).next ≠ 0 → (s.mem x).next = x + sizeofBlock + (s.mem x).size) ∧
      (∀ x ∈ l, (s.mem x).next = 0 → x + sizeofBlock + (s.mem x).size = s.brk) ∧
      l.Pairwise (fun x y => x + sizeofBlock + (s.mem x).size ≤ y) := by
  obtain ⟨l, hinv, -⟩ := reach_inv fit hfit base lim hb hbl hl s L hr
  obtain ⟨hmin, -⟩ := reach_bounds fit maxRequest base lim s L hr
  have ht := hinv.tiled
  rw [hmin] at ht
  obtain ⟨h1, h2, h3⟩ := chain_links s.mem l _ _ _ hinv.chain ht
  exact ⟨l, hinv.chain, ht, h2, fun h => (h3 h).symm, fun x hx => (h1 x hx).1,
    fun x hx => (h1 x hx).2, Tiled.ordered _ _ _ _ ht⟩

/-- C11 on the state after `malloc(40)`, `malloc(4)`, `free(1024)`. -/
theorem chain_tiles_region_witness :
    ∃ l, IsChain twoBlocks.mem twoBlocks.heapList l ∧ Tiled twoBlocks.mem 1000 twoBlocks.brk l ∧
      (twoBlocks.heapList ≠ 0 → twoBlocks.heapList = 1000) ∧
      (twoBlocks.heapList = 0 → twoBlocks.brk = 1000) ∧
      (∀ x ∈ l, (twoBlocks.mem x).next ≠ 0 →
        (twoBlocks.mem x).next = x + sizeofBlock + (twoBlocks.mem x).size) ∧
      (∀ x ∈ l, (twoBlocks.mem x).next = 0 →
        x + sizeofBlock + (twoBlocks.mem x).size = twoBlocks.brk) ∧
      l.Pairwise (fun x y => x + sizeofBlock + (twoBlocks.mem x).size ≤ y) :=
  chain_tiles_region .first (by decide) 1000 (2 ^ 40) (by decide) (by decide) (by decide)
    twoBlocks [1088]
    (reach_of_run .first maxRequest 1000 (2 ^ 40) 3 [.malloc 40, .malloc 4, .free 1024] fresh
      [] [1024, 1088] _ [1088] Reach.init (run_eq fresh _ _ (by decide)) (by decide))

/-- C11 as stated fails.  The calls `malloc(4)`, `malloc(2^64 - 24)` are a run
from the empty heap.  In the second call the argument of `sbrk` wraps to 0:
the break stays at 1028 and the new header is stored there.  In the state
reached the chain is 1000, 1028; the tail 1028 has size `2^64 - 24` and no
successor, it starts at the end of the region instead of ending there, and
its payload lies past the end of the region. -/
theorem chain_tiles_region_counterexample :
    Reach .first (2 ^ 64 - 4) 1000 (2 ^ 40) pastBreak [1052, 1024] ∧
    IsChain pastBreak.mem pastBreak.heapList [1000, 1028] ∧
    (pastBreak.mem 1028).next = 0 ∧ pastBreak.brk = 1028 ∧
    1028 + sizeofBlock + (pastBreak.mem 1028).size ≠ pastBreak.brk ∧
    pastBreak.brk < 1028 + sizeofBlock ∧
    ¬ Tiled pastBreak.mem 1000 pastBreak.brk [1000, 1028] :=
  ⟨reach_of_run .first (2 ^ 64 - 4) 1000 (2 ^ 40) 2 [.malloc 4, .malloc (2 ^ 64 - 24)] fresh []
      [1024, 1052] pastBreak [1052, 1024] Reach.init (run_eq fresh _ _ (by decide))
      (by decide),
    by decide, by decide, by decide, by decide, by decide,
    fun h => (by decide : 1028 + sizeofBlock + (pastBreak.mem 1028).size ≠ pastBreak.brk)
      h.2.2⟩

/-! ## The bytes of the chain and the block counter -/

theorem toInt32_of_lt (k : Nat) (h : k < 2 ^ 31) : toInt32 k = (k : Int) := by
  unfold toInt32
  norm_num at *
  omega

/-- A `malloc` call whose search found a block leaves the break alone. -/
theorem malloc_reuse_brk (fit : Fit) (fuel n q b last : Nat) (s s' st : State)
    (h : malloc fit fuel n s = .ok (q, s'))
    (hfind : findFreeBlock fit fuel (enter n s).heapList (ALIGN4 n) (enter n s)
      = .ok (b, last, st)) (hb : b ≠ 0) : s'.brk = s.brk := by
  obtain ⟨-, -, -, -, -, -, -, -, -, -, hE11, -, -⟩ := enter_fields n s
  by_cases hA : ALIGN4 n = 0
  · unfold malloc at h
    simp only [hA, if_true, Except.ok.injEq, Prod.mk.injEq] at h
    obtain ⟨-, rfl⟩ := h
    exact hE11
  · have hm := malloc_of_find fit fuel n s st b last hA hfind
    have hob : obtainBlock b last (ALIGN4 n) st = .ok (b, reuseBlock b (ALIGN4 n) st) := by
      unfold obtainBlock; rw [if_pos hb]
    rw [hob, h] at hm
    simp only [Except.ok.injEq] at hm
    have hs' : s' = (handOut b (reuseBlock b (ALIGN4 n) st)).2 := congrArg Prod.snd hm
    have hst := findFreeBlock_state fit fuel _ _ _ _ _ _ hfind
    obtain ⟨-, k2, -, -⟩ := handOut_fields b (reuseBlock b (ALIGN4 n) st)
    obtain ⟨-, g2, -, -⟩ := reuseBlock_fields b (ALIGN4 n) st
    rw [hs']
    exact k2.trans (g2.trans ((congrArg State.brk hst).trans hE11))

/-- C12 (amended). Under first-fit, best-fit or worst-fit, in a process whose
break starts above 0 and stays below `2^64 - 1`, in every state reached from
the empty heap by `malloc` calls with requests of at most `2^63 - 28` bytes
and `free` calls on live addresses, the sum over the chain of
`size + sizeof(struct _block)` is the number of bytes obtained from the
operating system (the distance from the initial break to the break);
`max_heap` is the `int` truncation of that number, hence equal to it while
it is below `2^31`; a `free` of a live address and a `malloc` whose search
found a block (split or not) leave the sum unchanged. -/
theorem chain_bytes_total (fit : Fit) (hfit : fit ≠ .next) (base lim : Nat) (hb : 0 < base)
    (hbl : base ≤ lim) (hl : lim + 1 < 2 ^ 64) (s : State) (L : List Nat)
    (hr : Reach fit maxRequest base lim s L) :
    ∃ l, IsChain s.mem s.heapList l ∧ base + chainBytes s.mem l = s.brk ∧
      s.max_heap = toInt32 (chainBytes s.mem l) ∧
      (chainBytes s.mem l < 2 ^ 31 → s.max_heap = (chainBytes s.mem l : Int)) ∧
      (∀ fuel p s', p ∈ L → free fuel p s = .ok s' →
        ∃ l', IsChain s'.mem s'.heapList l' ∧ chainBytes s'.mem l' = chainBytes s.mem l) ∧
      (∀ fuel n q s' b last st, n ≤ maxRequest → malloc fit fuel n s = .ok (q, s') →
        findFreeBlock fit fuel (enter n s).heapList (ALIGN4 n) (enter n s)
          = .ok (b, last, st) → b ≠ 0 →
        ∃ l', IsChain s'.mem s'.heapList l' ∧ chainBytes s'.mem l' = chainBytes s.mem l) := by
  have key : ∀ (t : State) (M : List Nat), Reach fit maxRequest base lim t M →
      ∃ l, IsChain t.mem t.heapList l ∧ base + chainBytes t.mem l = t.brk ∧
        t.max_heap = toInt32 (chainBytes t.mem l) := by
    intro t M ht
    obtain ⟨l, hinv, -⟩ := reach_inv fit hfit base lim hb hbl hl t M ht
    obtain ⟨hmin, -⟩ := reach_bounds fit maxRequest base lim t M ht
    have hbytes := Tiled.bytes _ _ _ _ hinv.tiled
    rw [hmin] at hbytes
    refine ⟨l, hinv.chain, hbytes, ?_⟩
    have hh := hinv.heap
    rw [hmin] at hh
    have he : t.brk - base = chainBytes t.mem l := by omega
    rw [he] at hh
    exact hh
  obtain ⟨l, h1, h2, h3⟩ := key s L hr
  refine ⟨l, h1, h2, h3, fun hlt => by rw [h3]; exact toInt32_of_lt _ hlt, ?_, ?_⟩
  · intro fuel p s' hp hf
    obtain ⟨l', g1, g2, -⟩ := key s' (L.erase p) (Reach.byFree s s' L fuel p hr hp hf)
    have hbrk : s'.brk = s.brk := by
      by_cases hp0 : p = 0
      · subst hp0
        have : free fuel 0 s = .ok s := by unfold free; rw [if_pos rfl]
        rw [this] at hf
        simp only [Except.ok.injEq] at hf
        rw [hf]
      · exact (free_fields fuel p s s' hf hp0).1
    exact ⟨l', g1, by omega⟩
  · intro fuel n q s' b last st hn hm hfind hb0
    have hbrk := malloc_reuse_brk fit fuel n q b last s s' st hm hfind hb0
    by_cases hq : q = 0
    · subst hq
      obtain ⟨l', g1, g2, -⟩ := key s' L (Reach.byMallocNull s s' L fuel n hr hn hm)
      exact ⟨l', g1, by omega⟩
    · obtain ⟨l', g1, g2, -⟩ := key s' (q :: L) (Reach.byMalloc s s' L fuel n q hr hn hm hq)
      exact ⟨l', g1, by omega⟩

/-- C12 on the state after `malloc(40)`, `malloc(4)`, `free(1024)`. -/
theorem chain_bytes_total_witness :
    ∃ l, IsChain twoBlocks.mem twoBlocks.heapList l ∧
      1000 + chainBytes twoBlocks.mem l = twoBlocks.brk ∧
      twoBlocks.max_heap = toInt32 (chainBytes twoBlocks.mem l) :=
  let ⟨l, h1, h2, h3, _⟩ :=
    chain_bytes_total .first (by decide) 1000 (2 ^ 40) (by decide) (by decide) (by decide)
      twoBlocks [1088]
      (reach_of_run .first maxRequest 1000 (2 ^ 40) 3 [.malloc 40, .malloc 4, .free 1024] fresh
        [] [1024, 1088] _ [1088] Reach.init (run_eq fresh _ _ (by decide)) (by decide))
  ⟨l, h1, h2, h3⟩

/-- C12 as stated fails in two ways.  (a) The call `malloc(2^31)` reaches a state
whose chain is the block 1000 alone, taking `2147483672` bytes, while
`max_heap`, an `int`, is `-2147483624`.  (b) The calls `malloc(4)`,
`malloc(2^64 - 24)` reach a state whose chain is 1000, 1028, taking
`2^64 + 28` bytes, while 28 bytes were obtained (the break went from 1000 to
1028) and `max_heap` is 28. -/
theorem chain_bytes_total_counterexample :
    (Reach .first maxRequest 1000 (2 ^ 40) bigOnce [1024] ∧
      IsChain bigOnce.mem bigOnce.heapList [1000] ∧
      chainBytes bigOnce.mem [1000] = 2147483672 ∧ bigOnce.brk = 1000 + 2147483672 ∧
      bigOnce.max_heap = -2147483624) ∧
    (Reach .first (2 ^ 64 - 4) 1000 (2 ^ 40) pastBreak [1052, 1024] ∧
      IsChain pastBreak.mem pastBreak.heapList [1000, 1028] ∧
      chainBytes pastBreak.mem [1000, 1028] = 2 ^ 64 + 28 ∧ pastBreak.brk = 1000 + 28 ∧
      pastBreak.max_heap = 28) :=
  ⟨⟨reach_of_run .first maxRequest 1000 (2 ^ 40) 1 [.malloc (2 ^ 31)] fresh []
      [1024] bigOnce [1024] Reach.init (run_eq fresh _ _ (by decide)) (by decide),
    by decide, by decide, by decide, by decide⟩,
   ⟨reach_of_run .first (2 ^ 64 - 4) 1000 (2 ^ 40) 2 [.malloc 4, .malloc (2 ^ 64 - 24)] fresh
      [] [1024, 1052] pastBreak [1052, 1024] Reach.init (run_eq fresh _ _ (by decide))
      (by decide),
    by decide, by decide, by decide, by decide⟩⟩

/-- C20 (amended). Under first-fit, best-fit or worst-fit, in a process whose
break starts above 0 and stays below `2^64 - 1`, in every state reached from
the empty heap by `malloc` calls with requests of at most `2^63 - 28` bytes
and `free` calls on live addresses, `num_blocks` is the number of blocks
linked in the chain. -/
theorem num_blocks_counts_chain (fit : Fit) (hfit : fit ≠ .next) (base lim : Nat)
    (hb : 0 < base) (hbl : base ≤ lim) (hl : lim + 1 < 2 ^ 64) (s : State) (L : List Nat)
    (hr : Reach fit maxRequest base lim s L) :
    ∃ l, IsChain s.mem s.heapList l ∧ s.num_blocks = (l.length : Int) := by
  obtain ⟨l, hinv, -⟩ := reach_inv fit hfit base lim hb hbl hl s L hr
  exact ⟨l, hinv.chain, hinv.blocks⟩

/-- C20 on the state after `malloc(40)`, `malloc(4)`, `free(1024)`. -/
theorem num_blocks_counts_chain_witness :
    ∃ l, IsChain twoBlocks.mem twoBlocks.heapList l ∧ twoBlocks.num_blocks = (l.length : Int) :=
  num_blocks_counts_chain .first (by decide) 1000 (2 ^ 40) (by decide) (by decide) (by decide)
    twoBlocks [1088]
    (reach_of_run .first maxRequest 1000 (2 ^ 40) 3 [.malloc 40, .malloc 4, .free 1024] fresh
      [] [1024, 1088] _ [1088] Reach.init (run_eq fresh _ _ (by decide)) (by decide))

/-- C20 as stated fails.  The calls `malloc(4)`, `malloc(2^64 - 24)`,
`malloc(4)` are a run from the empty heap.  The second call leaves the break
at 1028, where it stores its header; the third call grows the heap at 1028
again, on top of that block, and counts one more block: the chain is 1000,
1028 while `num_blocks` is 3. -/
theorem num_blocks_counts_chain_counterexample :
    Reach .first (2 ^ 64 - 4) 1000 (2 ^ 40) pastBreakTwice [1052, 1052, 1024] ∧
    IsChain pastBreakTwice.mem pastBreakTwice.heapList [1000, 1028] ∧
    pastBreakTwice.num_blocks = 3 :=
  ⟨reach_of_run .first (2 ^ 64 - 4) 1000 (2 ^ 40) 3
      [.malloc 4, .malloc (2 ^ 64 - 24), .malloc 4] fresh []
      [1024, 1052, 1052] pastBreakTwice [1052, 1052, 1024] Reach.init
      (run_eq fresh _ _ (by decide)) (by decide),
    by decide, by decide⟩

/-! ## The split of a found block -/

/-- The test `remainder >= sizeof(struct _block) + 4` of `malloc`, for a
leftover below `2^32`. -/
theorem split_guard (d : Nat) (h : d < 2 ^ 32) :
    add64 sizeofBlock 4 ≤ ofInt (toInt32 d) ↔ sizeofBlock + 4 ≤ d := by
  unfold add64 sizeofBlock ofInt toInt32
  norm_num at *
  split <;> omega

/-- A `malloc` call that returned an address took the path after the test
`size == 0`. -/
theorem malloc_ne_zero (fit : Fit) (fuel n q : Nat) (s s' : State)
    (h : malloc fit fuel n s = .ok (q, s')) (hq : q ≠ 0) : ALIGN4 n ≠ 0 := by
  intro hA
  unfold malloc at h
  simp only [hA, if_true, Except.ok.injEq, Prod.mk.injEq] at h
  exact hq h.1.symm

/-- The result of a `malloc` call whose search found the block `b`. -/
theorem malloc_reuse (fit : Fit) (fuel n q b last : Nat) (s s' st : State)
    (hA : ALIGN4 n ≠ 0) (h : malloc fit fuel n s = .ok (q, s'))
    (hfind : findFreeBlock fit fuel (enter n s).heapList (ALIGN4 n) (enter n s)
      = .ok (b, last, st)) (hb : b ≠ 0) :
    q = b + sizeofBlock ∧ s' = (handOut b (reuseBlock b (ALIGN4 n) st)).2 ∧ st.mem = s.mem ∧
      st.num_blocks = s.num_blocks ∧ st.num_splits = s.num_splits := by
  have hm := malloc_of_find fit fuel n s st b last hA hfind
  have hob : obtainBlock b last (ALIGN4 n) st = .ok (b, reuseBlock b (ALIGN4 n) st) := by
    unfold obtainBlock; rw [if_pos hb]
  rw [hob, h] at hm
  simp only [Except.ok.injEq] at hm
  have hq : q = (handOut b (reuseBlock b (ALIGN4 n) st)).1 := congrArg Prod.fst hm
  have hs' : s' = (handOut b (reuseBlock b (ALIGN4 n) st)).2 := congrArg Prod.snd hm
  have hst := findFreeBlock_state fit fuel _ _ _ _ _ _ hfind
  obtain ⟨-, -, -, -, -, -, hE7, -, hE9, -⟩ := enter_fields n s
  refine ⟨?_, hs', ?_, ?_, ?_⟩
  · rw [hq]; unfold handOut; rw [if_neg hb]
  · exact (congrArg State.mem hst).trans (enter_mem n s)
  · exact (congrArg State.num_blocks hst).trans hE9
  · exact (congrArg State.num_splits hst).trans hE7

/-- C13 (amended). For every allocation that returns an address and is
satisfied from a block `b` of size `f` found by the search, with `r` the
request rounded up to a multiple of 4, `r <= f` and a leftover `f - r` below
`2^32`: the address returned is the payload of `b`, the block is marked not
free, and its size field after the call is `r` when the leftover is at least
one header plus 4 bytes (the block is split) and `f` otherwise (the block is
handed out whole). -/
theorem reused_block_size (fit : Fit) (fuel n q b last : Nat) (s s' st : State)
    (hm : malloc fit fuel n s = .ok (q, s')) (hq : q ≠ 0)
    (hfind : findFreeBlock fit fuel (enter n s).heapList (ALIGN4 n) (enter n s)
      = .ok (b, last, st)) (hb : b ≠ 0)
    (hr : ALIGN4 n ≤ (s.mem b).size) (hf : (s.mem b).size < 2 ^ 64)
    (hd : (s.mem b).size - ALIGN4 n < 2 ^ 32) :
    q = b + sizeofBlock ∧ (s'.mem b).free = false ∧
      (s'.mem b).size =
        if sizeofBlock + 4 ≤ (s.mem b).size - ALIGN4 n then ALIGN4 n else (s.mem b).size := by
  have hA := malloc_ne_zero fit fuel n q s s' hm hq
  obtain ⟨h1, h2, h3, -, -⟩ := malloc_reuse fit fuel n q b last s s' st hA hm hfind hb
  refine ⟨h1, ?_⟩
  have hsub : sub64 (st.mem b).size (ALIGN4 n) = (s.mem b).size - ALIGN4 n := by
    rw [h3]; exact sub64_of_le _ _ hr hf
  by_cases hs : sizeofBlock + 4 ≤ (s.mem b).size - ALIGN4 n
  · have hg : add64 sizeofBlock 4 ≤ ofInt (toInt32 (sub64 (st.mem b).size (ALIGN4 n))) := by
      rw [hsub]; exact (split_guard _ hd).2 hs
    have e := reuse_split_mem b (ALIGN4 n) st hb hg b
    rw [if_pos rfl] at e
    rw [h2, e, if_pos hs]
    exact ⟨rfl, rfl⟩
  · have hg : ¬ add64 sizeofBlock 4 ≤ ofInt (toInt32 (sub64 (st.mem b).size (ALIGN4 n))) := by
      rw [hsub]; exact fun h => hs ((split_guard _ hd).1 h)
    have e := reuse_whole_mem b (ALIGN4 n) st hb hg b
    rw [if_pos rfl] at e
    rw [h2, e, if_neg hs, h3]
    exact ⟨rfl, rfl⟩

/-- C13 on one call: after `malloc(40)` and `free`, `malloc(20)` finds the free
block 1000 of size 40; the leftover 20 is below 28, the block is handed out
whole and its size field stays 40. -/
theorem reused_block_size_witness :
    1024 = 1000 + sizeofBlock ∧
    ((stateOf freedOnce (malloc .first 2 20 freedOnce)).mem 1000).free = false ∧
    ((stateOf freedOnce (malloc .first 2 20 freedOnce)).mem 1000).size =
      if sizeofBlock + 4 ≤ (freedOnce.mem 1000).size - ALIGN4 20 then ALIGN4 20
      else (freedOnce.mem 1000).size :=
  reused_block_size .first 2 20 1024 1000 1000 freedOnce
    (stateOf freedOnce (malloc .first 2 20 freedOnce)) (enter 20 freedOnce)
    rfl (by decide) rfl (by decide) (by decide) (by decide) (by decide)

/-- C13 as stated fails.  After `malloc(40)` and `free`, the chain is the free
block 1000 of size 40; `malloc(20)` finds it (rounded request 20), returns its
payload 1024, and the size field after the call is 40, not `min(20, 40)`. -/
theorem reused_block_size_counterexample :
    freedOnce.mem 1000 = ⟨40, 0, true⟩ ∧ ALIGN4 20 = 20 ∧
    foundOf (findFreeBlock .first 2 (enter 20 freedOnce).heapList (ALIGN4 20)
      (enter 20 freedOnce)) = some 1000 ∧
    valueOf (malloc .first 2 20 freedOnce) = some 1024 ∧
    (stateOf freedOnce (malloc .first 2 20 freedOnce)).mem 1000 = ⟨40, 0, false⟩ ∧
    ((stateOf freedOnce (malloc .first 2 20 freedOnce)).mem 1000).size ≠ min 20 40 := by
  decide

/-- C16. The split is skipped although the leftover is at least one header
plus 4 bytes.  After `malloc(4294967304)` and `free` the chain is the free
block 1000 of size `2^32 + 8`; `malloc(4)` finds it, the leftover is
`2^32 + 4`, yet `int remainder` holds 4: the block is handed out whole with
its size and link unchanged, and the split and block counters do not move. -/
theorem split_skipped_large_leftover :
    Reach .first maxRequest 1000 (2 ^ 40) hugeFreed [] ∧
    IsChain hugeFreed.mem hugeFreed.heapList [1000] ∧
    hugeFreed.mem 1000 = ⟨4294967304, 0, true⟩ ∧ ALIGN4 4 = 4 ∧
    foundOf (findFreeBlock .first 2 (enter 4 hugeFreed).heapList (ALIGN4 4)
      (enter 4 hugeFreed)) = some 1000 ∧
    sizeofBlock + 4 ≤ (hugeFreed.mem 1000).size - ALIGN4 4 ∧
    toInt32 (sub64 (hugeFreed.mem 1000).size (ALIGN4 4)) = 4 ∧
    valueOf (malloc .first 2 4 hugeFreed) = some 1024 ∧
    (stateOf hugeFreed (malloc .first 2 4 hugeFreed)).mem 1000 = ⟨4294967304, 0, false⟩ ∧
    (stateOf hugeFreed (malloc .first 2 4 hugeFreed)).num_splits = hugeFreed.num_splits ∧
    (stateOf hugeFreed (malloc .first 2 4 hugeFreed)).num_blocks = hugeFreed.num_blocks :=
  ⟨reach_of_run .first maxRequest 1000 (2 ^ 40) 2 [.malloc 4294967304, .free 1024] fresh []
      [1024] hugeFreed [] Reach.init (run_eq fresh _ _ (by decide)) (by decide),
    by decide, by decide, by decide, by decide, by decide, by decide, by decide, by decide,
    by decide, by decide⟩

/-! ## The pass of `free` over three free blocks -/

/-- C17. The pass leaves two adjacent free blocks and miscounts.  The chain
of `threeFree` is 1000, 1044, 1118, back to back, all three free.  The pass
merges 1044 into 1000, moves on to the header 1044 it has just spliced out,
merges 1118 into that header, and ends: the chain is then 1000 (size 94) and
1118, adjacent and both free; one block left the chain, while
`num_coalesces` went up by 2 and `num_blocks` down by 2. -/
theorem coalesce_pass_leaves_free_pair :
    IsChain threeFree.mem threeFree.heapList [1000, 1044, 1118] ∧
    (1000 + sizeofBlock + (threeFree.mem 1000).size = 1044 ∧
      1044 + sizeofBlock + (threeFree.mem 1044).size = 1118 ∧
      1118 + sizeofBlock + (threeFree.mem 1118).size = threeFree.brk) ∧
    (∀ a ∈ [1000, 1044, 1118], (threeFree.mem a).free = true) ∧
    coalesceLoop 4 threeFree.heapList threeFree = .ok threeSwept ∧
    IsChain threeSwept.mem threeSwept.heapList [1000, 1118] ∧
    threeSwept.mem 1000 = ⟨94, 1118, true⟩ ∧ threeSwept.mem 1118 = ⟨30, 0, true⟩ ∧
    1000 + sizeofBlock + (threeSwept.mem 1000).size = 1118 ∧
    ¬ NoAdjacentFree threeSwept.mem [1000, 1118] ∧
    [1000, 1044, 1118].length - [1000, 1118].length = 1 ∧
    threeSwept.num_coalesces = threeFree.num_coalesces + 2 ∧
    threeSwept.num_blocks = threeFree.num_blocks - 2 :=
  ⟨by decide, by decide, by decide, freed_eq threeFree _ (by decide), by decide, by decide,
    by decide, by decide, fun h => h.1 ⟨by decide, by decide⟩, by decide, by decide, by decide⟩

/-! ## The rounding step -/

/-- C18. For a `size_t` value `s`: when `1 <= s <= 2^64 - 4`, `ALIGN4(s)` is
the least multiple of 4 that is at least `s` (a multiple of 4, at least `s`,
less than `s + 4`, below every other such multiple, and `s` itself when `s`
is a multiple of 4); when `s = 0` or `s > 2^64 - 4`, `ALIGN4(s)` is 0 and
`malloc(s)` returns `NULL` under every strategy and in every state, right
after the first statements of the function. -/
theorem ALIGN4_rounds (s : Nat) (hs : s < 2 ^ 64) :
    (1 ≤ s → s ≤ 2 ^ 64 - 4 →
      4 ∣ ALIGN4 s ∧ s ≤ ALIGN4 s ∧ ALIGN4 s < s + 4 ∧
      (∀ k, 4 ∣ k → s ≤ k → ALIGN4 s ≤ k) ∧ (4 ∣ s → ALIGN4 s = s)) ∧
    (s = 0 ∨ 2 ^ 64 - 4 < s →
      ALIGN4 s = 0 ∧ ∀ fit fuel st, malloc fit fuel s st = .ok (0, enter s st)) := by
  constructor
  · intro h1 h2
    have hA := ALIGN4_eq s h1 h2
    refine ⟨?_, ?_, ?_, ?_, ?_⟩
    · rw [hA]; omega
    · omega
    · omega
    · intro k hk hsk; omega
    · intro h4; omega
  · intro h
    have hA : ALIGN4 s = 0 := by
      unfold ALIGN4 add64 sub64
      simp only [Nat.shiftRight_eq_div_pow, Nat.shiftLeft_eq]
      norm_num at *
      omega
    refine ⟨hA, ?_⟩
    intro fit fuel st
    unfold malloc
    simp only [hA, if_true]

/-- C18 on the sizes 10 and 12, which both round to 12, and on the sizes 0
and `2^64 - 1`, which round to 0 and make `malloc` return `NULL`. -/
theorem ALIGN4_rounds_witness :
    (ALIGN4 10 = 12 ∧ ALIGN4 12 = 12) ∧
    (4 ∣ ALIGN4 10 ∧ 10 ≤ ALIGN4 10 ∧ ALIGN4 10 < 10 + 4 ∧
      (∀ k, 4 ∣ k → 10 ≤ k → ALIGN4 10 ≤ k) ∧ (4 ∣ 10 → ALIGN4 10 = 10)) ∧
    (4 ∣ 12 → ALIGN4 12 = 12) ∧
    (ALIGN4 0 = 0 ∧ ∀ fit fuel st, malloc fit fuel 0 st = .ok (0, enter 0 st)) ∧
    (ALIGN4 (2 ^ 64 - 1) = 0 ∧
      ∀ fit fuel st, malloc fit fuel (2 ^ 64 - 1) st = .ok (0, enter (2 ^ 64 - 1) st)) :=
  ⟨⟨by decide, by decide⟩,
    (ALIGN4_rounds 10 (by decide)).1 (by decide) (by decide),
    ((ALIGN4_rounds 12 (by decide)).1 (by decide) (by decide)).2.2.2.2,
    (ALIGN4_rounds 0 (by decide)).2 (Or.inl rfl),
    (ALIGN4_rounds (2 ^ 64 - 1) (by decide)).2 (Or.inr (by decide))⟩

/-! ## The next-fit cursor after a merge -/

/-- C19. Under next-fit the cursor is left on a header that `free` spliced out
of the chain.  The six calls of `staleCalls` (requests of 4 bytes, frees on
live addresses) reach the state `stale`: the chain is the free block 1000 of
size 32 alone, and the cursor is 1028, the header merged into block 1000.
The next `malloc(4)` does not grow the heap and returns 1052, the payload of
header 1028, inside the payload of the free block 1000, which stays free in
the chain. -/
theorem next_fit_stale_cursor :
    Reach .next maxRequest 1000 (2 ^ 40) stale [] ∧
    IsChain stale.mem stale.heapList [1000] ∧ stale.mem 1000 = ⟨32, 0, true⟩ ∧
    stale.nextFitPT = 1028 ∧ stale.nextFitPT ∉ [1000] ∧
    valueOf (malloc .next 3 4 stale) = some 1052 ∧ 1052 - sizeofBlock = 1028 ∧
    (1000 + sizeofBlock ≤ 1052 ∧ 1052 + 4 ≤ 1000 + sizeofBlock + (stale.mem 1000).size) ∧
    (stateOf stale (malloc .next 3 4 stale)).num_grows = stale.num_grows ∧
    IsChain (stateOf stale (malloc .next 3 4 stale)).mem
      (stateOf stale (malloc .next 3 4 stale)).heapList [1000] ∧
    (stateOf stale (malloc .next 3 4 stale)).mem 1000 = ⟨32, 0, true⟩ :=
  ⟨reach_of_run .next maxRequest 1000 (2 ^ 40) 3 staleCalls fresh []
      [1024, 1052, 1052] stale [] Reach.init (run_eq fresh _ _ (by decide)) (by decide),
    by decide, by decide, by decide, by decide, by decide, by decide, by decide, by decide,
    by decide, by decide⟩


/-! ## More fuel gives the same result -/

theorem firstFitLoop_mono (m : Mem) (size : Nat) : ∀ (fuel curr last : Nat) (r : Nat × Nat),
    firstFitLoop m size fuel curr last = .ok r → ∀ fuel', fuel ≤ fuel' →
      firstFitLoop m size fuel' curr last = .ok r := by
  intro fuel
  induction fuel with
  | zero => intro curr last r h; simp [firstFitLoop] at h
  | succ k ih =>
    intro curr last r h fuel' hle
    obtain ⟨k', rfl⟩ : ∃ k', fuel' = k' + 1 := ⟨fuel' - 1, by omega⟩
    unfold firstFitLoop at h ⊢
    by_cases hc : curr ≠ 0 ∧ ¬ fits m size curr
    · rw [if_pos hc] at h ⊢
      exact ih _ _ _ h k' (by omega)
    · rw [if_neg hc] at h ⊢
      exact h

theorem bestFitLoop_mono (m : Mem) (size : Nat) :
    ∀ (fuel curr last w : Nat) (wr : Int) (r : Nat × Nat),
      bestFitLoop m size fuel curr last w wr = .ok r → ∀ fuel', fuel ≤ fuel' →
        bestFitLoop m size fuel' curr last w wr = .ok r := by
  intro fuel
  induction fuel with
  | zero => intro curr last w wr r h; simp [bestFitLoop] at h
  | succ k ih =>
    intro curr last w wr r h fuel' hle
    obtain ⟨k', rfl⟩ : ∃ k', fuel' = k' + 1 := ⟨fuel' - 1, by omega⟩
    unfold bestFitLoop at h ⊢
    by_cases hc : curr ≠ 0
    · rw [if_pos hc] at h ⊢
      by_cases hf : fits m size curr ∧ sub64 (m curr).size size < ofInt wr
      · rw [if_pos hf] at h ⊢
        exact ih _ _ _ _ _ h k' (by omega)
      · rw [if_neg hf] at h ⊢
        exact ih _ _ _ _ _ h k' (by omega)
    · rw [if_neg hc] at h ⊢
      exact h

theorem worstFitLoop_mono (m : Mem) (size : Nat) :
    ∀ (fuel curr last w : Nat) (wr : Int) (r : Nat × Nat),
      worstFitLoop m size fuel curr last w wr = .ok r → ∀ fuel', fuel ≤ fuel' →
        worstFitLoop m size fuel' curr last w wr = .ok r := by
  intro fuel
  induction fuel with
  | zero => intro curr last w wr r h; simp [worstFitLoop] at h
  | succ k ih =>
    intro curr last w wr r h fuel' hle
    obtain ⟨k', rfl⟩ : ∃ k', fuel' = k' + 1 := ⟨fuel' - 1, by omega⟩
    unfold worstFitLoop at h ⊢
    by_cases hc : curr ≠ 0
    · rw [if_pos hc] at h ⊢
      by_cases hf : fits m size curr ∧ ofInt wr < sub64 (m curr).size size
      · rw [if_pos hf] at h ⊢
        exact ih _ _ _ _ _ h k' (by omega)
      · rw [if_neg hf] at h ⊢
        exact ih _ _ _ _ _ h k' (by omega)
    · rw [if_neg hc] at h ⊢
      exact h

theorem wrapLoop_mono (m : Mem) (size benchmark : Nat) :
    ∀ (fuel curr last : Nat) (r : Nat × Nat),
      wrapLoop m size benchmark fuel curr last = .ok r → ∀ fuel', fuel ≤ fuel' →
        wrapLoop m size benchmark fuel' curr last = .ok r := by
  intro fuel
  induction fuel with
  | zero => intro curr last r h; simp [wrapLoop] at h
  | succ k ih =>
    intro curr last r h fuel' hle
    obtain ⟨k', rfl⟩ : ∃ k', fuel' = k' + 1 := ⟨fuel' - 1, by omega⟩
    unfold wrapLoop at h ⊢
    by_cases hc : curr ≠ benchmark
    · rw [if_pos hc] at h ⊢
      by_cases h0 : curr = 0
      · rw [if_pos h0] at h ⊢
        exact h
      · rw [if_neg h0] at h ⊢
        by_cases hf : ¬ fits m size curr
        · rw [if_pos hf] at h ⊢
          exact ih _ _ _ h k' (by omega)
        · rw [if_neg hf] at h ⊢
          exact h
    · rw [if_neg hc] at h ⊢
      exact h

/-- A value bound from a computation that returned. -/
theorem bind_ok {α β : Type} (x : Except Fault α) (f : α → Except Fault β) (r : β)
    (h : (x >>= f) = .ok r) : ∃ a, x = .ok a ∧ f a = .ok r := by
  cases x with
  | error e => simp [bind, Except.bind] at h
  | ok a => exact ⟨a, rfl, h⟩

theorem findFreeBlock_mono (fit : Fit) (fuel last size : Nat) (s : State)
    (r : Nat × Nat × State) (h : findFreeBlock fit fuel last size s = .ok r) (fuel' : Nat)
    (hle : fuel ≤ fuel') : findFreeBlock fit fuel' last size s = .ok r := by
  cases fit with
  | first =>
    unfold findFreeBlock at h ⊢
    obtain ⟨a, ha, hr⟩ := bind_ok _ _ _ h
    show (firstFitLoop s.mem size fuel' s.heapList last >>= _) = _
    rw [firstFitLoop_mono _ _ _ _ _ _ ha fuel' hle]
    exact hr
  | best =>
    unfold findFreeBlock at h ⊢
    obtain ⟨a, ha, hr⟩ := bind_ok _ _ _ h
    show (bestFitLoop s.mem size fuel' s.heapList last 0 INT_MAX >>= _) = _
    rw [bestFitLoop_mono _ _ _ _ _ _ _ _ ha fuel' hle]
    exact hr
  | worst =>
    unfold findFreeBlock at h ⊢
    obtain ⟨a, ha, hr⟩ := bind_ok _ _ _ h
    show (worstFitLoop s.mem size fuel' s.heapList last 0 0 >>= _) = _
    rw [worstFitLoop_mono _ _ _ _ _ _ _ _ ha fuel' hle]
    exact hr
  | next =>
    unfold findFreeBlock at h ⊢
    simp only at h ⊢
    by_cases hn : s.nextFitPT = 0
    · rw [if_pos hn] at h ⊢
      obtain ⟨a, ha, hr⟩ := bind_ok _ _ _ h
      show (firstFitLoop s.mem size fuel' s.heapList last >>= _) = _
      rw [firstFitLoop_mono _ _ _ _ _ _ ha fuel' hle]
      exact hr
    · rw [if_neg hn] at h ⊢
      obtain ⟨a, ha, hr⟩ := bind_ok _ _ _ h
      show (firstFitLoop s.mem size fuel' s.nextFitPT last >>= _) = _
      rw [firstFitLoop_mono _ _ _ _ _ _ ha fuel' hle]
      show (if a.1 = 0 then _ else _) = _
      by_cases ha0 : a.1 = 0
      · rw [if_pos ha0] at hr ⊢
        obtain ⟨w, hw, hr'⟩ := bind_ok _ _ _ hr
        show (wrapLoop s.mem size s.nextFitPT fuel' s.heapList a.2 >>= _) = _
        rw [wrapLoop_mono _ _ _ _ _ _ _ hw fuel' hle]
        exact hr'
      · rw [if_neg ha0] at hr ⊢
        exact hr

/-- A `malloc` call that returned returns the same with more fuel. -/
theorem malloc_mono (fit : Fit) (fuel n : Nat) (s : State) (r : Nat × State)
    (h : malloc fit fuel n s = .ok r) (fuel' : Nat) (hle : fuel ≤ fuel') :
    malloc fit fuel' n s = .ok r := by
  unfold malloc at h ⊢
  simp only at h ⊢
  by_cases hA : ALIGN4 n = 0
  · rw [if_pos hA] at h ⊢
    exact h
  · rw [if_neg hA] at h ⊢
    obtain ⟨a, ha, hr⟩ := bind_ok _ _ _ h
    show (findFreeBlock fit fuel' (enter n s).heapList (ALIGN4 n) (enter n s) >>= _) = _
    rw [findFreeBlock_mono _ _ _ _ _ _ ha fuel' hle]
    exact hr
/-! ## Blocks in use across `malloc` -/

/-- Two different members of a list whose members are pairwise related are
related one way or the other. -/
theorem pairwise_either {R : Nat → Nat → Prop} : ∀ (l : List Nat), l.Pairwise R →
    ∀ a b, a ∈ l → b ∈ l → a ≠ b → R a b ∨ R b a := by
  intro l
  induction l with
  | nil => intro _ a b ha; simp at ha
  | cons x t ih =>
    intro h a b ha hb hne
    obtain ⟨hx, ht⟩ := List.pairwise_cons.mp h
    rcases List.mem_cons.mp ha with rfl | ha'
    · rcases List.mem_cons.mp hb with rfl | hb'
      · exact absurd rfl hne
      · exact Or.inl (hx b hb')
    · rcases List.mem_cons.mp hb with rfl | hb'
      · exact Or.inr (hx a ha')
      · exact ih ht a b ha' hb' hne

/-- A `malloc` call leaves the size field and the flag of every block in use
as they were. -/
theorem malloc_keeps_used (fit : Fit) (hfit : fit ≠ .next) (s s' : State) (l : List Nat)
    (fuel n q : Nat) (hinv : Inv s l) (hn : n ≤ maxRequest)
    (h : malloc fit fuel n s = .ok (q, s')) (a : Nat) (ha : a ∈ l)
    (hused : (s.mem a).free = false) :
    (s'.mem a).size = (s.mem a).size ∧ (s'.mem a).free = false := by
  obtain ⟨hE1, -, -, -, -, -, -, -, hE9, hE10, hE11, hE12, hE13⟩ := enter_fields n s
  have hinvE : Inv (enter n s) l :=
    Inv.congr s _ l hinv (enter_mem n s) hE1 hE11 hE12 hE13 hE9 hE10
  have hbounds := Tiled.bounds _ _ _ _ hinvE.tiled
  have hbp := hinvE.base_pos
  have hble := hinvE.brk_le
  have hll := hinvE.lim_lt
  have hmE := enter_mem n s
  by_cases hA : ALIGN4 n = 0
  · unfold malloc at h
    simp only [hA, if_true, Except.ok.injEq, Prod.mk.injEq] at h
    obtain ⟨-, rfl⟩ := h
    rw [hmE]
    exact ⟨rfl, hused⟩
  · have hn1 : 1 ≤ n := by
      by_contra h0
      have : n = 0 := by omega
      rw [this] at hA
      exact hA ALIGN4_zero
    obtain ⟨-, hAs⟩ := ALIGN4_request n hn1 hn
    obtain ⟨b, last, st, c, sg, hfind, hob, hho⟩ := malloc_ok fit fuel n s s' q hA h
    obtain ⟨rfl, hfits⟩ := findFreeBlock_fits fit hfit _ _ _ _ _ _ _ hfind
    have hs' : (handOut c sg).2 = s' := congrArg Prod.snd hho
    unfold obtainBlock at hob
    by_cases hb : b = 0
    · rw [if_neg (not_not.mpr hb)] at hob
      have hnz : (enter n s).brk ≠ 0 := by omega
      have hbrk : (enter n s).brk ≠ 2 ^ 64 - 1 := by omega
      by_cases hfail : (sbrk (toIntptr (add64 sizeofBlock (ALIGN4 n))) (enter n s)).1 = 2 ^ 64 - 1
      · rw [growHeap_failure_aborts last (ALIGN4 n) (enter n s) hfail hbrk] at hob
        simp at hob
      · have hmap : ¬ mappedEnd (sbrk (toIntptr (add64 sizeofBlock (ALIGN4 n))) (enter n s)).2
            < (enter n s).brk + sizeofBlock := by
          have hadd : add64 sizeofBlock (ALIGN4 n) = sizeofBlock + ALIGN4 n :=
            add64_of_lt _ _ (by unfold sizeofBlock at *; omega)
          rw [hadd] at hfail ⊢
          exact sbrk_mapped _ _ (by omega) (by unfold sizeofBlock at *; omega) hfail
        obtain ⟨sg', hg', -, hmem, -⟩ := grow_state last (ALIGN4 n) (enter n s) hfail hmap hnz
        rw [hob] at hg'
        simp only [Except.ok.injEq, Prod.mk.injEq] at hg'
        obtain ⟨rfl, rfl⟩ := hg'
        have hnew : a ≠ (enter n s).brk := fun e => by
          have := (hbounds.2 a ha).2
          unfold sizeofBlock at this
          omega
        rw [← hs', hmem, if_neg hnew, ← hmE]
        split
        · exact ⟨rfl, by rw [hmE]; exact hused⟩
        · exact ⟨rfl, by rw [hmE]; exact hused⟩
    · rw [if_pos hb] at hob
      simp only [Except.ok.injEq, Prod.mk.injEq] at hob
      obtain ⟨rfl, rfl⟩ := hob
      have hbl : b ∈ l := by
        rcases findFreeBlock_mem fit hfit _ _ _ _ _ l _ _ hinvE.chain hfind with h0 | h0
        · exact absurd h0 hb
        · exact h0
      have hfb := hfits hb
      have hab : a ≠ b := fun e => by
        have h1 := hfb.1
        rw [hmE, ← e, hused] at h1
        exact Bool.false_ne_true h1
      by_cases hs : add64 sizeofBlock 4
          ≤ ofInt (toInt32 (sub64 ((enter n s).mem b).size (ALIGN4 n)))
      · have hmem := reuse_split_mem b (ALIGN4 n) (enter n s) hb hs a
        have hlt : ((enter n s).mem b).size < 2 ^ 64 := by
          have := (hbounds.2 b hbl).2
          omega
        have h28 := ofInt_toInt32_ge _ hs
        rw [sub64_of_le _ _ hfb.2 hlt] at h28
        have hord := pairwise_either l (Tiled.ordered _ _ _ _ hinvE.tiled) a b ha hbl hab
        have hnb : a ≠ b + ALIGN4 n + sizeofBlock := fun e => by
          rcases hord with h1 | h1
          · unfold sizeofBlock at h1 e; omega
          · unfold sizeofBlock at h1 e; omega
        rw [← hs', hmem, if_neg hab, if_neg hnb, hmE]
        exact ⟨rfl, hused⟩
      · have hmem := reuse_whole_mem b (ALIGN4 n) (enter n s) hb hs a
        rw [← hs', hmem, if_neg hab, hmE]
        exact ⟨rfl, hused⟩

/-! ## Bytes written next to headers -/

theorem Mem.overwrite_clear (m : Mem) (dst n : Nat) (w : Bytes) (a : Nat)
    (h : a + sizeofBlock ≤ dst ∨ dst + n ≤ a) : m.overwrite dst n w a = m a := by
  unfold Mem.overwrite
  rw [if_pos h]

/-- The break lies in the mapped memory or at its end. -/
theorem mappedEnd_ge (s : State) (h : s.brkMin ≤ s.brk) : s.brk ≤ mappedEnd s := by
  unfold mappedEnd pageSize
  omega

/-- The heap stays well formed when header memory changes outside the chain. -/
theorem Inv.heap_overwritten (s : State) (l : List Nat) (m' : Mem) (h : Inv s l)
    (hm : ∀ a ∈ l, m' a = s.mem a) : Inv { s with mem := m' } l :=
  ⟨h.base_pos, h.brk_le, h.lim_lt,
   IsChain.chain_frame s.mem m' l _ (fun x hx => by rw [hm x hx]) h.chain,
   Tiled.tiled_frame s.mem m' l _ _ (fun x hx => by rw [hm x hx]) h.tiled,
   NoAdjacentFree.flags_frame s.mem m' l (fun x hx => by rw [hm x hx]) h.noadj,
   h.blocks, h.heap⟩

theorem LiveOk.live_overwritten (m m' : Mem) (l L : List Nat) (h : LiveOk m l L)
    (hm : ∀ a ∈ l, m' a = m a) : LiveOk m' l L :=
  ⟨h.1, fun p hp => by
    obtain ⟨a, hal, hpa, hfree⟩ := h.2 p hp
    exact ⟨a, hal, hpa, by rw [hm a hal]; exact hfree⟩⟩

/-- In a well-formed heap, bytes written from the payload address of a block
of the chain on reach no header of the chain, when they end inside the block
or when the block is the last of the chain. -/
theorem chain_clear (s : State) (l : List Nat) (h : Inv s l) (b k : Nat) (hb : b ∈ l)
    (hk : k ≤ (s.mem b).size ∨ (s.mem b).next = 0) :
    ∀ a ∈ l, a + sizeofBlock ≤ b + sizeofBlock ∨ b + sizeofBlock + k ≤ a := by
  intro a ha
  by_cases hab : a = b
  · left; rw [hab]
  · have hord := pairwise_either l (Tiled.ordered _ _ _ _ h.tiled) a b ha hb hab
    rcases hord with h1 | h1
    · left; omega
    · rcases hk with hk | hk
      · right; omega
      · have hend := ((chain_links s.mem l _ _ _ h.chain h.tiled).1 b hb).2 hk
        have hbound := ((Tiled.bounds _ _ _ _ h.tiled).2 a ha).2
        unfold sizeofBlock at *
        omega

/-- The payload of a block of a well-formed heap lies in the mapped memory. -/
theorem payload_inHeap (s : State) (l : List Nat) (h : Inv s l) (b k : Nat) (hb : b ∈ l)
    (hk : k ≤ (s.mem b).size) : inHeap s (b + sizeofBlock) k := by
  obtain ⟨h1, h2⟩ := Tiled.bounds _ _ _ _ h.tiled
  obtain ⟨h3, h4⟩ := h2 b hb
  have := mappedEnd_ge s h1
  unfold inHeap
  omega

theorem ALIGN4_wrap (s : Nat) (hs : s < 2 ^ 64) (h : s = 0 ∨ 2 ^ 64 - 4 < s) : ALIGN4 s = 0 := by
  unfold ALIGN4 add64 sub64
  simp only [Nat.shiftRight_eq_div_pow, Nat.shiftLeft_eq]
  norm_num at *
  omega

/-- Under the three full-scan strategies the block handed out by `malloc` has
a size field of at least the request. -/
theorem malloc_block_size (fit : Fit) (hfit : fit ≠ .next) (fuel n p : Nat) (s s' : State)
    (h1 : 1 ≤ n) (h2 : n ≤ 2 ^ 64 - 4) (h : malloc fit fuel n s = .ok (p, s')) (hp : p ≠ 0) :
    n ≤ (s'.mem (p - sizeofBlock)).size := by
  have hA := ALIGN4_eq n h1 h2
  have hA0 : ALIGN4 n ≠ 0 := by omega
  have hAn : n ≤ ALIGN4 n := by omega
  obtain ⟨b, last, st, c, sg, hfind, hob, hho⟩ := malloc_ok fit fuel n s s' p hA0 h
  obtain ⟨rfl, hfits⟩ := findFreeBlock_fits fit hfit _ _ _ _ _ _ _ hfind
  obtain ⟨hc, rfl, -, hsize, -⟩ := handOut_block c sg s' p hho hp
  have hpc : c + sizeofBlock - sizeofBlock = c := Nat.add_sub_cancel ..
  rw [hpc, hsize]
  unfold obtainBlock at hob
  by_cases hb : b = 0
  · rw [if_neg (not_not.mpr hb)] at hob
    rw [growHeap_block _ _ _ _ _ hob hc]
    exact hAn
  · rw [if_pos hb] at hob
    simp only [Except.ok.injEq, Prod.mk.injEq] at hob
    obtain ⟨rfl, rfl⟩ := hob
    exact le_trans hAn (reuseBlock_block b (ALIGN4 n) (enter n s) (hfits hb).2).1

theorem memset_ok (dst c n : Nat) (s : State) (d : Bytes) (hn : n ≠ 0) (h0 : dst ≠ 0)
    (hw : inHeap s dst n) :
    memset dst c n s d = .ok ({ s with mem := s.mem.overwrite dst n fun _ => c % 256 },
      fun a => if dst ≤ a ∧ a < dst + n then c % 256 else d a) := by
  unfold memset
  rw [if_neg hn, if_neg h0, if_neg (not_not.mpr hw)]

theorem memcpy_ok (dst src n : Nat) (s : State) (d : Bytes) (hn : n ≠ 0) (h0 : dst ≠ 0)
    (h1 : src ≠ 0) (hw : inHeap s dst n) (hr : inHeap s src n) :
    memcpy dst src n s d
      = .ok ({ s with mem := s.mem.overwrite dst n fun x => d (src + (x - dst)) },
        fun a => if dst ≤ a ∧ a < dst + n then d (src + (a - dst)) else d a) := by
  unfold memcpy
  rw [if_neg hn, if_neg (by simp [h0, h1]), if_neg (not_not.mpr ⟨hw, hr⟩)]

/-- The two calls of `calloc`, one after the other. -/
theorem calloc_unfold (fit : Fit) (fuel n sz : Nat) (s : State) (d : Bytes) :
    calloc fit fuel n sz s d =
      match malloc fit fuel ((n * sz) % 2 ^ 64) s with
      | .ok r =>
        match memset r.1 0 ((n * sz) % 2 ^ 64) r.2 d with
        | .ok c => .ok (r.1, c.1, c.2)
        | .error e => .error e
      | .error e => .error e := by
  unfold calloc
  generalize (n * sz) % 2 ^ 64 = k
  show (malloc fit fuel k s >>= fun r =>
    memset r.1 0 k r.2 d >>= fun c => pure (r.1, c.1, c.2)) = _
  cases malloc fit fuel k s with
  | error e => rfl
  | ok r =>
    show (memset r.1 0 k r.2 d >>= fun c => pure (r.1, c.1, c.2)) = (match memset r.1 0 k r.2 d with
      | .ok c => Except.ok (r.1, c.1, c.2)
      | .error e => .error e)
    cases memset r.1 0 k r.2 d <;> rfl

/-- The three calls of `realloc` on a pointer and a size that are not 0. -/
theorem realloc_unfold (fit : Fit) (fuel p n q : Nat) (s s' : State) (d : Bytes)
    (hn : n ≠ 0) (hp : p ≠ 0) (ht : p - sizeofBlock ≠ 0)
    (hm : malloc fit fuel n s = .ok (q, s')) :
    realloc fit fuel p n s d =
      match memcpy q p (s'.mem (p - sizeofBlock)).size s' d with
      | .ok c =>
        match free fuel p c.1 with
        | .ok s'' => .ok (q, s'', c.2)
        | .error e => .error e
      | .error e => .error e := by
  unfold realloc
  rw [if_neg hn, if_neg hp]
  show (malloc fit fuel n s >>= fun r =>
    if p - sizeofBlock = 0 then Except.error Fault.nullDeref
    else memcpy r.1 p (r.2.mem (p - sizeofBlock)).size r.2 d >>= fun c =>
      free fuel p c.1 >>= fun s => pure (r.1, s, c.2)) = _
  rw [hm]
  show (if p - sizeofBlock = 0 then Except.error Fault.nullDeref
    else memcpy q p (s'.mem (p - sizeofBlock)).size s' d >>= fun c =>
      free fuel p c.1 >>= fun s => pure (q, s, c.2)) = _
  rw [if_neg ht]
  cases memcpy q p (s'.mem (p - sizeofBlock)).size s' d with
  | error e => rfl
  | ok c =>
    show (free fuel p c.1 >>= fun s => pure (q, s, c.2)) = (match free fuel p c.1 with
      | .ok s'' => Except.ok (q, s'', c.2)
      | .error e => .error e)
    cases free fuel p c.1 <;> rfl

/-! ## `calloc` -/

/-- C15 (amended). Under first-fit, best-fit or worst-fit, in a process whose
break starts above 0 and stays below `2^64 - 1`, in every state reached from
the empty heap by `malloc` calls with requests of at most `2^63 - 28` bytes
and `free` calls on live addresses: for every count `n` and element size
`sz`, with `k = (n * sz) mod 2^64`, `calloc(n, sz)` calls `malloc(k)`; when
that call returns the address `q` in the state `s'`:
* if `q` is not `NULL` and `k <= 2^63 - 28`, `calloc` returns `q`; the
  allocator state is `s'` (every global and the header of every block of the
  chain), the `k` bytes from `q` on are zero and no other byte has changed;
* if `q` is `NULL` and `k = 0`, `calloc` returns `NULL` in the state `s'` and
  no byte has changed;
* if `q` is `NULL` and `k` is not 0, `calloc` does not return: `memset`
  writes through `NULL`. -/
theorem calloc_zeroes (fit : Fit) (hfit : fit ≠ .next) (base lim : Nat) (hb : 0 < base)
    (hbl : base ≤ lim) (hl : lim + 1 < 2 ^ 64) (s : State) (L : List Nat)
    (hr : Reach fit maxRequest base lim s L) (fuel n sz q : Nat) (s' : State) (d : Bytes)
    (hm : malloc fit fuel ((n * sz) % 2 ^ 64) s = .ok (q, s')) :
    (q ≠ 0 → (n * sz) % 2 ^ 64 ≤ maxRequest →
      ∃ sc d' l', calloc fit fuel n sz s d = .ok (q, sc, d') ∧
        sc = { s' with mem := sc.mem } ∧ IsChain s'.mem s'.heapList l' ∧
        (∀ a ∈ l', sc.mem a = s'.mem a) ∧
        (∀ i, i < (n * sz) % 2 ^ 64 → d' (q + i) = 0) ∧
        (∀ a, a < q ∨ q + (n * sz) % 2 ^ 64 ≤ a → d' a = d a)) ∧
    (q = 0 → (n * sz) % 2 ^ 64 = 0 → calloc fit fuel n sz s d = .ok (0, s', d)) ∧
    (q = 0 → (n * sz) % 2 ^ 64 ≠ 0 → calloc fit fuel n sz s d = .error .nullDeref) := by
  refine ⟨?_, ?_, ?_⟩
  · intro hq hk
    obtain ⟨l, hinv, hlive⟩ := reach_inv fit hfit base lim hb hbl hl s L hr
    obtain ⟨l', hinv', hlive'⟩ := malloc_inv fit hfit s s' l L fuel _ q hinv hlive hk hm
    rw [if_neg hq] at hlive'
    obtain ⟨aq, haql, hqa, -⟩ := hlive'.2 q (List.mem_cons_self _ _)
    have hqc : q - sizeofBlock = aq := by rw [hqa]; exact Nat.add_sub_cancel ..
    have hA := malloc_ne_zero fit fuel _ q s s' hm hq
    have hk0 : (n * sz) % 2 ^ 64 ≠ 0 := fun h0 => hA (by rw [h0]; exact ALIGN4_zero)
    have hk' : (n * sz) % 2 ^ 64 ≤ 2 ^ 63 - 28 := hk
    have hsize := malloc_block_size fit hfit fuel _ q s s' (by omega)
      (by norm_num at hk' ⊢; omega) hm hq
    rw [hqc] at hsize
    have hw : inHeap s' q ((n * sz) % 2 ^ 64) := by
      rw [hqa]; exact payload_inHeap s' l' hinv' aq _ haql hsize
    have hclear := chain_clear s' l' hinv' aq ((n * sz) % 2 ^ 64) haql (Or.inl hsize)
    refine ⟨{ s' with mem := s'.mem.overwrite q ((n * sz) % 2 ^ 64) fun _ => 0 % 256 },
      fun a => if q ≤ a ∧ a < q + (n * sz) % 2 ^ 64 then 0 % 256 else d a, l',
      ?_, rfl, hinv'.chain, ?_, ?_, ?_⟩
    · rw [calloc_unfold, hm]
      show (match memset q 0 ((n * sz) % 2 ^ 64) s' d with
        | .ok c => Except.ok (q, c.1, c.2)
        | .error e => .error e) = _
      rw [memset_ok q 0 _ s' d hk0 hq hw]
    · intro a ha
      exact Mem.overwrite_clear _ _ _ _ a (by rw [hqa]; exact hclear a ha)
    · intro i hi
      show (if q ≤ q + i ∧ q + i < q + (n * sz) % 2 ^ 64 then 0 % 256 else d (q + i)) = 0
      rw [if_pos ⟨by omega, by omega⟩]
    · intro a ha
      exact if_neg (by omega)
  · intro hq h0
    subst hq
    rw [calloc_unfold, hm]
    show (match memset 0 0 ((n * sz) % 2 ^ 64) s' d with
      | .ok c => Except.ok (0, c.1, c.2)
      | .error e => .error e) = _
    have : memset 0 0 ((n * sz) % 2 ^ 64) s' d = .ok (s', d) := by
      unfold memset; rw [if_pos h0]
    rw [this]
  · intro hq h0
    subst hq
    rw [calloc_unfold, hm]
    show (match memset 0 0 ((n * sz) % 2 ^ 64) s' d with
      | .ok c => Except.ok (0, c.1, c.2)
      | .error e => .error e) = _
    have : memset 0 0 ((n * sz) % 2 ^ 64) s' d = .error .nullDeref := by
      unfold memset; rw [if_neg h0, if_pos rfl]
    rw [this]

/-- C15 on the call `calloc(3, 4)` in a fresh process, all bytes being 7
before: `malloc(12)` returns 1024; `calloc` returns 1024, the headers of the
chain are those `malloc(12)` left, the 12 bytes from 1024 on are zero and
every other byte is still 7. -/
theorem calloc_zeroes_witness :
    ∃ sc d' l', calloc .first 1 3 4 fresh (fun _ => 7) = .ok (1024, sc, d') ∧
      sc = { stateOf fresh (malloc .first 1 12 fresh) with mem := sc.mem } ∧
      IsChain (stateOf fresh (malloc .first 1 12 fresh)).mem
        (stateOf fresh (malloc .first 1 12 fresh)).heapList l' ∧
      (∀ a ∈ l', sc.mem a = (stateOf fresh (malloc .first 1 12 fresh)).mem a) ∧
      (∀ i, i < (3 * 4) % 2 ^ 64 → d' (1024 + i) = 0) ∧
      (∀ a, a < 1024 ∨ 1024 + (3 * 4) % 2 ^ 64 ≤ a → d' a = 7) :=
  (calloc_zeroes .first (by decide) 1000 (2 ^ 40) (by decide) (by decide) (by decide)
    fresh [] Reach.init 1 3 4 1024 (stateOf fresh (malloc .first 1 12 fresh))
    (fun _ => 7) rfl).1 (by decide) (by decide)

/-- C15 as stated fails in two ways.  (a) For `calloc(1, 2^64 - 1)` in a fresh
process the request `2^64 - 1` rounds to 0 and `malloc` returns `NULL`;
`calloc` does not yield the empty result: `memset(NULL, 0, 2^64 - 1)` writes
through `NULL`.  (b) After `malloc(200)`, for `calloc(1, 2^64 - 180)` the
call `malloc(2^64 - 180)` yields the address 1248 (the argument of `sbrk`
wraps to -156 and the break moves down), and `calloc` does not return that
address: `memset(1248, 0, 2^64 - 180)` runs past the mapped memory. -/
theorem calloc_zeroes_counterexample :
    ((1 * (2 ^ 64 - 1)) % 2 ^ 64 = 2 ^ 64 - 1 ∧
      valueOf (malloc .first 1 (2 ^ 64 - 1) fresh) = some 0 ∧
      addressOf (calloc .first 1 1 (2 ^ 64 - 1) fresh (fun _ => 0)) = none ∧
      faultOf (calloc .first 1 1 (2 ^ 64 - 1) fresh (fun _ => 0)) = some .nullDeref) ∧
    (Reach .first maxRequest 1000 (2 ^ 40) oneBlock200 [1024] ∧
      (1 * (2 ^ 64 - 180)) % 2 ^ 64 = 2 ^ 64 - 180 ∧
      valueOf (malloc .first 2 (2 ^ 64 - 180) oneBlock200) = some 1248 ∧
      addressOf (calloc .first 2 1 (2 ^ 64 - 180) oneBlock200 (fun _ => 0)) = none ∧
      faultOf (calloc .first 2 1 (2 ^ 64 - 180) oneBlock200 (fun _ => 0)) = some .segfault) :=
  ⟨by decide,
   ⟨reach_of_run .first maxRequest 1000 (2 ^ 40) 1 [.malloc 200] fresh []
      [1024] oneBlock200 [1024] Reach.init (run_eq fresh _ _ (by decide)) (by decide),
    by decide, by decide, by decide, by decide⟩⟩

/-! ## `realloc` -/

/-- What `memcpy` does when both ranges lie in the mapped memory: the bytes
are copied, and every header clear of the destination range is unchanged. -/
theorem memcpy_spec (dst src n : Nat) (s : State) (d : Bytes) (h0 : dst ≠ 0) (h1 : src ≠ 0)
    (hw : inHeap s dst n) (hr : inHeap s src n) :
    ∃ sc d', memcpy dst src n s d = .ok (sc, d') ∧ sc = { s with mem := sc.mem } ∧
      (∀ a, a + sizeofBlock ≤ dst ∨ dst + n ≤ a → sc.mem a = s.mem a) ∧
      (∀ i, i < n → d' (dst + i) = d (src + i)) ∧
      (∀ a, a < dst ∨ dst + n ≤ a → d' a = d a) := by
  by_cases hn : n = 0
  · refine ⟨s, d, ?_, rfl, fun _ _ => rfl, ?_, fun _ _ => rfl⟩
    · unfold memcpy; rw [if_pos hn]
    · intro i hi; omega
  · refine ⟨_, _, memcpy_ok dst src n s d hn h0 h1 hw hr, rfl, ?_, ?_, ?_⟩
    · intro a ha
      exact Mem.overwrite_clear _ _ _ _ a ha
    · intro i hi
      show (if dst ≤ dst + i ∧ dst + i < dst + n then d (src + (dst + i - dst))
        else d (dst + i)) = _
      rw [if_pos ⟨by omega, by omega⟩, Nat.add_sub_cancel_left]
    · intro a ha
      exact if_neg (by omega)

/-- C14 (amended). Under first-fit, best-fit or worst-fit, in a process whose
break starts above 0 and stays below `2^64 - 1`, in every state reached from
the empty heap by `malloc` calls with requests of at most `2^63 - 28` bytes
and `free` calls on live addresses: for every live address `p` whose block
has size `m` and every new size `0 < n <= 2^63 - 28` for which `malloc(n)`
returns an address `q`, such that the `m` bytes from `q` on run over no
header and stay in the mapped memory (the new block has size at least `m`,
or it is the last block of the chain and `q + m` is not past the mapped
memory): `q` differs from `p` and the `m` bytes at `q` do not overlap the `m`
bytes at `p`; with enough fuel `realloc(p, n)` returns `q`; it is
`malloc(n)`, then the copy of exactly `m` bytes from `p` to `q`, which leaves
the globals and the header of every block of the chain as `malloc(n)` left
them, then `free(p)`; after the call the `m` bytes at `q` are the `m` bytes
that were at `p`, no other byte has changed, the block of `p` is marked free
and the block of `q` is in use. -/
theorem realloc_moves_block (fit : Fit) (hfit : fit ≠ .next) (base lim : Nat) (hb : 0 < base)
    (hbl : base ≤ lim) (hl : lim + 1 < 2 ^ 64) (s : State) (L : List Nat)
    (hr : Reach fit maxRequest base lim s L) (p n : Nat) (hp : p ∈ L) (hn0 : 0 < n)
    (hn : n ≤ maxRequest) (fuel q : Nat) (s' : State)
    (hm : malloc fit fuel n s = .ok (q, s')) (hq : q ≠ 0) (d : Bytes)
    (hcopy : (s.mem (p - sizeofBlock)).size ≤ (s'.mem (q - sizeofBlock)).size ∨
      ((s'.mem (q - sizeofBlock)).next = 0 ∧
        q + (s.mem (p - sizeofBlock)).size ≤ mappedEnd s')) :
    q ≠ p ∧
    (q + (s.mem (p - sizeofBlock)).size ≤ p ∨ p + (s.mem (p - sizeofBlock)).size ≤ q) ∧
    ∃ F sc s'' d' l',
      (∀ fuel', F ≤ fuel' →
        realloc fit fuel' p n s d = .ok (q, s'', d') ∧ malloc fit fuel' n s = .ok (q, s') ∧
        memcpy q p (s.mem (p - sizeofBlock)).size s' d = .ok (sc, d') ∧
        free fuel' p sc = .ok s'') ∧
      sc = { s' with mem := sc.mem } ∧ IsChain s'.mem s'.heapList l' ∧
      (∀ a ∈ l', sc.mem a = s'.mem a) ∧
      (∀ i, i < (s.mem (p - sizeofBlock)).size → d' (q + i) = d (p + i)) ∧
      (∀ a, a < q ∨ q + (s.mem (p - sizeofBlock)).size ≤ a → d' a = d a) ∧
      (s''.mem (p - sizeofBlock)).free = true ∧ (s''.mem (q - sizeofBlock)).free = false := by
  obtain ⟨l, hinv, hlive⟩ := reach_inv fit hfit base lim hb hbl hl s L hr
  obtain ⟨l', hinv', hlive'⟩ := malloc_inv fit hfit s s' l L fuel n q hinv hlive hn hm
  rw [if_neg hq] at hlive'
  obtain ⟨ap, hal, hpa, hafree⟩ := hlive.2 p hp
  have hpc : p - sizeofBlock = ap := by rw [hpa]; exact Nat.add_sub_cancel ..
  rw [hpc] at hcopy ⊢
  obtain ⟨hksize, -⟩ := malloc_keeps_used fit hfit s s' l fuel n q hinv hn hm ap hal hafree
  have ha0 : ap ≠ 0 := IsChain.ne_zero _ _ _ hinv.chain ap hal
  have hp0 : p ≠ 0 := by rw [hpa]; unfold sizeofBlock; omega
  have hqp : q ≠ p := fun e => (List.nodup_cons.mp hlive'.1).1 (e ▸ hp)
  obtain ⟨aq, haql, hqa, -⟩ := hlive'.2 q (List.mem_cons_self _ _)
  obtain ⟨ap', hapl, hpap, -⟩ := hlive'.2 p (List.mem_cons_of_mem _ hp)
  have hap : ap' = ap := by omega
  subst hap
  have hqc : q - sizeofBlock = aq := by rw [hqa]; exact Nat.add_sub_cancel ..
  rw [hqc] at hcopy ⊢
  have hne : aq ≠ ap' := fun e => hqp (by rw [hqa, hpa, e])
  have hbounds := Tiled.bounds _ _ _ _ hinv'.tiled
  have hord := pairwise_either l' (Tiled.ordered _ _ _ _ hinv'.tiled) aq ap' haql hapl hne
  rw [hksize] at hord
  have hdis : q + (s.mem ap').size ≤ p ∨ p + (s.mem ap').size ≤ q := by
    rcases hord with h1 | h1
    · rcases hcopy with h2 | h2
      · left; unfold sizeofBlock at *; omega
      · have hend := ((chain_links s'.mem l' _ _ _ hinv'.chain hinv'.tiled).1 aq haql).2 h2.1
        have hpb := (hbounds.2 ap' hapl).2
        unfold sizeofBlock at *; omega
    · right; unfold sizeofBlock at *; omega
  have hclear := chain_clear s' l' hinv' aq (s.mem ap').size haql (hcopy.imp id And.left)
  have hw : inHeap s' q (s.mem ap').size := by
    rcases hcopy with h2 | h2
    · rw [hqa]; exact payload_inHeap s' l' hinv' aq _ haql h2
    · have := (hbounds.2 aq haql).1
      unfold inHeap
      exact ⟨by omega, h2.2⟩
  have hrd : inHeap s' p (s.mem ap').size := by
    rw [hpa]; exact payload_inHeap s' l' hinv' ap' _ hapl (le_of_eq hksize.symm)
  obtain ⟨sc, d', hcp, hsc, hagree, hbytes, hframe⟩ :=
    memcpy_spec q p (s.mem ap').size s' d hq hp0 hw hrd
  have hon : ∀ a ∈ l', sc.mem a = s'.mem a := fun a ha =>
    hagree a (by rw [hqa]; exact hclear a ha)
  have hinvc : Inv sc l' := by
    rw [hsc]; exact Inv.heap_overwritten s' l' sc.mem hinv' hon
  have hlivec : LiveOk sc.mem l' (q :: L) :=
    LiveOk.live_overwritten s'.mem sc.mem l' _ hlive' hon
  obtain ⟨s'', l'', hfree, -, hlive''⟩ := free_spec sc l' (q :: L) p (l'.length + 1) hinvc hlivec
    (List.mem_cons_of_mem _ hp) (Nat.lt_succ_self _)
  refine ⟨hqp, hdis, max fuel (l'.length + 1), sc, s'', d', l', ?_, hsc, hinv'.chain, hon,
    hbytes, hframe, ?_, ?_⟩
  · intro fuel' hF
    have hm' := malloc_mono fit fuel n s _ hm fuel' (le_trans (le_max_left _ _) hF)
    have hf' := free_mono _ p sc s'' hfree fuel' (le_trans (le_max_right _ _) hF)
    refine ⟨?_, hm', hcp, hf'⟩
    rw [realloc_unfold fit fuel' p n q s s' d (by omega) hp0 (by rw [hpc]; exact ha0) hm',
      hpc, hksize, hcp]
    show (match free fuel' p sc with
      | .ok s'' => Except.ok (q, s'', d')
      | .error e => .error e) = _
    rw [hf']
  · have := (free_fields _ p sc s'' hfree hp0).2.2.2.2.2.1
    rw [hpc] at this
    exact this
  · have hql : q ∈ (q :: L).erase p := by
      rw [List.erase_cons_tail (by simpa using hqp)]
      exact List.mem_cons_self _ _
    obtain ⟨a, -, hqa', hfa⟩ := hlive''.2 q hql
    have : a = aq := by omega
    rw [this] at hfa
    exact hfa

/-- C14 on a shrinking call.  After `malloc(40)` the address 1024 is live with
a block of size 40.  `realloc(1024, 4)` has `malloc(4)` grow the heap: the new
block, of size 4, is the last of the chain and its payload starts at 1088;
the 40 bytes copied to 1088 run past that block but stay in the mapped
memory.  The call returns 1088, the 40 bytes at 1088 are those that were at
1024, the block of 1024 is free and the block of 1088 is in use. -/
theorem realloc_moves_block_witness :
    1088 ≠ 1024 ∧
    (1088 + (oneBlock.mem (1024 - sizeofBlock)).size ≤ 1024 ∨
      1024 + (oneBlock.mem (1024 - sizeofBlock)).size ≤ 1088) ∧
    ∃ F sc s'' d' l',
      (∀ fuel', F ≤ fuel' →
        realloc .first fuel' 1024 4 oneBlock (fun a => a % 256) = .ok (1088, s'', d') ∧
        malloc .first fuel' 4 oneBlock
          = .ok (1088, stateOf oneBlock (malloc .first 2 4 oneBlock)) ∧
        memcpy 1088 1024 (oneBlock.mem (1024 - sizeofBlock)).size
          (stateOf oneBlock (malloc .first 2 4 oneBlock)) (fun a => a % 256) = .ok (sc, d') ∧
        free fuel' 1024 sc = .ok s'') ∧
      sc = { stateOf oneBlock (malloc .first 2 4 oneBlock) with mem := sc.mem } ∧
      IsChain (stateOf oneBlock (malloc .first 2 4 oneBlock)).mem
        (stateOf oneBlock (malloc .first 2 4 oneBlock)).heapList l' ∧
      (∀ a ∈ l', sc.mem a = (stateOf oneBlock (malloc .first 2 4 oneBlock)).mem a) ∧
      (∀ i, i < (oneBlock.mem (1024 - sizeofBlock)).size → d' (1088 + i) = (1024 + i) % 256) ∧
      (∀ a, a < 1088 ∨ 1088 + (oneBlock.mem (1024 - sizeofBlock)).size ≤ a →
        d' a = a % 256) ∧
      (s''.mem (1024 - sizeofBlock)).free = true ∧
      (s''.mem (1088 - sizeofBlock)).free = false :=
  realloc_moves_block .first (by decide) 1000 (2 ^ 40) (by decide) (by decide) (by decide)
    oneBlock [1024]
    (reach_of_run .first maxRequest 1000 (2 ^ 40) 1 [.malloc 40] fresh
      [] [1024] _ [1024] Reach.init (run_eq fresh _ _ (by decide)) (by decide))
    1024 4 (by decide) (by decide) (by decide) 2 1088
    (stateOf oneBlock (malloc .first 2 4 oneBlock)) (run_eq oneBlock _ _ (by decide))
    (by decide) (fun a => a % 256) (Or.inr ⟨by decide, by decide⟩)

/-- C14 as stated fails in three ways.
(a) After `malloc(4)` and `malloc(2^64 - 24)` the address 1052 is live, with a
block of size `2^64 - 24` whose header lies at the break.  In
`realloc(1052, 4)` the `malloc(4)` call grows the heap at that place and
returns `q = 1052 = p`; `realloc` copies 4 bytes, not `2^64 - 24`, returns
1052, and the block it returns is marked free.
(b) After `malloc(8000)` the address 1024 is live with a block of size 8000.
In `realloc(1024, 4)` the `malloc(4)` call succeeds and returns 9048; the
copy of 8000 bytes to 9048 runs past the mapped memory and `realloc` does not
return.
(c) After `malloc(4)`, `malloc(4)`, `malloc(56)` and `free(1024)` the address
1080 is live with a block of size 56, whose byte 48 is set to 1.  In
`realloc(1080, 4)` the `malloc(4)` call succeeds and returns 1024; the copy
of 56 bytes to 1024 runs over the headers 1028 and 1056, byte 48 lands on the
`free` field of the header of `p`, and the assertion of `free(p)` fails. -/
theorem realloc_moves_block_counterexample :
    (Reach .first (2 ^ 64 - 4) 1000 (2 ^ 40) pastBreak [1052, 1024] ∧
      pastBreak.mem (1052 - sizeofBlock) = ⟨2 ^ 64 - 24, 0, false⟩ ∧
      valueOf (malloc .first 3 4 pastBreak) = some 1052 ∧
      addressOf (realloc .first 3 1052 4 pastBreak (fun _ => 0)) = some 1052 ∧
      (stateOf pastBreak (malloc .first 3 4 pastBreak)).mem (1052 - sizeofBlock)
        = ⟨4, 0, false⟩ ∧
      (heapOf pastBreak (realloc .first 3 1052 4 pastBreak (fun _ => 0))).mem
        (1052 - sizeofBlock) = ⟨4, 0, true⟩) ∧
    (Reach .first maxRequest 1000 (2 ^ 40) twoPages [1024] ∧
      twoPages.mem (1024 - sizeofBlock) = ⟨8000, 0, false⟩ ∧
      valueOf (malloc .first 2 4 twoPages) = some 9048 ∧
      mappedEnd (stateOf twoPages (malloc .first 2 4 twoPages)) = 9192 ∧
      addressOf (realloc .first 2 1024 4 twoPages (fun _ => 0)) = none ∧
      faultOf (realloc .first 2 1024 4 twoPages (fun _ => 0)) = some .segfault) ∧
    (Reach .first maxRequest 1000 (2 ^ 40) threeLive [1080, 1052] ∧
      threeLive.mem (1080 - sizeofBlock) = ⟨56, 0, false⟩ ∧
      valueOf (malloc .first 4 4 threeLive) = some 1024 ∧
      addressOf (realloc .first 4 1080 4 threeLive (fun x => if x = 1080 + 48 then 1 else 0))
        = none ∧
      faultOf (realloc .first 4 1080 4 threeLive (fun x => if x = 1080 + 48 then 1 else 0))
        = some .assertFailed) :=
  ⟨⟨reach_of_run .first (2 ^ 64 - 4) 1000 (2 ^ 40) 2 [.malloc 4, .malloc (2 ^ 64 - 24)] fresh
      [] [1024, 1052] pastBreak [1052, 1024] Reach.init (run_eq fresh _ _ (by decide))
      (by decide),
    by decide, by decide, by decide, by decide, by decide⟩,
   ⟨reach_of_run .first maxRequest 1000 (2 ^ 40) 1 [.malloc 8000] fresh []
      [1024] twoPages [1024] Reach.init (run_eq fresh _ _ (by decide)) (by decide),
    by decide, by decide, by decide, by decide, by decide⟩,
   ⟨reach_of_run .first maxRequest 1000 (2 ^ 40) 4
      [.malloc 4, .malloc 4, .malloc 56, .free 1024] fresh []
      [1024, 1052, 1080] threeLive [1080, 1052] Reach.init (run_eq fresh _ _ (by decide))
      (by decide),
    by decide, by decide, by decide, by decide⟩⟩

end Malloc
